import Mathlib

/-!
Verification of the storage engine core (slotted pages, free-space manager,
clock replacer, buffer pool, table heap, record model) against its
natural-language specification.  The definitions below are a shallow
embedding of the C++ sources under `src/Storage`; machine `uint16_t`
quantities are modelled as `Nat` together with explicit upper-bound
hypotheses (`pageSize ≤ 65535`) under which the C++ narrowing casts are
the identity.
-/

namespace DBMS

/-- Status codes, mirroring `StatusCode` in `storage_types.h` (messages dropped). -/
inductive Status where
  | ok
  | invalidArgument
  | notFound
  | outOfRange
  | ioError
  | corruption
  | unavailable
  | unknown
deriving Repr, DecidableEq

/-! ## Byte stores

A page's record area is modelled as a total function from absolute byte
offsets to byte values.  `memmove` copies as via a temporary buffer, exactly
like the C library function; `writeList` copies an external buffer into the
store (the `std::memmove(page_ + off, rec, len)` calls, whose source is not
in the page). -/

/-- Read `len` bytes starting at `off`. -/
def readBytes (b : Nat → Nat) (off len : Nat) : List Nat :=
  (List.range len).map fun j => b (off + j)

/-- Overwrite the bytes at `[dst, dst + src.length)` with `src`. -/
def writeList (b : Nat → Nat) (dst : Nat) (src : List Nat) : Nat → Nat :=
  fun i => if dst ≤ i ∧ i < dst + src.length then src.getD (i - dst) 0 else b i

/-- `memmove`: copy `len` bytes from `src` to `dst` as via a temporary buffer. -/
def memmove (b : Nat → Nat) (dst src len : Nat) : Nat → Nat :=
  fun i => if dst ≤ i ∧ i < dst + len then b (src + (i - dst)) else b i

theorem readBytes_length (b : Nat → Nat) (off len : Nat) :
    (readBytes b off len).length = len := by
  simp [readBytes]

theorem readBytes_congr {b b' : Nat → Nat} {off len : Nat}
    (h : ∀ i, off ≤ i → i < off + len → b i = b' i) :
    readBytes b off len = readBytes b' off len := by
  simp only [readBytes, List.map_inj_left, List.mem_range]
  intro j hj
  exact h (off + j) (Nat.le_add_right _ _) (by omega)

theorem writeList_outside (b : Nat → Nat) (dst : Nat) (src : List Nat) (i : Nat)
    (h : i < dst ∨ dst + src.length ≤ i) : writeList b dst src i = b i := by
  simp only [writeList, ite_eq_right_iff]
  omega

theorem writeList_inside (b : Nat → Nat) (dst : Nat) (src : List Nat) (i : Nat)
    (h1 : dst ≤ i) (h2 : i < dst + src.length) :
    writeList b dst src i = src.getD (i - dst) 0 := by
  simp only [writeList, if_pos (And.intro h1 h2)]

theorem memmove_outside (b : Nat → Nat) (dst src len i : Nat)
    (h : i < dst ∨ dst + len ≤ i) : memmove b dst src len i = b i := by
  simp only [memmove, ite_eq_right_iff]
  omega

theorem memmove_inside (b : Nat → Nat) (dst src len i : Nat)
    (h1 : dst ≤ i) (h2 : i < dst + len) :
    memmove b dst src len i = b (src + (i - dst)) := by
  simp only [memmove, if_pos (And.intro h1 h2)]

theorem readBytes_writeList (b : Nat → Nat) (dst : Nat) (src : List Nat) :
    readBytes (writeList b dst src) dst src.length = src := by
  apply List.ext_getElem
  · simp [readBytes]
  · intro i h1 h2
    simp only [readBytes, List.getElem_map, List.getElem_range]
    rw [writeList_inside _ _ _ _ (Nat.le_add_right _ _) (by simpa [readBytes] using h1)]
    simp only [Nat.add_sub_cancel_left]
    exact List.getD_eq_getElem _ _ _

theorem readBytes_memmove (b : Nat → Nat) (dst src len : Nat) :
    readBytes (memmove b dst src len) dst len = readBytes b src len := by
  simp only [readBytes, List.map_inj_left, List.mem_range]
  intro j hj
  rw [memmove_inside _ _ _ _ _ (Nat.le_add_right _ _) (by omega)]
  simp

theorem sum_take_le (l : List Nat) (k : Nat) : (l.take k).sum ≤ l.sum := by
  conv_rhs => rw [← List.take_append_drop k l]
  rw [List.sum_append]
  exact Nat.le_add_right _ _

theorem sum_take_succ (l : List Nat) (k : Nat) (h : k < l.length) :
    (l.take (k + 1)).sum = (l.take k).sum + l[k] := by
  rw [← List.take_concat_get l k h, List.concat_eq_append, List.sum_append]
  simp

theorem sum_take_mono (l : List Nat) {k k' : Nat} (h : k ≤ k') :
    (l.take k).sum ≤ (l.take k').sum := by
  have : l.take k' = l.take k ++ (l.drop k).take (k' - k) := by
    rw [← List.take_add]
    congr 1
    omega
  rw [this, List.sum_append]
  exact Nat.le_add_right _ _

/-! ## Slotted page (`src/Storage/src/page/slotted_page.cc`)

`PageHeader` is 32 bytes on the target ABI (`u32`, pad, `u64`, three `u16`,
pad, two `u32`); a `Slot` is two `u16`, 4 bytes.  The slot directory that
physically lives at the page tail is modelled as the list `slots` (entry
`i` of the list is directory entry `i`); `slot_count` is its length. -/

/-- `sizeof(PageHeader)` on the target ABI. -/
def headerSize : Nat := 32

/-- `sizeof(Slot)`: two `uint16_t`. -/
def slotSize : Nat := 4

/-- A slot-directory entry: record offset from page start, record length.
`len = 0` marks a tombstone. -/
structure Slot where
  off : Nat
  len : Nat
deriving Repr, DecidableEq

/-- A slotted page: header fields plus the slot directory and record bytes. -/
structure SPage where
  pageId : Nat
  pageLsn : Nat
  formatVersion : Nat
  pageSize : Nat
  freeOff : Nat
  freeSize : Nat
  slots : List Slot
  bytes : Nat → Nat

namespace SlottedPage

/-- `SlottedPage::InitNew`: zero the buffer, set the header fields. -/
def initNew (pid psize : Nat) : SPage :=
  { pageId := pid
    pageLsn := 0
    formatVersion := 1
    pageSize := psize
    freeOff := headerSize
    freeSize := psize - headerSize
    slots := []
    bytes := fun _ => 0 }

/-- The tombstone scan at the top of `SlottedPage::Insert`: index of the
lowest slot with `len == 0`, if any. -/
def findTombstone (slots : List Slot) : Option Nat :=
  slots.findIdx? (fun s => s.len == 0)

/-- One live entry collected by `SlottedPage::Compact`: `(old_off, slot_id, len)`. -/
structure LiveEnt where
  off : Nat
  slot : Nat
  len : Nat
deriving Repr, DecidableEq

/-- The collection loop of `Compact`: push `(s.off, i, s.len)` for each live slot. -/
def liveEntriesFrom : Nat → List Slot → List LiveEnt
  | _, [] => []
  | i, s :: rest =>
    if s.len ≠ 0 then ⟨s.off, i, s.len⟩ :: liveEntriesFrom (i + 1) rest
    else liveEntriesFrom (i + 1) rest

/-- `std::sort` by ascending `off` (live offsets are distinct on well-formed
pages, so any correct sort yields the same list). -/
def sortLives (l : List LiveEnt) : List LiveEnt :=
  List.insertionSort (fun a b => a.off ≤ b.off) l

/-- The move loop of `Compact`: skip entries failing the defensive range
check, `memmove` the others to the next packed position and re-point their
directory entry. -/
def compactLoop (ps : Nat) :
    List LiveEnt → Nat → (Nat → Nat) → List Slot → Nat × (Nat → Nat) × List Slot
  | [], cur, bytes, slots => (cur, bytes, slots)
  | e :: rest, cur, bytes, slots =>
    if e.off < headerSize ∨ e.off + e.len > ps then
      compactLoop ps rest cur bytes slots
    else
      compactLoop ps rest (cur + e.len) (memmove bytes cur e.off e.len)
        (slots.set e.slot ⟨cur, e.len⟩)

/-- `SlottedPage::Compact`. -/
def compact (p : SPage) : SPage :=
  let lives := sortLives (liveEntriesFrom 0 p.slots)
  let r := compactLoop p.pageSize lives headerSize p.bytes p.slots
  { p with
    bytes := r.2.1
    slots := r.2.2
    freeOff := r.1
    freeSize := p.pageSize - r.1 - slotSize * p.slots.length }

/-- `SlottedPage::Insert`.  Returns `(status, page after the call, out_slot)`;
`out_slot` is meaningful only on `ok`.  The record is passed as its byte
list (`len` is its length). -/
def insert (p : SPage) (rec : List Nat) : Status × SPage × Nat :=
  if rec.length = 0 then (Status.invalidArgument, p, 0)
  else
    let reuse := findTombstone p.slots
    let extraSlotBytes := if reuse.isSome then 0 else slotSize
    let need := rec.length + extraSlotBytes
    let p1 := if p.freeSize < need then compact p else p
    if p1.freeSize < need then (Status.outOfRange, p1, 0)
    else
      let recOff := p1.freeOff
      let bytes1 := writeList p1.bytes recOff rec
      match reuse with
      | some i =>
        (Status.ok,
          { p1 with
            bytes := bytes1
            freeOff := p1.freeOff + rec.length
            freeSize := p1.freeSize - rec.length
            slots := p1.slots.set i ⟨recOff, rec.length⟩ }, i)
      | none =>
        (Status.ok,
          { p1 with
            bytes := bytes1
            freeOff := p1.freeOff + rec.length
            freeSize := p1.freeSize - rec.length - slotSize
            slots := p1.slots ++ [⟨recOff, rec.length⟩] }, p1.slots.length)

/-- `SlottedPage::Get`: bounds-check, reject tombstones, validate the slot
range, return the record bytes. -/
def get (p : SPage) (slot : Nat) : Status × List Nat :=
  if h : slot < p.slots.length then
    let s := p.slots.get ⟨slot, h⟩
    if s.len = 0 then (Status.notFound, [])
    else if s.off < headerSize ∨ s.off + s.len > p.pageSize then (Status.corruption, [])
    else (Status.ok, readBytes p.bytes s.off s.len)
  else (Status.notFound, [])

/-- `SlottedPage::Update`. -/
def update (p : SPage) (slot : Nat) (rec : List Nat) : Status × SPage :=
  if h : slot < p.slots.length then
    let s := p.slots.get ⟨slot, h⟩
    if s.len = 0 then (Status.notFound, p)
    else if rec.length ≤ s.len then
      (Status.ok,
        { p with
          bytes := writeList p.bytes s.off rec
          slots := p.slots.set slot ⟨s.off, rec.length⟩ })
    else
      let p1 := if p.freeSize < rec.length then compact p else p
      if p1.freeSize < rec.length then (Status.outOfRange, p1)
      else
        (Status.ok,
          { p1 with
            bytes := writeList p1.bytes p1.freeOff rec
            slots := p1.slots.set slot ⟨p1.freeOff, rec.length⟩
            freeOff := p1.freeOff + rec.length
            freeSize := p1.freeSize - rec.length })
  else (Status.notFound, p)

/-- `SlottedPage::Erase`: mark the slot as a tombstone. -/
def erase (p : SPage) (slot : Nat) : Status × SPage :=
  if h : slot < p.slots.length then
    let s := p.slots.get ⟨slot, h⟩
    if s.len = 0 then (Status.notFound, p)
    else (Status.ok, { p with slots := p.slots.set slot ⟨s.off, 0⟩ })
  else (Status.notFound, p)

end SlottedPage

/-! ## Page well-formedness

The reachable-state invariant of a slotted page: the header accounting
identity, header bound, `uint16_t` representability, live-slot bounds and
pairwise disjointness of live record regions. -/

/-- Region disjointness of two slots. -/
def slotDisj (a b : Slot) : Prop := a.off + a.len ≤ b.off ∨ b.off + b.len ≤ a.off

/-- Well-formedness of a slotted page. -/
structure PageWF (p : SPage) : Prop where
  acct : p.freeOff + p.freeSize + slotSize * p.slots.length = p.pageSize
  hdrLe : headerSize ≤ p.freeOff
  szLe : p.pageSize ≤ 65535
  slotsOk : ∀ j (h : j < p.slots.length), p.slots[j].len ≠ 0 →
    headerSize ≤ p.slots[j].off ∧ p.slots[j].off + p.slots[j].len ≤ p.freeOff
  disj : ∀ i j (hi : i < p.slots.length) (hj : j < p.slots.length), i ≠ j →
    p.slots[i].len ≠ 0 → p.slots[j].len ≠ 0 → slotDisj p.slots[i] p.slots[j]

namespace SlottedPage

/-- Sum of the record lengths of the live slots. -/
def liveLenSum (slots : List Slot) : Nat :=
  ((slots.filter fun s => s.len != 0).map Slot.len).sum

theorem liveEntriesFrom_mem {slots : List Slot} {i : Nat} {e : LiveEnt} :
    e ∈ liveEntriesFrom i slots ↔
      ∃ j, ∃ h : j < slots.length, slots[j].len ≠ 0 ∧
        e = ⟨slots[j].off, i + j, slots[j].len⟩ := by
  induction slots generalizing i with
  | nil => simp [liveEntriesFrom]
  | cons s rest ih =>
    by_cases hs : s.len = 0
    · rw [liveEntriesFrom, if_neg (by simp [hs]), ih]
      constructor
      · rintro ⟨j, hj, hne, rfl⟩
        refine ⟨j + 1, Nat.succ_lt_succ hj, by simpa using hne, ?_⟩
        simp
        omega
      · rintro ⟨j, hj, hne, he⟩
        match j, hj with
        | 0, _ => simp at hne; exact absurd hs hne
        | j + 1, hj =>
          refine ⟨j, Nat.lt_of_succ_lt_succ hj, by simpa using hne, ?_⟩
          rw [he]
          simp
          omega
    · rw [liveEntriesFrom, if_pos (by simp [hs])]
      rw [List.mem_cons, ih]
      constructor
      · rintro (rfl | ⟨j, hj, hne, rfl⟩)
        · exact ⟨0, by simp, by simpa using hs, by simp⟩
        · refine ⟨j + 1, Nat.succ_lt_succ hj, by simpa using hne, ?_⟩
          simp
          omega
      · rintro ⟨j, hj, hne, he⟩
        match j, hj with
        | 0, _ => left; rw [he]; simp
        | j + 1, hj =>
          right
          refine ⟨j, Nat.lt_of_succ_lt_succ hj, by simpa using hne, ?_⟩
          rw [he]
          simp
          omega

theorem liveEntriesFrom_slot_lt {slots : List Slot} {i : Nat} {e : LiveEnt}
    (h : e ∈ liveEntriesFrom i slots) : i ≤ e.slot ∧ e.slot < i + slots.length := by
  rcases liveEntriesFrom_mem.1 h with ⟨j, hj, _, rfl⟩
  refine ⟨by simp, by simp; omega⟩

theorem liveEntriesFrom_pairwise_slot (slots : List Slot) (i : Nat) :
    (liveEntriesFrom i slots).Pairwise (fun a b => a.slot < b.slot) := by
  induction slots generalizing i with
  | nil => simp [liveEntriesFrom]
  | cons s rest ih =>
    by_cases hs : s.len = 0
    · simpa [liveEntriesFrom, hs] using ih (i + 1)
    · simp only [liveEntriesFrom, ne_eq, hs, not_false_eq_true, if_pos]
      refine List.Pairwise.cons ?_ (ih (i + 1))
      intro e he
      exact (liveEntriesFrom_slot_lt he).1

theorem liveEntriesFrom_sum (slots : List Slot) (i : Nat) :
    ((liveEntriesFrom i slots).map LiveEnt.len).sum = liveLenSum slots := by
  induction slots generalizing i with
  | nil => simp [liveEntriesFrom, liveLenSum]
  | cons s rest ih =>
    by_cases hs : s.len = 0
    · simp [liveEntriesFrom, hs, liveLenSum, List.filter, ih]
    · simp only [liveEntriesFrom, ne_eq, hs, not_false_eq_true, if_pos, List.map_cons,
        List.sum_cons, liveLenSum]
      rw [ih (i + 1)]
      simp [liveLenSum, List.filter_cons, hs]

theorem liveEntriesFrom_complete {slots : List Slot} {j : Nat} (h : j < slots.length)
    (hne : slots[j].len ≠ 0) :
    (⟨slots[j].off, j, slots[j].len⟩ : LiveEnt) ∈ liveEntriesFrom 0 slots :=
  liveEntriesFrom_mem.2 ⟨j, h, hne, by simp⟩

instance : IsTotal LiveEnt (fun a b => a.off ≤ b.off) :=
  ⟨fun a b => Nat.le_total a.off b.off⟩

instance : IsTrans LiveEnt (fun a b => a.off ≤ b.off) :=
  ⟨fun _ _ _ => Nat.le_trans⟩

theorem sortLives_perm (l : List LiveEnt) : (sortLives l).Perm l :=
  List.perm_insertionSort _ l

theorem sortLives_sorted (l : List LiveEnt) :
    (sortLives l).Pairwise (fun a b => a.off ≤ b.off) :=
  List.sorted_insertionSort (fun a b : LiveEnt => a.off ≤ b.off) l

/-- On a list of live entries that is sorted by offset, has pairwise distinct
slot ids, pairwise disjoint regions and nonzero lengths, the regions chain:
each entry ends before the next begins. -/
theorem sorted_disjoint_chain {L : List LiveEnt}
    (hsort : L.Pairwise (fun a b => a.off ≤ b.off))
    (hslotne : L.Pairwise (fun a b => a.slot ≠ b.slot))
    (hdisj : ∀ a ∈ L, ∀ b ∈ L, a.slot ≠ b.slot →
      (a.off + a.len ≤ b.off ∨ b.off + b.len ≤ a.off))
    (hlen : ∀ e ∈ L, e.len ≠ 0) :
    L.Pairwise (fun a b => a.off + a.len ≤ b.off) := by
  rw [List.pairwise_iff_getElem] at hsort hslotne ⊢
  intro i j hi hj hij
  have h1 := hsort i j hi hj hij
  have h2 := hslotne i j hi hj hij
  have h3 := hdisj _ (List.getElem_mem hi) _ (List.getElem_mem hj) h2
  have h4 := hlen _ (List.getElem_mem hj)
  rcases h3 with h | h
  · exact h
  · omega

/-- Chained regions lying inside `[lo, hi]` have total length at most `hi - lo`. -/
theorem chain_sum_le {L : List LiveEnt} {lo hi : Nat}
    (hchain : L.Pairwise (fun a b => a.off + a.len ≤ b.off))
    (hbound : ∀ e ∈ L, lo ≤ e.off ∧ e.off + e.len ≤ hi)
    (hlohi : lo ≤ hi) :
    lo + (L.map LiveEnt.len).sum ≤ hi := by
  induction L generalizing lo with
  | nil => simpa
  | cons e rest ih =>
    rcases List.pairwise_cons.1 hchain with ⟨hhead, htail⟩
    have hb := hbound e (List.mem_cons_self _ _)
    have ih' := ih htail
      (fun b hb' => ⟨hhead b hb', (hbound b (List.mem_cons_of_mem _ hb')).2⟩) hb.2
    simp only [List.map_cons, List.sum_cons]
    omega

/-- Convenient total indexing into a slot directory. -/
def slotAt (slots : List Slot) (j : Nat) : Slot := slots.getD j ⟨0, 0⟩

theorem slotAt_eq_getElem {slots : List Slot} {j : Nat} (h : j < slots.length) :
    slotAt slots j = slots[j] := by
  simp [slotAt, List.getD_eq_getElem?_getD, List.getElem?_eq_getElem h]

theorem slotAt_set_self {slots : List Slot} {j : Nat} {v : Slot} (h : j < slots.length) :
    slotAt (slots.set j v) j = v := by
  rw [slotAt_eq_getElem (by simpa using h)]
  simp

theorem slotAt_set_ne {slots : List Slot} {n j : Nat} {v : Slot} (h : j ≠ n) :
    slotAt (slots.set n v) j = slotAt slots j := by
  simp [slotAt, List.getD_eq_getElem?_getD, List.getElem?_set_ne (Ne.symm h)]

/-- Full characterisation of the `Compact` move loop on a chained entry list:
the final write position, length preservation of the directory, untouched
slots, the packed position and length of each processed entry, bytes below
the starting position, and byte preservation of each moved record. -/
theorem compactLoop_spec (ps : Nat) (L : List LiveEnt) :
    ∀ (cur : Nat) (bytes : Nat → Nat) (slots : List Slot),
    L.Pairwise (fun a b => a.off + a.len ≤ b.off) →
    (∀ e ∈ L, headerSize ≤ e.off ∧ e.off + e.len ≤ ps ∧ e.len ≠ 0) →
    (∀ e ∈ L, cur ≤ e.off) →
    L.Pairwise (fun a b => a.slot ≠ b.slot) →
    (compactLoop ps L cur bytes slots).1 = cur + (L.map LiveEnt.len).sum ∧
    (compactLoop ps L cur bytes slots).2.2.length = slots.length ∧
    (∀ j, (∀ e ∈ L, e.slot ≠ j) →
      slotAt (compactLoop ps L cur bytes slots).2.2 j = slotAt slots j) ∧
    (∀ k (hk : k < L.length), L[k].slot < slots.length →
      slotAt (compactLoop ps L cur bytes slots).2.2 L[k].slot =
        ⟨cur + ((L.take k).map LiveEnt.len).sum, L[k].len⟩) ∧
    (∀ i, i < cur → (compactLoop ps L cur bytes slots).2.1 i = bytes i) ∧
    (∀ k (hk : k < L.length),
      readBytes (compactLoop ps L cur bytes slots).2.1
          (cur + ((L.take k).map LiveEnt.len).sum) L[k].len =
        readBytes bytes L[k].off L[k].len) := by
  induction L with
  | nil =>
    intro cur bytes slots _ _ _ _
    refine ⟨by simp [compactLoop], by simp [compactLoop], by simp [compactLoop],
      ?_, by simp [compactLoop], ?_⟩
    · intro k hk; simp at hk
    · intro k hk; simp at hk
  | cons e rest ih =>
    intro cur bytes slots hchain hok hcur hslotne
    rcases List.pairwise_cons.1 hchain with ⟨hcr, hchain'⟩
    rcases List.pairwise_cons.1 hslotne with ⟨hsr, hslotne'⟩
    have hoke := hok e (List.mem_cons_self _ _)
    have hcure := hcur e (List.mem_cons_self _ _)
    have hnotskip : ¬ (e.off < headerSize ∨ e.off + e.len > ps) := by omega
    have hstep : compactLoop ps (e :: rest) cur bytes slots =
        compactLoop ps rest (cur + e.len) (memmove bytes cur e.off e.len)
          (slots.set e.slot ⟨cur, e.len⟩) := by
      rw [compactLoop, if_neg hnotskip]
    have hcur' : ∀ b ∈ rest, cur + e.len ≤ b.off := by
      intro b hb
      have := hcr b hb
      omega
    have IH := ih (cur + e.len) (memmove bytes cur e.off e.len)
      (slots.set e.slot ⟨cur, e.len⟩) hchain'
      (fun b hb => hok b (List.mem_cons_of_mem _ hb)) hcur' hslotne'
    obtain ⟨IH1, IH2, IH3, IH4, IH5, IH6⟩ := IH
    rw [hstep]
    refine ⟨?_, ?_, ?_, ?_, ?_, ?_⟩
    · rw [IH1]; simp; omega
    · rw [IH2]; simp
    · intro j hj
      rw [IH3 j fun b hb => hj b (List.mem_cons_of_mem _ hb)]
      exact slotAt_set_ne (Ne.symm (hj e (List.mem_cons_self _ _)))
    · intro k hk hlt
      match k with
      | 0 =>
        simp only [List.getElem_cons_zero, List.take_zero, List.map_nil, List.sum_nil,
          Nat.add_zero]
        rw [IH3 e.slot fun b hb => Ne.symm (hsr b hb)]
        exact slotAt_set_self (by simpa using hlt)
      | k + 1 =>
        have hk' : k < rest.length := by simpa using hk
        have hlt' : rest[k].slot < (slots.set e.slot ⟨cur, e.len⟩).length := by
          simpa using hlt
        have := IH4 k hk' hlt'
        simpa [Nat.add_assoc] using this
    · intro i hi
      rw [IH5 i (by omega)]
      exact memmove_outside _ _ _ _ _ (Or.inl hi)
    · intro k hk
      match k with
      | 0 =>
        simp only [List.getElem_cons_zero, List.take_zero, List.map_nil, List.sum_nil,
          Nat.add_zero]
        have h1 : readBytes (compactLoop ps rest (cur + e.len)
            (memmove bytes cur e.off e.len) (slots.set e.slot ⟨cur, e.len⟩)).2.1
            cur e.len = readBytes (memmove bytes cur e.off e.len) cur e.len := by
          apply readBytes_congr
          intro i h1 h2
          exact IH5 i (by omega)
        rw [h1, readBytes_memmove]
      | k + 1 =>
        have hk' : k < rest.length := by simpa using hk
        have h2 := IH6 k hk'
        have h3 : readBytes (memmove bytes cur e.off e.len) rest[k].off rest[k].len =
            readBytes bytes rest[k].off rest[k].len := by
          apply readBytes_congr
          intro i hi1 hi2
          apply memmove_outside
          right
          have := hcr rest[k] (List.getElem_mem hk')
          omega
        simp only [List.getElem_cons_succ, List.take_succ_cons, List.map_cons,
          List.sum_cons]
        rw [← Nat.add_assoc, h2, h3]

/-- Master description of `Compact` on a well-formed page: header bookkeeping,
tombstones untouched, every live slot repacked with identical id, length and
bytes, and the repacked regions pairwise disjoint. -/
theorem compact_master {p : SPage} (hwf : PageWF p) :
    (compact p).pageSize = p.pageSize ∧
    (compact p).slots.length = p.slots.length ∧
    (compact p).freeOff = headerSize + liveLenSum p.slots ∧
    (compact p).freeOff ≤ p.freeOff ∧
    (compact p).freeSize =
      p.pageSize - (compact p).freeOff - slotSize * p.slots.length ∧
    (∀ j (h : j < p.slots.length), p.slots[j].len = 0 →
      slotAt (compact p).slots j = p.slots[j]) ∧
    (∀ j (h : j < p.slots.length), p.slots[j].len ≠ 0 →
      ∃ noff, slotAt (compact p).slots j = ⟨noff, p.slots[j].len⟩ ∧
        headerSize ≤ noff ∧
        noff + p.slots[j].len ≤ (compact p).freeOff ∧
        readBytes (compact p).bytes noff p.slots[j].len =
          readBytes p.bytes p.slots[j].off p.slots[j].len) ∧
    (∀ j j' (h : j < p.slots.length) (h' : j' < p.slots.length), j ≠ j' →
      p.slots[j].len ≠ 0 → p.slots[j'].len ≠ 0 →
      slotDisj (slotAt (compact p).slots j) (slotAt (compact p).slots j')) := by
  classical
  set sorted := sortLives (liveEntriesFrom 0 p.slots) with hsorted_def
  have hperm : sorted.Perm (liveEntriesFrom 0 p.slots) :=
    sortLives_perm (liveEntriesFrom 0 p.slots)
  have hmem : ∀ e, e ∈ sorted ↔ ∃ j, ∃ h : j < p.slots.length,
      p.slots[j].len ≠ 0 ∧ e = ⟨p.slots[j].off, j, p.slots[j].len⟩ := by
    intro e
    rw [hperm.mem_iff]
    simpa using (@liveEntriesFrom_mem p.slots 0 e)
  have hfole : p.freeOff ≤ p.pageSize := by have := hwf.acct; omega
  have hok : ∀ e ∈ sorted, headerSize ≤ e.off ∧ e.off + e.len ≤ p.pageSize ∧
      e.len ≠ 0 := by
    intro e he
    rcases (hmem e).1 he with ⟨j, hj, hne, rfl⟩
    have h1 := hwf.slotsOk j hj hne
    refine ⟨h1.1, ?_, hne⟩
    show p.slots[j].off + p.slots[j].len ≤ p.pageSize
    omega
  have hbnd : ∀ e ∈ sorted, headerSize ≤ e.off ∧ e.off + e.len ≤ p.freeOff := by
    intro e he
    rcases (hmem e).1 he with ⟨j, hj, hne, rfl⟩
    exact hwf.slotsOk j hj hne
  have hslotne : sorted.Pairwise (fun a b => a.slot ≠ b.slot) := by
    have h1 : (liveEntriesFrom 0 p.slots).Pairwise (fun a b => a.slot ≠ b.slot) :=
      (liveEntriesFrom_pairwise_slot p.slots 0).imp (fun h => Nat.ne_of_lt h)
    exact (hperm.pairwise_iff (fun h => Ne.symm h)).2 h1
  have hdisj : ∀ a ∈ sorted, ∀ b ∈ sorted, a.slot ≠ b.slot →
      (a.off + a.len ≤ b.off ∨ b.off + b.len ≤ a.off) := by
    intro a ha b hb hne
    rcases (hmem a).1 ha with ⟨j, hj, hja, ha'⟩
    rcases (hmem b).1 hb with ⟨j', hj', hjb, hb'⟩
    have haj : a.slot = j := by rw [ha']
    have hbj : b.slot = j' := by rw [hb']
    rw [haj, hbj] at hne
    have hd := hwf.disj j j' hj hj' hne hja hjb
    have hao : a.off = p.slots[j].off := by rw [ha']
    have hal : a.len = p.slots[j].len := by rw [ha']
    have hbo : b.off = p.slots[j'].off := by rw [hb']
    have hbl : b.len = p.slots[j'].len := by rw [hb']
    rw [hao, hal, hbo, hbl]
    simpa [slotDisj] using hd
  have hchain : sorted.Pairwise (fun a b => a.off + a.len ≤ b.off) :=
    sorted_disjoint_chain (sortLives_sorted _) hslotne hdisj
      (fun e he => (hok e he).2.2)
  obtain ⟨S1, S2, S3, S4, S5, S6⟩ :=
    compactLoop_spec p.pageSize sorted headerSize p.bytes p.slots hchain hok
      (fun e he => (hok e he).1) hslotne
  have hsum : (sorted.map LiveEnt.len).sum = liveLenSum p.slots := by
    rw [(hperm.map LiveEnt.len).sum_eq]
    exact liveEntriesFrom_sum p.slots 0
  have hbound32 : headerSize + liveLenSum p.slots ≤ p.freeOff := by
    rw [← hsum]
    exact chain_sum_le hchain hbnd hwf.hdrLe
  have e2 : (compact p).slots =
      (compactLoop p.pageSize sorted headerSize p.bytes p.slots).2.2 := rfl
  have e3 : (compact p).freeOff =
      (compactLoop p.pageSize sorted headerSize p.bytes p.slots).1 := rfl
  have e4 : (compact p).bytes =
      (compactLoop p.pageSize sorted headerSize p.bytes p.slots).2.1 := rfl
  have hfo : (compact p).freeOff = headerSize + liveLenSum p.slots := by
    rw [e3, S1, hsum]
  -- the k-indexed description of each live slot after the loop
  have hlive : ∀ j (hj : j < p.slots.length), p.slots[j].len ≠ 0 →
      ∃ k, ∃ hk : k < sorted.length,
        sorted[k] = ⟨p.slots[j].off, j, p.slots[j].len⟩ ∧
        slotAt (compact p).slots j =
          ⟨headerSize + ((sorted.take k).map LiveEnt.len).sum, p.slots[j].len⟩ ∧
        ((sorted.take k).map LiveEnt.len).sum + p.slots[j].len ≤
          liveLenSum p.slots := by
    intro j hj hne
    have hmemE : (⟨p.slots[j].off, j, p.slots[j].len⟩ : LiveEnt) ∈ sorted :=
      (hmem _).2 ⟨j, hj, hne, rfl⟩
    obtain ⟨k, hk, hkE⟩ := List.getElem_of_mem hmemE
    have hslot : sorted[k].slot < p.slots.length := by rw [hkE]; exact hj
    have h4 := S4 k hk hslot
    have hsle : ((sorted.take k).map LiveEnt.len).sum + p.slots[j].len ≤
        liveLenSum p.slots := by
      rw [← hsum]
      have hmt : ((sorted.take k).map LiveEnt.len).sum =
          ((sorted.map LiveEnt.len).take k).sum := by rw [List.map_take]
      have hlen : sorted[k].len = p.slots[j].len := by rw [hkE]
      have hkm : k < (sorted.map LiveEnt.len).length := by simpa using hk
      have := sum_take_succ (sorted.map LiveEnt.len) k hkm
      have hgm : (sorted.map LiveEnt.len)[k] = sorted[k].len := by
        simp
      have hta := sum_take_le (sorted.map LiveEnt.len) (k + 1)
      rw [hmt, hlen.symm, ← hgm]
      omega
    refine ⟨k, hk, hkE, ?_, hsle⟩
    have hks : sorted[k].slot = j := by rw [hkE]
    have hkl : sorted[k].len = p.slots[j].len := by rw [hkE]
    rw [hks, hkl] at h4
    rw [e2]
    exact h4
  refine ⟨rfl, by rw [e2]; exact S2, hfo, by omega, by rw [e3]; rfl, ?_, ?_, ?_⟩
  · -- tombstones are untouched
    intro j hj h0
    have hnot : ∀ e ∈ sorted, e.slot ≠ j := by
      intro e he
      rcases (hmem e).1 he with ⟨j', hj', hne', rfl⟩
      intro hc
      simp only at hc
      subst hc
      exact hne' h0
    rw [e2, S3 j hnot]
    exact slotAt_eq_getElem hj
  · -- live slots: packed offset, same length, same bytes
    intro j hj hne
    obtain ⟨k, hk, hkE, hset, hsle⟩ := hlive j hj hne
    refine ⟨headerSize + ((sorted.take k).map LiveEnt.len).sum, hset,
      Nat.le_add_right _ _, ?_, ?_⟩
    · rw [hfo]; omega
    · have h6 := S6 k hk
      rw [e4]
      have hoff : sorted[k].off = p.slots[j].off := by rw [hkE]
      have hlen : sorted[k].len = p.slots[j].len := by rw [hkE]
      rw [hoff, hlen] at h6
      exact h6
  · -- repacked live regions are pairwise disjoint
    intro j j' hj hj' hjj hne hne'
    obtain ⟨k, hk, hkE, hset, hsle⟩ := hlive j hj hne
    obtain ⟨k', hk', hkE', hset', hsle'⟩ := hlive j' hj' hne'
    have hkk : k ≠ k' := by
      intro hc
      subst hc
      rw [hkE] at hkE'
      have : j = j' := congrArg LiveEnt.slot hkE'
      exact hjj this
    rw [hset, hset']
    have hlen : sorted[k].len = p.slots[j].len := by rw [hkE]
    have hlen' : sorted[k'].len = p.slots[j'].len := by rw [hkE']
    have hmt : ∀ m, ((sorted.take m).map LiveEnt.len).sum =
        ((sorted.map LiveEnt.len).take m).sum := fun m => by rw [List.map_take]
    simp only [slotDisj]
    rcases Nat.lt_or_ge k k' with hlt | hge
    · left
      show headerSize + ((sorted.take k).map LiveEnt.len).sum + p.slots[j].len ≤
        headerSize + ((sorted.take k').map LiveEnt.len).sum
      have hkm : k < (sorted.map LiveEnt.len).length := by simpa using hk
      have hstep := sum_take_succ (sorted.map LiveEnt.len) k hkm
      have hmono := sum_take_mono (sorted.map LiveEnt.len)
        (show k + 1 ≤ k' from hlt)
      have hgm : (sorted.map LiveEnt.len)[k] = sorted[k].len := by simp
      rw [hmt k, hmt k']
      rw [hgm, hlen] at hstep
      omega
    · right
      have hlt' : k' < k := Nat.lt_of_le_of_ne hge (Ne.symm hkk)
      show headerSize + ((sorted.take k').map LiveEnt.len).sum + p.slots[j'].len ≤
        headerSize + ((sorted.take k).map LiveEnt.len).sum
      have hkm' : k' < (sorted.map LiveEnt.len).length := by simpa using hk'
      have hstep := sum_take_succ (sorted.map LiveEnt.len) k' hkm'
      have hmono := sum_take_mono (sorted.map LiveEnt.len)
        (show k' + 1 ≤ k from hlt')
      have hgm : (sorted.map LiveEnt.len)[k'] = sorted[k'].len := by simp
      rw [hmt k, hmt k']
      rw [hgm, hlen'] at hstep
      omega

/-- `Compact` preserves well-formedness. -/
theorem compact_wf {p : SPage} (hwf : PageWF p) : PageWF (compact p) := by
  obtain ⟨m1, m2, m3, m4, m5, m6, m7, m8⟩ := compact_master hwf
  have hacct := hwf.acct
  have hlen2 : (compact p).slots.length = p.slots.length := m2
  have hlive : ∀ j (h : j < p.slots.length),
      (slotAt (compact p).slots j).len ≠ 0 → p.slots[j].len ≠ 0 := by
    intro j h hne h0
    rw [m6 j h h0, h0] at hne
    exact hne rfl
  refine ⟨?_, ?_, ?_, ?_, ?_⟩
  · rw [m1, m2, m5]
    omega
  · rw [m3]
    omega
  · rw [m1]; exact hwf.szLe
  · intro j hj hne
    have hj' : j < p.slots.length := by omega
    rw [← slotAt_eq_getElem hj] at hne ⊢
    have hpne := hlive j hj' hne
    obtain ⟨noff, hval, h32, hfo, _⟩ := m7 j hj' hpne
    rw [hval]
    exact ⟨h32, hfo⟩
  · intro i j hi hj hij hni hnj
    have hi' : i < p.slots.length := by omega
    have hj' : j < p.slots.length := by omega
    rw [← slotAt_eq_getElem hi] at hni ⊢
    rw [← slotAt_eq_getElem hj] at hnj ⊢
    exact m8 i j hi' hj' hij (hlive i hi' hni) (hlive j hj' hnj)

/-- `Get` succeeds on a slot exactly when the slot is in range, live, and
passes the range check; on success it returns the record bytes. -/
theorem get_eq_ok {p : SPage} {i : Nat} (h : i < p.slots.length)
    (hne : p.slots[i].len ≠ 0) (h32 : headerSize ≤ p.slots[i].off)
    (hle : p.slots[i].off + p.slots[i].len ≤ p.pageSize) :
    get p i = (Status.ok, readBytes p.bytes p.slots[i].off p.slots[i].len) := by
  rw [get, dif_pos h]
  simp only [List.get_eq_getElem]
  rw [if_neg hne, if_neg (by omega)]

theorem get_ok_elim {p : SPage} {i : Nat} (h : (get p i).1 = Status.ok) :
    ∃ hh : i < p.slots.length, p.slots[i].len ≠ 0 := by
  by_cases h1 : i < p.slots.length
  · refine ⟨h1, ?_⟩
    intro h0
    rw [get, dif_pos h1] at h
    simp only [List.get_eq_getElem] at h
    rw [if_pos h0] at h
    exact absurd h (by simp)
  · rw [get, dif_neg h1] at h
    exact absurd h (by simp)

theorem get_ok_range {p : SPage} {i : Nat} (h : (get p i).1 = Status.ok) :
    ∃ hh : i < p.slots.length, p.slots[i].len ≠ 0 ∧
      headerSize ≤ p.slots[i].off ∧ p.slots[i].off + p.slots[i].len ≤ p.pageSize ∧
      get p i = (Status.ok, readBytes p.bytes p.slots[i].off p.slots[i].len) := by
  obtain ⟨h1, h2⟩ := get_ok_elim h
  by_cases h3 : p.slots[i].off < headerSize ∨
      p.slots[i].off + p.slots[i].len > p.pageSize
  · rw [get, dif_pos h1] at h
    simp only [List.get_eq_getElem] at h
    rw [if_neg h2, if_pos h3] at h
    exact absurd h (by simp)
  · push_neg at h3
    exact ⟨h1, h2, by omega, by omega, get_eq_ok h1 h2 (by omega) (by omega)⟩

/-- Replacing any directory entry by a fresh record region carved out of the
contiguous free space preserves well-formedness (covers the tombstone-reuse
branch of `Insert` and the append branch of `Update`). -/
theorem wf_set_slot {p : SPage} (hwf : PageWF p) {i : Nat} (hi : i < p.slots.length)
    {len : Nat} (hlen : len ≠ 0) (hle : len ≤ p.freeSize) (bytes' : Nat → Nat) :
    PageWF { p with
      bytes := bytes'
      freeOff := p.freeOff + len
      freeSize := p.freeSize - len
      slots := p.slots.set i ⟨p.freeOff, len⟩ } := by
  have hacct := hwf.acct
  have hfo := hwf.hdrLe
  refine ⟨?_, ?_, ?_, ?_, ?_⟩
  · dsimp only
    simp only [List.length_set]
    omega
  · dsimp only
    omega
  · exact hwf.szLe
  · intro j hj hne
    dsimp only at hj hne ⊢
    have hj' : j < p.slots.length := by simpa using hj
    by_cases hji : j = i
    · subst hji
      rw [List.getElem_set_self (by simpa using hj')] at hne ⊢
      exact ⟨hfo, Nat.le_refl _⟩
    · rw [List.getElem_set_ne (Ne.symm hji)] at hne ⊢
      have := hwf.slotsOk j hj' hne
      omega
  · intro a b ha hb hab hna hnb
    dsimp only at ha hb hna hnb ⊢
    have ha' : a < p.slots.length := by simpa using ha
    have hb' : b < p.slots.length := by simpa using hb
    by_cases hai : a = i
    · subst hai
      rw [List.getElem_set_self (by simpa using ha')] at hna ⊢
      rw [List.getElem_set_ne hab] at hnb ⊢
      have := hwf.slotsOk b hb' hnb
      right
      simp only [slotDisj]
      try dsimp only
      omega
    · rw [List.getElem_set_ne (Ne.symm hai)] at hna ⊢
      by_cases hbi : b = i
      · subst hbi
        rw [List.getElem_set_self (by simpa using hb')] at hnb ⊢
        have := hwf.slotsOk a ha' hna
        left
        simp only [slotDisj]
        try dsimp only
        omega
      · rw [List.getElem_set_ne (Ne.symm hbi)] at hnb ⊢
        exact hwf.disj a b ha' hb' hab hna hnb

/-- Appending a new directory entry at a fresh record region preserves
well-formedness (the new-slot branch of `Insert`). -/
theorem wf_append_slot {p : SPage} (hwf : PageWF p) {len : Nat} (hlen : len ≠ 0)
    (hle : len + slotSize ≤ p.freeSize) (bytes' : Nat → Nat) :
    PageWF { p with
      bytes := bytes'
      freeOff := p.freeOff + len
      freeSize := p.freeSize - len - slotSize
      slots := p.slots ++ [⟨p.freeOff, len⟩] } := by
  have hacct := hwf.acct
  have hfo := hwf.hdrLe
  have hgold : ∀ j (h : j < p.slots.length),
      slotAt (p.slots ++ [(⟨p.freeOff, len⟩ : Slot)]) j = p.slots[j] := by
    intro j h
    have h2 : j < (p.slots ++ [(⟨p.freeOff, len⟩ : Slot)]).length := by
      simp only [List.length_append, List.length_singleton]
      omega
    rw [slotAt_eq_getElem h2]
    exact List.getElem_append_left h
  have hgnew : slotAt (p.slots ++ [(⟨p.freeOff, len⟩ : Slot)]) p.slots.length =
      ⟨p.freeOff, len⟩ := by
    have h2 : p.slots.length < (p.slots ++ [(⟨p.freeOff, len⟩ : Slot)]).length := by
      simp
    rw [slotAt_eq_getElem h2]
    rw [List.getElem_append_right (Nat.le_refl _)]
    simp
  refine ⟨?_, ?_, ?_, ?_, ?_⟩
  · dsimp only
    simp only [List.length_append, List.length_singleton, slotSize] at hacct hle ⊢
    omega
  · dsimp only
    omega
  · exact hwf.szLe
  · intro j hj hne
    dsimp only at hj hne ⊢
    rw [← slotAt_eq_getElem hj] at hne ⊢
    have hj' : j < p.slots.length + 1 := by simpa using hj
    by_cases hjl : j < p.slots.length
    · rw [hgold j hjl] at hne ⊢
      have := hwf.slotsOk j hjl hne
      omega
    · have hjeq : j = p.slots.length := by omega
      subst hjeq
      rw [hgnew]
      exact ⟨hfo, Nat.le_refl _⟩
  · intro a b ha hb hab hna hnb
    dsimp only at ha hb hna hnb ⊢
    rw [← slotAt_eq_getElem ha] at hna ⊢
    rw [← slotAt_eq_getElem hb] at hnb ⊢
    have ha' : a < p.slots.length + 1 := by simpa using ha
    have hb' : b < p.slots.length + 1 := by simpa using hb
    by_cases hal : a < p.slots.length
    · rw [hgold a hal] at hna ⊢
      by_cases hbl : b < p.slots.length
      · rw [hgold b hbl] at hnb ⊢
        exact hwf.disj a b hal hbl hab hna hnb
      · have hbeq : b = p.slots.length := by omega
        subst hbeq
        rw [hgnew]
        have := hwf.slotsOk a hal hna
        left
        simp only [slotDisj]
        try dsimp only
        omega
    · have haeq : a = p.slots.length := by omega
      subst haeq
      rw [hgnew] at hna ⊢
      have hbl : b < p.slots.length := by omega
      rw [hgold b hbl] at hnb ⊢
      have := hwf.slotsOk b hbl hnb
      right
      simp only [slotDisj]
      try dsimp only
      omega

/-- Shrinking a directory entry in place (same offset, length not larger)
preserves well-formedness (the in-place branch of `Update`, and `Erase`). -/
theorem wf_shrink_slot {p : SPage} (hwf : PageWF p) {i : Nat} (hi : i < p.slots.length)
    {newLen : Nat} (hle : newLen ≤ p.slots[i].len) (bytes' : Nat → Nat) :
    PageWF { p with
      bytes := bytes'
      slots := p.slots.set i ⟨p.slots[i].off, newLen⟩ } := by
  have hold := hwf.slotsOk i hi
  refine ⟨?_, ?_, ?_, ?_, ?_⟩
  · dsimp only
    simp only [List.length_set]
    exact hwf.acct
  · exact hwf.hdrLe
  · exact hwf.szLe
  · intro j hj hne
    dsimp only at hj hne ⊢
    have hj' : j < p.slots.length := by simpa using hj
    by_cases hji : j = i
    · subst hji
      rw [List.getElem_set_self (by simpa using hj')] at hne ⊢
      dsimp only at hne ⊢
      have := hold (by omega)
      omega
    · rw [List.getElem_set_ne (Ne.symm hji)] at hne ⊢
      exact hwf.slotsOk j hj' hne
  · intro a b ha hb hab hna hnb
    dsimp only at ha hb hna hnb ⊢
    have ha' : a < p.slots.length := by simpa using ha
    have hb' : b < p.slots.length := by simpa using hb
    by_cases hai : a = i
    · subst hai
      rw [List.getElem_set_self (by simpa using ha')] at hna ⊢
      dsimp only at hna
      rw [List.getElem_set_ne hab] at hnb ⊢
      have hd := hwf.disj a b ha' hb' hab (by omega) hnb
      simp only [slotDisj] at hd ⊢
      try dsimp only
      omega
    · rw [List.getElem_set_ne (Ne.symm hai)] at hna ⊢
      by_cases hbi : b = i
      · subst hbi
        rw [List.getElem_set_self (by simpa using hb')] at hnb ⊢
        dsimp only at hnb
        have hd := hwf.disj a b ha' hb' hab hna (by omega)
        simp only [slotDisj] at hd ⊢
        try dsimp only
        omega
      · rw [List.getElem_set_ne (Ne.symm hbi)] at hnb ⊢
        exact hwf.disj a b ha' hb' hab hna hnb

theorem findTombstone_some {slots : List Slot} {i : Nat}
    (h : findTombstone slots = some i) :
    ∃ hh : i < slots.length, slots[i].len = 0 ∧
      ∀ j, j < i → (slotAt slots j).len ≠ 0 := by
  induction slots generalizing i with
  | nil => simp [findTombstone] at h
  | cons s rest ih =>
    rw [findTombstone, List.findIdx?_cons] at h
    by_cases hs : s.len = 0
    · rw [if_pos (by simpa using hs)] at h
      cases h
      exact ⟨by simp, by simpa using hs, by omega⟩
    · rw [if_neg (by simpa using hs), List.findIdx?_succ] at h
      simp only [Option.map_eq_some'] at h
      obtain ⟨i', hi', rfl⟩ := h
      obtain ⟨hlt, h0, hmin⟩ := ih hi'
      refine ⟨by simpa using hlt, by simpa using h0, ?_⟩
      intro j hj
      match j with
      | 0 =>
        simp only [slotAt, List.getD_cons_zero]
        simpa using hs
      | j + 1 =>
        simp only [slotAt, List.getD_cons_succ]
        exact hmin j (by omega)

theorem findTombstone_none {slots : List Slot} (h : findTombstone slots = none) :
    ∀ j (hj : j < slots.length), slots[j].len ≠ 0 := by
  intro j hj
  rw [findTombstone, List.findIdx?_eq_none_iff] at h
  have := h slots[j] (List.getElem_mem hj)
  simpa using this

theorem insert_eq_of_some {p : SPage} {rec : List Nat} {i : Nat}
    (h0 : ¬ rec.length = 0) (hf : findTombstone p.slots = some i) :
    insert p rec =
      (let p1 := if p.freeSize < rec.length then compact p else p
       if p1.freeSize < rec.length then (Status.outOfRange, p1, 0)
       else (Status.ok,
         { p1 with
           bytes := writeList p1.bytes p1.freeOff rec
           freeOff := p1.freeOff + rec.length
           freeSize := p1.freeSize - rec.length
           slots := p1.slots.set i ⟨p1.freeOff, rec.length⟩ }, i)) := by
  rw [insert, if_neg h0, hf]
  rfl

theorem insert_eq_of_none {p : SPage} {rec : List Nat}
    (h0 : ¬ rec.length = 0) (hf : findTombstone p.slots = none) :
    insert p rec =
      (let p1 := if p.freeSize < rec.length + slotSize then compact p else p
       if p1.freeSize < rec.length + slotSize then (Status.outOfRange, p1, 0)
       else (Status.ok,
         { p1 with
           bytes := writeList p1.bytes p1.freeOff rec
           freeOff := p1.freeOff + rec.length
           freeSize := p1.freeSize - rec.length - slotSize
           slots := p1.slots ++ [⟨p1.freeOff, rec.length⟩] }, p1.slots.length)) := by
  rw [insert, if_neg h0, hf]
  rfl

theorem update_eq_oor {p : SPage} {slot : Nat} {rec : List Nat}
    (h : ¬ slot < p.slots.length) :
    update p slot rec = (Status.notFound, p) := by
  rw [update, dif_neg h]

theorem update_eq_tomb {p : SPage} {slot : Nat} {rec : List Nat}
    (h : slot < p.slots.length) (h0 : p.slots[slot].len = 0) :
    update p slot rec = (Status.notFound, p) := by
  rw [update, dif_pos h]
  simp only [List.get_eq_getElem]
  rw [if_pos h0]

theorem update_eq_inplace {p : SPage} {slot : Nat} {rec : List Nat}
    (h : slot < p.slots.length) (h0 : p.slots[slot].len ≠ 0)
    (hle : rec.length ≤ p.slots[slot].len) :
    update p slot rec = (Status.ok,
      { p with
        bytes := writeList p.bytes p.slots[slot].off rec
        slots := p.slots.set slot ⟨p.slots[slot].off, rec.length⟩ }) := by
  rw [update, dif_pos h]
  simp only [List.get_eq_getElem]
  rw [if_neg h0, if_pos hle]

theorem update_eq_grow {p : SPage} {slot : Nat} {rec : List Nat}
    (h : slot < p.slots.length) (h0 : p.slots[slot].len ≠ 0)
    (hgt : ¬ rec.length ≤ p.slots[slot].len) :
    update p slot rec =
      (let p1 := if p.freeSize < rec.length then compact p else p
       if p1.freeSize < rec.length then (Status.outOfRange, p1)
       else (Status.ok,
         { p1 with
           bytes := writeList p1.bytes p1.freeOff rec
           slots := p1.slots.set slot ⟨p1.freeOff, rec.length⟩
           freeOff := p1.freeOff + rec.length
           freeSize := p1.freeSize - rec.length })) := by
  rw [update, dif_pos h]
  simp only [List.get_eq_getElem]
  rw [if_neg h0, if_neg hgt]

theorem erase_eq_oor {p : SPage} {slot : Nat} (h : ¬ slot < p.slots.length) :
    erase p slot = (Status.notFound, p) := by
  rw [erase, dif_neg h]

theorem erase_eq_tomb {p : SPage} {slot : Nat} (h : slot < p.slots.length)
    (h0 : p.slots[slot].len = 0) :
    erase p slot = (Status.notFound, p) := by
  rw [erase, dif_pos h]
  simp only [List.get_eq_getElem]
  rw [if_pos h0]

theorem erase_eq_live {p : SPage} {slot : Nat} (h : slot < p.slots.length)
    (h0 : p.slots[slot].len ≠ 0) :
    erase p slot = (Status.ok,
      { p with slots := p.slots.set slot ⟨p.slots[slot].off, 0⟩ }) := by
  rw [erase, dif_pos h]
  simp only [List.get_eq_getElem]
  rw [if_neg h0]

/-- `InitNew` yields a well-formed page for representable page sizes. -/
theorem initNew_wf {pid psize : Nat} (h32 : headerSize ≤ psize)
    (hle : psize ≤ 65535) : PageWF (initNew pid psize) := by
  refine ⟨?_, ?_, ?_, ?_, ?_⟩
  · simp only [initNew, List.length_nil, Nat.mul_zero, Nat.add_zero]
    omega
  · exact Nat.le_refl _
  · exact hle
  · intro j hj
    simp [initNew] at hj
  · intro a b ha hb
    simp [initNew] at ha

/-- `Insert` preserves well-formedness. -/
theorem insert_wf {p : SPage} (hwf : PageWF p) (rec : List Nat) :
    PageWF (insert p rec).2.1 := by
  by_cases h0 : rec.length = 0
  · rw [insert, if_pos h0]
    exact hwf
  · rcases hf : findTombstone p.slots with _ | i
    · rw [insert_eq_of_none h0 hf]
      have hwf1 : PageWF (if p.freeSize < rec.length + slotSize then compact p else p) := by
        split
        · exact compact_wf hwf
        · exact hwf
      by_cases hfit : (if p.freeSize < rec.length + slotSize then compact p
          else p).freeSize < rec.length + slotSize
      · simpa only [if_pos hfit] using hwf1
      · simp only [if_neg hfit]
        exact wf_append_slot hwf1 (by omega) (by omega) _
    · rw [insert_eq_of_some h0 hf]
      obtain ⟨hilt, hi0, _⟩ := findTombstone_some hf
      have hwf1 : PageWF (if p.freeSize < rec.length then compact p else p) := by
        split
        · exact compact_wf hwf
        · exact hwf
      have hlen1 : (if p.freeSize < rec.length then compact p else p).slots.length =
          p.slots.length := by
        split
        · exact (compact_master hwf).2.1
        · rfl
      by_cases hfit : (if p.freeSize < rec.length then compact p
          else p).freeSize < rec.length
      · simpa only [if_pos hfit] using hwf1
      · simp only [if_neg hfit]
        exact wf_set_slot hwf1 (by omega) h0 (by omega) _

/-- `Update` preserves well-formedness. -/
theorem update_wf {p : SPage} (hwf : PageWF p) (slot : Nat) (rec : List Nat) :
    PageWF (update p slot rec).2 := by
  by_cases h : slot < p.slots.length
  · by_cases h0 : p.slots[slot].len = 0
    · rw [update_eq_tomb h h0]
      exact hwf
    · by_cases hle : rec.length ≤ p.slots[slot].len
      · rw [update_eq_inplace h h0 hle]
        exact wf_shrink_slot hwf h hle _
      · rw [update_eq_grow h h0 hle]
        have hwf1 : PageWF (if p.freeSize < rec.length then compact p else p) := by
          split
          · exact compact_wf hwf
          · exact hwf
        have hlen1 : (if p.freeSize < rec.length then compact p else p).slots.length =
            p.slots.length := by
          split
          · exact (compact_master hwf).2.1
          · rfl
        by_cases hfit : (if p.freeSize < rec.length then compact p
            else p).freeSize < rec.length
        · simpa only [if_pos hfit] using hwf1
        · simp only [if_neg hfit]
          exact wf_set_slot hwf1 (by omega) (by omega) (by omega) _
  · rw [update_eq_oor h]
    exact hwf

/-- `Erase` preserves well-formedness. -/
theorem erase_wf {p : SPage} (hwf : PageWF p) (slot : Nat) :
    PageWF (erase p slot).2 := by
  by_cases h : slot < p.slots.length
  · by_cases h0 : p.slots[slot].len = 0
    · rw [erase_eq_tomb h h0]
      exact hwf
    · rw [erase_eq_live h h0]
      exact wf_shrink_slot hwf h (Nat.zero_le _) _
  · rw [erase_eq_oor h]
    exact hwf

/-- Pages reachable from `InitNew` through the in-page operations. -/
inductive PageReach : SPage → Prop
  | init (pid psize : Nat) (h32 : headerSize ≤ psize) (hle : psize ≤ 65535) :
      PageReach (initNew pid psize)
  | ins (p : SPage) (rec : List Nat) : PageReach p → PageReach (insert p rec).2.1
  | upd (p : SPage) (slot : Nat) (rec : List Nat) : PageReach p →
      PageReach (update p slot rec).2
  | ers (p : SPage) (slot : Nat) : PageReach p → PageReach (erase p slot).2
  | cmp (p : SPage) : PageReach p → PageReach (compact p)

/-- Every reachable page is well-formed. -/
theorem reach_wf {p : SPage} (h : PageReach p) : PageWF p := by
  induction h with
  | init pid psize h32 hle => exact initNew_wf h32 hle
  | ins p rec _ ih => exact insert_wf ih rec
  | upd p slot rec _ ih => exact update_wf ih slot rec
  | ers p slot _ ih => exact erase_wf ih slot
  | cmp p _ ih => exact compact_wf ih

/-- On a well-formed page, a live in-range slot reads back successfully. -/
theorem get_live {p : SPage} (hwf : PageWF p) {i : Nat} (h : i < p.slots.length)
    (hne : p.slots[i].len ≠ 0) :
    get p i = (Status.ok, readBytes p.bytes p.slots[i].off p.slots[i].len) := by
  have h1 := hwf.slotsOk i h hne
  have h2 := hwf.acct
  exact get_eq_ok h hne (by omega) (by omega)

/-- A tombstoned slot reads back `NotFound`. -/
theorem get_tomb {p : SPage} {i : Nat} (h : i < p.slots.length)
    (h0 : p.slots[i].len = 0) : get p i = (Status.notFound, []) := by
  rw [get, dif_pos h]
  simp only [List.get_eq_getElem]
  rw [if_pos h0]

/-- Core of claim C2: on a well-formed page, `Compact` leaves every readable
slot readable at the same id with identical bytes. -/
theorem compact_get {p : SPage} (hwf : PageWF p) {i : Nat}
    (hok : (get p i).1 = Status.ok) : get (compact p) i = get p i := by
  obtain ⟨h1, h2, h3, h4, h5⟩ := get_ok_range hok
  obtain ⟨m1, m2, _, m4, _, _, m7, _⟩ := compact_master hwf
  obtain ⟨noff, hval, hh32, hhfo, hbytes⟩ := m7 i h1 h2
  have hi' : i < (compact p).slots.length := by omega
  have hvg : (compact p).slots[i] = ⟨noff, p.slots[i].len⟩ := by
    rw [← slotAt_eq_getElem hi', hval]
  have hfole : (compact p).freeOff ≤ (compact p).pageSize := by
    have := (compact_wf hwf).acct
    omega
  have hle2 : (compact p).slots[i].off + (compact p).slots[i].len ≤
      (compact p).pageSize := by
    rw [hvg]
    show noff + p.slots[i].len ≤ (compact p).pageSize
    omega
  rw [get_eq_ok hi' (by rw [hvg]; exact h2) (by rw [hvg]; exact hh32) hle2, h5]
  rw [hvg]
  show (Status.ok, readBytes (compact p).bytes noff p.slots[i].len) = _
  rw [hbytes]

end SlottedPage

/-! ## Claim theorems for the slotted page -/

open SlottedPage

/-- C1: for every page initialized by `SlottedPage::InitNew` (with a page
size that is representable in the `uint16_t` header fields) and then mutated
by any sequence of `Insert`, `Update`, `Erase` and `Compact` calls, the
header satisfies `free_off + free_size + slot_count * sizeof(Slot) ==
page_size` and `free_off >= sizeof(PageHeader)` after every call. -/
theorem C1_page_header_invariant {p : SPage} (h : PageReach p) :
    p.freeOff + p.freeSize + p.slots.length * slotSize = p.pageSize ∧
    headerSize ≤ p.freeOff := by
  have hwf := reach_wf h
  have hacct := hwf.acct
  simp only [slotSize] at hacct ⊢
  refine ⟨by omega, hwf.hdrLe⟩

/-- Witness for C1 at a concrete page: initialize a 4096-byte page, insert a
3-byte record, erase it and insert again. -/
theorem C1_page_header_invariant_witness :
    (let p := (SlottedPage.insert (erase (SlottedPage.insert (initNew 0 64)
      [1, 2, 3]).2.1 0).2 [7, 7, 7, 7]).2.1
     p.freeOff + p.freeSize + p.slots.length * slotSize = p.pageSize ∧
     headerSize ≤ p.freeOff) :=
  C1_page_header_invariant
    (PageReach.ins _ _ (PageReach.ers _ _ (PageReach.ins _ _
      (PageReach.init 0 64 (by decide) (by decide)))))

/-- C2: on a well-formed page (the invariant every reachable page enjoys),
every slot readable before `Compact` is readable after it, under the same
slot id and with identical bytes. -/
theorem C2_compact_preserves_records {p : SPage} (hwf : PageWF p) (i : Nat)
    (hok : (SlottedPage.get p i).1 = Status.ok) :
    SlottedPage.get (SlottedPage.compact p) i = SlottedPage.get p i :=
  compact_get hwf hok

set_option maxHeartbeats 1000000 in
/-- Witness for C2: a page with two records where the first was erased;
compaction moves the second record but `Get 1` returns the same bytes. -/
theorem C2_compact_preserves_records_witness :
    (let p := (erase (SlottedPage.insert (SlottedPage.insert (initNew 0 64)
      [1, 2, 3]).2.1 [4, 5]).2.1 0).2
     SlottedPage.get (SlottedPage.compact p) 1 = SlottedPage.get p 1) :=
  C2_compact_preserves_records
    (reach_wf (PageReach.ers _ _ (PageReach.ins _ _ (PageReach.ins _ _
      (PageReach.init 0 64 (by decide) (by decide)))))) 1 (by decide)

/-- C10: `SlottedPage::Update` with `len == 0` on a live slot returns `Ok`
and turns the slot into a tombstone: a subsequent `Get` returns `NotFound`,
the tombstone scan of a later `Insert` finds a reusable slot id no larger
than `i`, while `SlottedPage::Insert` itself rejects zero-length records
with `InvalidArgument`. -/
theorem C10_update_zero_length_tombstones {p : SPage} {i : Nat}
    (h : i < p.slots.length) (hlive : p.slots[i].len ≠ 0) :
    (SlottedPage.update p i []).1 = Status.ok ∧
    (SlottedPage.get (SlottedPage.update p i []).2 i).1 = Status.notFound ∧
    (∃ j, j ≤ i ∧ findTombstone (SlottedPage.update p i []).2.slots = some j) ∧
    (SlottedPage.insert p []).1 = Status.invalidArgument := by
  have heq := @update_eq_inplace p i [] h hlive (Nat.zero_le _)
  have hlen : i < ((SlottedPage.update p i []).2).slots.length := by
    rw [heq]
    simpa using h
  have hslot : slotAt ((SlottedPage.update p i []).2).slots i =
      ⟨p.slots[i].off, 0⟩ := by
    rw [heq]
    exact slotAt_set_self h
  have hslot' : ((SlottedPage.update p i []).2).slots[i].len = 0 := by
    rw [← slotAt_eq_getElem hlen, hslot]
  refine ⟨by rw [heq], ?_, ?_, ?_⟩
  · rw [get_tomb hlen hslot']
  · rcases hft : findTombstone ((SlottedPage.update p i []).2).slots with _ | j
    · exact absurd hslot' (findTombstone_none hft i hlen)
    · refine ⟨j, ?_, rfl⟩
      obtain ⟨hjl, hj0, hmin⟩ := findTombstone_some hft
      by_contra hgt
      have := hmin i (by omega)
      rw [hslot] at this
      exact this rfl
  · rw [SlottedPage.insert, if_pos (by simp)]

/-- `Compact` never shrinks the contiguous free region. -/
theorem compact_freeSize_ge {p : SPage} (hwf : PageWF p) :
    p.freeSize ≤ (SlottedPage.compact p).freeSize := by
  obtain ⟨m1, m2, _, m4, _, _, _, _⟩ := compact_master hwf
  have h1 := hwf.acct
  have h2 := (compact_wf hwf).acct
  rw [m1, m2] at h2
  omega

/-- C7: the full `SlottedPage::Insert` contract: a zero-length record is
rejected with `InvalidArgument` and the page is untouched; otherwise the
call either succeeds or fails `OutOfRange`, it fails exactly when the free
space after a single compaction is still below `len` plus the extra slot
bytes (0 when a tombstone is reusable, `sizeof(Slot)` otherwise),
compaction runs only when the pre-call free size is insufficient (the
failure page is `compact p` exactly in that case, else `p`), and on success
the returned slot is the lowest-indexed tombstone (directory unchanged) or
a fresh slot (directory grown by one), the new slot reads back the inserted
bytes, and the free size shrinks by `len` plus the extra slot bytes. -/
theorem C7_insert_contract {p : SPage} (hwf : PageWF p) (rec : List Nat) :
    (rec = [] → SlottedPage.insert p rec = (Status.invalidArgument, p, 0)) ∧
    (rec ≠ [] →
      (((SlottedPage.insert p rec).1 = Status.outOfRange) ↔
        (SlottedPage.compact p).freeSize < rec.length +
          (if (findTombstone p.slots).isSome then 0 else slotSize)) ∧
      ((SlottedPage.insert p rec).1 = Status.ok ∨
        (SlottedPage.insert p rec).1 = Status.outOfRange) ∧
      ((SlottedPage.insert p rec).1 = Status.outOfRange →
        (SlottedPage.insert p rec).2.1 =
          (if p.freeSize < rec.length +
              (if (findTombstone p.slots).isSome then 0 else slotSize)
           then SlottedPage.compact p else p)) ∧
      ((SlottedPage.insert p rec).1 = Status.ok →
        (((SlottedPage.insert p rec).2.2 < p.slots.length ∧
            (slotAt p.slots (SlottedPage.insert p rec).2.2).len = 0 ∧
            (∀ j, j < (SlottedPage.insert p rec).2.2 →
              (slotAt p.slots j).len ≠ 0) ∧
            (SlottedPage.insert p rec).2.1.slots.length = p.slots.length) ∨
          ((∀ j (hj : j < p.slots.length), p.slots[j].len ≠ 0) ∧
            (SlottedPage.insert p rec).2.2 = p.slots.length ∧
            (SlottedPage.insert p rec).2.1.slots.length = p.slots.length + 1)) ∧
        SlottedPage.get (SlottedPage.insert p rec).2.1
          (SlottedPage.insert p rec).2.2 = (Status.ok, rec) ∧
        (SlottedPage.insert p rec).2.1.freeSize + rec.length +
            (if (findTombstone p.slots).isSome then 0 else slotSize) =
          (if p.freeSize < rec.length +
              (if (findTombstone p.slots).isSome then 0 else slotSize)
           then SlottedPage.compact p else p).freeSize)) := by
  constructor
  · rintro rfl
    rfl
  · intro h0
    have h0' : ¬ rec.length = 0 := by simpa using h0
    have hge := compact_freeSize_ge hwf
    rcases hf : findTombstone p.slots with _ | i
    · -- no tombstone: a new slot costs `slotSize` extra bytes
      simp only [hf, Option.isSome_none, Bool.false_eq_true, if_false]
      set q1 := if p.freeSize < rec.length + slotSize then SlottedPage.compact p
        else p with hq1
      have hwf1 : PageWF q1 := by
        rw [hq1]
        split
        · exact compact_wf hwf
        · exact hwf
      have hlen1 : q1.slots.length = p.slots.length := by
        rw [hq1]
        split
        · exact (compact_master hwf).2.1
        · rfl
      by_cases hfit : q1.freeSize < rec.length + slotSize
      · have hfit' : (if p.freeSize < rec.length + slotSize then
            SlottedPage.compact p else p).freeSize < rec.length + slotSize := hfit
        have hres : SlottedPage.insert p rec = (Status.outOfRange, q1, 0) := by
          rw [insert_eq_of_none h0' hf]
          simp only [if_pos hfit']
          try rw [hq1]
        have hrhs : (SlottedPage.compact p).freeSize < rec.length + slotSize := by
          by_cases hcc : p.freeSize < rec.length + slotSize
          · rw [hq1, if_pos hcc] at hfit
            exact hfit
          · rw [hq1, if_neg hcc] at hfit
            omega
        refine ⟨⟨fun _ => hrhs, fun _ => by rw [hres]⟩, Or.inr (by rw [hres]),
          fun _ => by rw [hres]; try exact hq1, fun hok => ?_⟩
        rw [hres] at hok
        exact absurd hok (by simp)
      · have hfit' : ¬ (if p.freeSize < rec.length + slotSize then
            SlottedPage.compact p else p).freeSize < rec.length + slotSize := hfit
        have hres : SlottedPage.insert p rec = (Status.ok,
            { q1 with
              bytes := writeList q1.bytes q1.freeOff rec
              freeOff := q1.freeOff + rec.length
              freeSize := q1.freeSize - rec.length - slotSize
              slots := q1.slots ++ [⟨q1.freeOff, rec.length⟩] },
            q1.slots.length) := by
          rw [insert_eq_of_none h0' hf]
          simp only [if_neg hfit']
          try rw [hq1]
        have hnrhs : ¬ (SlottedPage.compact p).freeSize < rec.length + slotSize := by
          by_cases hcc : p.freeSize < rec.length + slotSize
          · rw [hq1, if_pos hcc] at hfit
            exact hfit
          · rw [hq1, if_neg hcc] at hfit
            omega
        have hacct1 := hwf1.acct
        refine ⟨⟨fun hoor => ?_, fun hlt => absurd hlt hnrhs⟩,
          Or.inl (by rw [hres]), fun hoor => ?_, fun _ => ⟨?_, ?_, ?_⟩⟩
        · rw [hres] at hoor
          exact absurd hoor (by simp)
        · rw [hres] at hoor
          exact absurd hoor (by simp)
        · right
          refine ⟨findTombstone_none hf, ?_, ?_⟩
          · rw [hres]
            exact hlen1
          · rw [hres]
            show (q1.slots ++ [(⟨q1.freeOff, rec.length⟩ : Slot)]).length =
              p.slots.length + 1
            simp only [List.length_append, List.length_singleton]
            omega
        · rw [hres]
          have hidx : q1.slots.length <
              (q1.slots ++ [(⟨q1.freeOff, rec.length⟩ : Slot)]).length := by
            simp
          have hval : (q1.slots ++
              [(⟨q1.freeOff, rec.length⟩ : Slot)])[q1.slots.length] =
              ⟨q1.freeOff, rec.length⟩ := by
            rw [List.getElem_append_right (Nat.le_refl _)]
            simp
          rw [get_eq_ok (by simpa using hidx) (by rw [hval]; simpa using h0')
            (by rw [hval]; exact hwf1.hdrLe)
            (by rw [hval]; show q1.freeOff + rec.length ≤ q1.pageSize; omega)]
          rw [hval]
          show (Status.ok, readBytes (writeList q1.bytes q1.freeOff rec)
            q1.freeOff rec.length) = (Status.ok, rec)
          rw [readBytes_writeList]
        · rw [hres]
          show q1.freeSize - rec.length - slotSize + rec.length + slotSize =
            q1.freeSize
          omega
    · -- lowest tombstone `i` is reused: no extra directory bytes
      simp only [hf, Option.isSome_some, if_true, Nat.add_zero]
      obtain ⟨hilt, hi0, himin⟩ := findTombstone_some hf
      set q1 := if p.freeSize < rec.length then SlottedPage.compact p
        else p with hq1
      have hwf1 : PageWF q1 := by
        rw [hq1]
        split
        · exact compact_wf hwf
        · exact hwf
      have hlen1 : q1.slots.length = p.slots.length := by
        rw [hq1]
        split
        · exact (compact_master hwf).2.1
        · rfl
      by_cases hfit : q1.freeSize < rec.length
      · have hfit' : (if p.freeSize < rec.length then
            SlottedPage.compact p else p).freeSize < rec.length := hfit
        have hres : SlottedPage.insert p rec = (Status.outOfRange, q1, 0) := by
          rw [insert_eq_of_some h0' hf]
          simp only [if_pos hfit']
          try rw [hq1]
        have hrhs : (SlottedPage.compact p).freeSize < rec.length := by
          by_cases hcc : p.freeSize < rec.length
          · rw [hq1, if_pos hcc] at hfit
            exact hfit
          · rw [hq1, if_neg hcc] at hfit
            omega
        refine ⟨⟨fun _ => hrhs, fun _ => by rw [hres]⟩, Or.inr (by rw [hres]),
          fun _ => by rw [hres]; try exact hq1, fun hok => ?_⟩
        rw [hres] at hok
        exact absurd hok (by simp)
      · have hfit' : ¬ (if p.freeSize < rec.length then
            SlottedPage.compact p else p).freeSize < rec.length := hfit
        have hres : SlottedPage.insert p rec = (Status.ok,
            { q1 with
              bytes := writeList q1.bytes q1.freeOff rec
              freeOff := q1.freeOff + rec.length
              freeSize := q1.freeSize - rec.length
              slots := q1.slots.set i ⟨q1.freeOff, rec.length⟩ }, i) := by
          rw [insert_eq_of_some h0' hf]
          simp only [if_neg hfit']
          try rw [hq1]
        have hnrhs : ¬ (SlottedPage.compact p).freeSize < rec.length := by
          by_cases hcc : p.freeSize < rec.length
          · rw [hq1, if_pos hcc] at hfit
            exact hfit
          · rw [hq1, if_neg hcc] at hfit
            omega
        have hacct1 := hwf1.acct
        have hilt1 : i < q1.slots.length := by omega
        refine ⟨⟨fun hoor => ?_, fun hlt => absurd hlt hnrhs⟩,
          Or.inl (by rw [hres]), fun hoor => ?_, fun _ => ⟨?_, ?_, ?_⟩⟩
        · rw [hres] at hoor
          exact absurd hoor (by simp)
        · rw [hres] at hoor
          exact absurd hoor (by simp)
        · left
          refine ⟨by rw [hres]; exact hilt, ?_, ?_, ?_⟩
          · rw [hres]
            show (slotAt p.slots i).len = 0
            rw [slotAt_eq_getElem hilt]
            exact hi0
          · rw [hres]
            exact himin
          · rw [hres]
            show (q1.slots.set i ⟨q1.freeOff, rec.length⟩).length = p.slots.length
            simp only [List.length_set]
            omega
        · rw [hres]
          have hidx : i < (q1.slots.set i ⟨q1.freeOff, rec.length⟩).length := by
            simpa using hilt1
          have hval : (q1.slots.set i ⟨q1.freeOff, rec.length⟩)[i] =
              ⟨q1.freeOff, rec.length⟩ := List.getElem_set_self hidx
          rw [get_eq_ok (by simpa using hilt1) (by rw [hval]; simpa using h0')
            (by rw [hval]; exact hwf1.hdrLe)
            (by rw [hval]; show q1.freeOff + rec.length ≤ q1.pageSize; omega)]
          rw [hval]
          show (Status.ok, readBytes (writeList q1.bytes q1.freeOff rec)
            q1.freeOff rec.length) = (Status.ok, rec)
          rw [readBytes_writeList]
        · rw [hres]
          show q1.freeSize - rec.length + rec.length + 0 = q1.freeSize
          omega

set_option maxHeartbeats 1000000 in
/-- Witness for C7: inserting `[9, 9]` into a one-record 64-byte page
succeeds and the returned slot reads back the record. -/
theorem C7_insert_contract_witness :
    SlottedPage.get
        (SlottedPage.insert (SlottedPage.insert (initNew 0 64) [1, 2, 3]).2.1
          [9, 9]).2.1
        (SlottedPage.insert (SlottedPage.insert (initNew 0 64) [1, 2, 3]).2.1
          [9, 9]).2.2 = (Status.ok, [9, 9]) :=
  (((C7_insert_contract
      (reach_wf (PageReach.ins _ _ (PageReach.init 0 64 (by decide) (by decide))))
      [9, 9]).2 (by decide)).2.2.2 (by rfl)).2.1

/-! ## Free-space manager (`src/Storage/src/space/free_space_manager.cc`)

The `unordered_map`s are modelled as association lists, the per-bin
`unordered_set`s as duplicate-free lists (the C++ iteration order is
unspecified; the model fixes one, and the claims proved below do not
depend on it). -/

/-- `kInvalidPageId = static_cast<page_id_t>(-1)`. -/
def kInvalidPageId : Nat := 4294967295

/-- Lookup in an association list (`unordered_map::find`). -/
def alLookup (l : List (Nat × Nat)) (k : Nat) : Option Nat :=
  match l with
  | [] => none
  | (k', v') :: rest => if k' = k then some v' else alLookup rest k

/-- Upsert in an association list (`map[k] = v`). -/
def alSet (l : List (Nat × Nat)) (k v : Nat) : List (Nat × Nat) :=
  match l with
  | [] => [(k, v)]
  | (k', v') :: rest =>
    if k' = k then (k, v) :: rest else (k', v') :: alSet rest k v

/-- Erase a key (`map.erase(k)`). -/
def alErase (l : List (Nat × Nat)) (k : Nat) : List (Nat × Nat) :=
  l.filter (fun kv => kv.1 ≠ k)

/-- Set insertion (`unordered_set::insert`). -/
def binInsert (b : List Nat) (pid : Nat) : List Nat :=
  if pid ∈ b then b else pid :: b

/-- Set erasure (`unordered_set::erase`). -/
def binErase (b : List Nat) (pid : Nat) : List Nat :=
  b.filter (fun x => x ≠ pid)

theorem alLookup_alSet_self (l : List (Nat × Nat)) (k v : Nat) :
    alLookup (alSet l k v) k = some v := by
  induction l with
  | nil => simp [alSet, alLookup]
  | cons kv rest ih =>
    by_cases h : kv.1 = k
    · simp [alSet, h, alLookup]
    · simp only [alSet]
      rw [if_neg (by exact h)]
      simp only [alLookup]
      rw [if_neg (by exact h)]
      exact ih

theorem alLookup_alSet_ne (l : List (Nat × Nat)) {k k' : Nat} (v : Nat)
    (h : k ≠ k') : alLookup (alSet l k v) k' = alLookup l k' := by
  induction l with
  | nil => simp [alSet, alLookup, h]
  | cons kv rest ih =>
    by_cases hk : kv.1 = k
    · simp only [alSet]
      rw [if_pos hk]
      simp only [alLookup]
      rw [if_neg h, if_neg (by rw [hk]; exact h)]
    · simp only [alSet]
      rw [if_neg hk]
      simp only [alLookup]
      by_cases hk' : kv.1 = k'
      · rw [if_pos hk', if_pos hk']
      · rw [if_neg hk', if_neg hk']
        exact ih

theorem alLookup_alErase_self (l : List (Nat × Nat)) (k : Nat) :
    alLookup (alErase l k) k = none := by
  induction l with
  | nil => simp [alErase, alLookup]
  | cons kv rest ih =>
    by_cases h : kv.1 = k
    · simpa [alErase, List.filter_cons, h] using ih
    · simp only [alErase, List.filter_cons] at ih ⊢
      rw [if_pos (by simpa using h)]
      simp only [alLookup]
      rw [if_neg h]
      exact ih

theorem alLookup_alErase_ne (l : List (Nat × Nat)) {k k' : Nat} (h : k ≠ k') :
    alLookup (alErase l k) k' = alLookup l k' := by
  induction l with
  | nil => simp [alErase, alLookup]
  | cons kv rest ih =>
    by_cases hk : kv.1 = k
    · simp only [alErase, List.filter_cons] at ih ⊢
      rw [if_neg (by simpa using hk)]
      simp only [alLookup]
      rw [if_neg (by rw [hk]; exact h)]
      exact ih
    · simp only [alErase, List.filter_cons] at ih ⊢
      rw [if_pos (by simpa using hk)]
      simp only [alLookup]
      by_cases hk' : kv.1 = k'
      · rw [if_pos hk', if_pos hk']
      · rw [if_neg hk', if_neg hk']
        exact ih

theorem mem_binInsert_self (b : List Nat) (pid : Nat) : pid ∈ binInsert b pid := by
  by_cases h : pid ∈ b
  · simpa [binInsert, h]
  · simp [binInsert, h]

theorem mem_binInsert_iff {b : List Nat} {pid x : Nat} :
    x ∈ binInsert b pid ↔ x = pid ∨ x ∈ b := by
  by_cases h : pid ∈ b
  · simp only [binInsert, if_pos h]
    constructor
    · exact Or.inr
    · rintro (rfl | hx)
      · exact h
      · exact hx
  · simp [binInsert, h]

theorem mem_binErase_iff {b : List Nat} {pid x : Nat} :
    x ∈ binErase b pid ↔ x ∈ b ∧ x ≠ pid := by
  simp [binErase]

namespace FreeSpaceManager

/-- The FSM state: page size, normalized thresholds, per-bin pid sets and
the two pid maps. -/
structure FSM where
  page_size : Nat
  thresholds : List Nat
  bins : List (List Nat)
  pid2bin : List (Nat × Nat)
  pid2free : List (Nat × Nat)

/-- The constructor: sort and deduplicate the thresholds, allocate
`|thresholds| + 1` empty bins. -/
def mkFSM (page_size : Nat) (thresholds : List Nat) : FSM :=
  let ts := (List.insertionSort (· ≤ ·) thresholds).dedup
  { page_size := page_size
    thresholds := ts
    bins := List.replicate (ts.length + 1) []
    pid2bin := []
    pid2free := [] }

/-- `FreeSpaceManager::BinIndex`: `std::lower_bound` over the sorted
thresholds, i.e. the number of leading thresholds strictly below
`free_bytes`. -/
def binIndex (thresholds : List Nat) (free_bytes : Nat) : Nat :=
  (thresholds.takeWhile (fun t => t < free_bytes)).length

/-- The inner loop of `Find`: scan one bin, re-checking the recorded free
size against the request. -/
def findInBin (pid2free : List (Nat × Nat)) (need : Nat) :
    List Nat → Option Nat
  | [] => none
  | pid :: rest =>
    match alLookup pid2free pid with
    | some fr => if need ≤ fr then some pid else findInBin pid2free need rest
    | none => findInBin pid2free need rest

/-- The outer loop of `Find`: scan bins from the start bin upward. -/
def findLoop (pid2free : List (Nat × Nat)) (need : Nat) :
    List (List Nat) → Option Nat
  | [] => none
  | b :: rest =>
    match findInBin pid2free need b with
    | some pid => some pid
    | none => findLoop pid2free need rest

/-- `FreeSpaceManager::Find`. -/
def Find (f : FSM) (need : Nat) : Nat :=
  match findLoop f.pid2free need (f.bins.drop (binIndex f.thresholds need)) with
  | some pid => pid
  | none => kInvalidPageId

/-- `FreeSpaceManager::Update`. -/
def Update (f : FSM) (pid free_bytes : Nat) : FSM :=
  let new_bin := binIndex f.thresholds free_bytes
  match alLookup f.pid2bin pid with
  | some old_bin =>
    if old_bin ≠ new_bin then
      let bins1 := f.bins.set old_bin (binErase (f.bins.getD old_bin []) pid)
      let bins2 := bins1.set new_bin (binInsert (bins1.getD new_bin []) pid)
      { f with
        bins := bins2
        pid2bin := alSet f.pid2bin pid new_bin
        pid2free := alSet f.pid2free pid free_bytes }
    else
      { f with pid2free := alSet f.pid2free pid free_bytes }
  | none =>
    { f with
      bins := f.bins.set new_bin (binInsert (f.bins.getD new_bin []) pid)
      pid2bin := alSet f.pid2bin pid new_bin
      pid2free := alSet f.pid2free pid free_bytes }

/-- `FreeSpaceManager::Remove`. -/
def Remove (f : FSM) (pid : Nat) : FSM :=
  match alLookup f.pid2bin pid with
  | none => f
  | some b =>
    { f with
      bins := f.bins.set b (binErase (f.bins.getD b []) pid)
      pid2bin := alErase f.pid2bin pid
      pid2free := alErase f.pid2free pid }

/-- One insertion of the rebuild loop. -/
def rebuildStep (f : FSM) (pid free : Nat) : FSM :=
  let b := binIndex f.thresholds free
  { f with
    bins := f.bins.set b (binInsert (f.bins.getD b []) pid)
    pid2bin := alSet f.pid2bin pid b
    pid2free := alSet f.pid2free pid free }

/-- `FreeSpaceManager::RebuildFromSegment`, with the registered probes
passed as functions; clears all state then inserts every page of the
segment. -/
def RebuildFromSegment (f : FSM) (probeFree : Nat → Nat) (pages : Nat) : FSM :=
  let cleared := { f with
    bins := f.bins.map (fun _ => ([] : List Nat))
    pid2bin := ([] : List (Nat × Nat))
    pid2free := ([] : List (Nat × Nat)) }
  (List.range pages).foldl (fun acc pid => rebuildStep acc pid (probeFree pid))
    cleared

/-- Total access to a bin. -/
def binAt (bins : List (List Nat)) (b : Nat) : List Nat := bins.getD b []

theorem binAt_set_self {bins : List (List Nat)} {b : Nat} (h : b < bins.length)
    (v : List Nat) : binAt (bins.set b v) b = v := by
  simp [binAt, List.getD_eq_getElem?_getD, List.getElem?_set_self (by simpa using h),
    List.getElem?_eq_getElem h]

theorem binAt_set_ne {bins : List (List Nat)} {b b' : Nat} (h : b' ≠ b)
    (v : List Nat) : binAt (bins.set b v) b' = binAt bins b' := by
  simp [binAt, List.getD_eq_getElem?_getD, List.getElem?_set_ne (Ne.symm h)]

/-- Consistency invariant of the FSM maps and bins. -/
def wf (f : FSM) : Prop :=
  f.bins.length = f.thresholds.length + 1 ∧
  (∀ pid b, alLookup f.pid2bin pid = some b →
    b < f.bins.length ∧ pid ∈ binAt f.bins b ∧
    ∃ fr, alLookup f.pid2free pid = some fr ∧ b = binIndex f.thresholds fr) ∧
  (∀ pid fr, alLookup f.pid2free pid = some fr →
    ∃ b, alLookup f.pid2bin pid = some b)

theorem binIndex_le_length (thresholds : List Nat) (free : Nat) :
    binIndex thresholds free ≤ thresholds.length :=
  (List.takeWhile_sublist _).length_le

theorem binIndex_mono (thresholds : List Nat) {n fr : Nat} (h : n ≤ fr) :
    binIndex thresholds n ≤ binIndex thresholds fr := by
  simp only [binIndex]
  induction thresholds with
  | nil => simp
  | cons t rest ih =>
    by_cases ht : t < n
    · rw [List.takeWhile_cons, if_pos (by simpa using ht),
        List.takeWhile_cons, if_pos (by simp; omega)]
      simpa using ih
    · rw [List.takeWhile_cons, if_neg (by simpa using ht)]
      simp

theorem mkFSM_wf (ps : Nat) (ts : List Nat) : wf (mkFSM ps ts) := by
  refine ⟨by simp [mkFSM], ?_, ?_⟩
  · intro pid b h
    simp [mkFSM, alLookup] at h
  · intro pid fr h
    simp [mkFSM, alLookup] at h

theorem Update_wf {f : FSM} (hwf : wf f) (pid free_bytes : Nat) :
    wf (Update f pid free_bytes) := by
  obtain ⟨hlen, hbin, hfree⟩ := hwf
  have hnewlt : binIndex f.thresholds free_bytes < f.bins.length := by
    have := binIndex_le_length f.thresholds free_bytes
    omega
  rcases hold : alLookup f.pid2bin pid with _ | old_bin
  · -- fresh pid
    rw [Update]
    simp only [hold]
    refine ⟨by simpa using hlen, ?_, ?_⟩
    · intro pid' b' h'
      by_cases hp : pid = pid'
      · subst hp
        rw [alLookup_alSet_self] at h'
        cases h'
        refine ⟨by simpa using hnewlt, ?_,
          free_bytes, alLookup_alSet_self _ _ _, rfl⟩
        show pid ∈ binAt (f.bins.set _ _) _
        rw [binAt_set_self hnewlt]
        exact mem_binInsert_self _ _
      · rw [alLookup_alSet_ne _ _ hp] at h'
        obtain ⟨hb1, hb2, fr, hb3, hb4⟩ := hbin pid' b' h'
        refine ⟨by simpa using hb1, ?_, fr, ?_, hb4⟩
        · show pid' ∈ binAt (f.bins.set _ _) b'
          by_cases hbb : b' = binIndex f.thresholds free_bytes
          · subst hbb
            rw [binAt_set_self hnewlt]
            exact mem_binInsert_iff.2 (Or.inr hb2)
          · rw [binAt_set_ne hbb]
            exact hb2
        · rw [alLookup_alSet_ne _ _ hp]
          exact hb3
    · intro pid' fr' h'
      by_cases hp : pid = pid'
      · subst hp
        exact ⟨_, alLookup_alSet_self _ _ _⟩
      · rw [alLookup_alSet_ne _ _ hp] at h'
        obtain ⟨b, hb⟩ := hfree pid' fr' h'
        rw [← alLookup_alSet_ne f.pid2bin (binIndex f.thresholds free_bytes) hp]
          at hb
        exact ⟨b, hb⟩
  · -- pid already tracked
    rw [Update]
    simp only [hold]
    obtain ⟨hoblt, hobmem, frOld, hfr, hfrbin⟩ := hbin pid old_bin hold
    by_cases hmove : old_bin ≠ binIndex f.thresholds free_bytes
    · rw [if_pos hmove]
      have hlen1 : (f.bins.set old_bin (binErase (binAt f.bins old_bin) pid)).length
          = f.bins.length := by simp
      refine ⟨by simpa using hlen, ?_, ?_⟩
      · intro pid' b' h'
        by_cases hp : pid = pid'
        · subst hp
          rw [alLookup_alSet_self] at h'
          cases h'
          refine ⟨by simpa using hnewlt, ?_,
            free_bytes, alLookup_alSet_self _ _ _, rfl⟩
          show pid ∈ binAt ((f.bins.set old_bin _).set _ _) _
          rw [binAt_set_self (by simpa using hnewlt)]
          exact mem_binInsert_self _ _
        · rw [alLookup_alSet_ne _ _ hp] at h'
          obtain ⟨hb1, hb2, fr, hb3, hb4⟩ := hbin pid' b' h'
          refine ⟨by simpa using hb1, ?_, fr, ?_, hb4⟩
          · show pid' ∈ binAt ((f.bins.set old_bin _).set _ _) b'
            by_cases hbb : b' = binIndex f.thresholds free_bytes
            · subst hbb
              rw [binAt_set_self (by simpa using hnewlt)]
              refine mem_binInsert_iff.2 (Or.inr ?_)
              show pid' ∈ binAt (f.bins.set old_bin (binErase (binAt f.bins old_bin)
                pid)) (binIndex f.thresholds free_bytes)
              rw [binAt_set_ne (fun hc => hmove hc.symm)]
              exact hb2
            · rw [binAt_set_ne hbb]
              by_cases hbo : b' = old_bin
              · subst hbo
                rw [binAt_set_self hoblt]
                exact mem_binErase_iff.2 ⟨hb2, fun hc => hp hc.symm⟩
              · rw [binAt_set_ne hbo]
                exact hb2
          · rw [alLookup_alSet_ne _ _ hp]
            exact hb3
      · intro pid' fr' h'
        by_cases hp : pid = pid'
        · subst hp
          exact ⟨_, alLookup_alSet_self _ _ _⟩
        · rw [alLookup_alSet_ne _ _ hp] at h'
          obtain ⟨b, hb⟩ := hfree pid' fr' h'
          rw [← alLookup_alSet_ne f.pid2bin (binIndex f.thresholds free_bytes) hp]
            at hb
          exact ⟨b, hb⟩
    · rw [if_neg hmove]
      push_neg at hmove
      refine ⟨hlen, ?_, ?_⟩
      · intro pid' b' h'
        by_cases hp : pid = pid'
        · subst hp
          rw [hold] at h'
          cases h'
          exact ⟨hoblt, hobmem, free_bytes, alLookup_alSet_self _ _ _, hmove⟩
        · obtain ⟨hb1, hb2, fr, hb3, hb4⟩ := hbin pid' b' h'
          refine ⟨hb1, hb2, fr, ?_, hb4⟩
          rw [alLookup_alSet_ne _ _ hp]
          exact hb3
      · intro pid' fr' h'
        by_cases hp : pid = pid'
        · subst hp
          exact ⟨old_bin, hold⟩
        · rw [alLookup_alSet_ne _ _ hp] at h'
          exact hfree pid' fr' h'

theorem Remove_wf {f : FSM} (hwf : wf f) (pid : Nat) : wf (Remove f pid) := by
  obtain ⟨hlen, hbin, hfree⟩ := hwf
  rcases hold : alLookup f.pid2bin pid with _ | b
  · rw [Remove]
    simp only [hold]
    exact ⟨hlen, hbin, hfree⟩
  · rw [Remove]
    simp only [hold]
    obtain ⟨hoblt, hobmem, frOld, hfr, hfrbin⟩ := hbin pid b hold
    refine ⟨by simpa using hlen, ?_, ?_⟩
    · intro pid' b' h'
      by_cases hp : pid = pid'
      · subst hp
        rw [alLookup_alErase_self] at h'
        cases h'
      · rw [alLookup_alErase_ne _ hp] at h'
        obtain ⟨hb1, hb2, fr, hb3, hb4⟩ := hbin pid' b' h'
        refine ⟨by simpa using hb1, ?_, fr, ?_, hb4⟩
        · show pid' ∈ binAt (f.bins.set b _) b'
          by_cases hbb : b' = b
          · subst hbb
            rw [binAt_set_self hoblt]
            exact mem_binErase_iff.2 ⟨hb2, fun hc => hp hc.symm⟩
          · rw [binAt_set_ne hbb]
            exact hb2
        · rw [alLookup_alErase_ne _ hp]
          exact hb3
    · intro pid' fr' h'
      by_cases hp : pid = pid'
      · subst hp
        rw [alLookup_alErase_self] at h'
        cases h'
      · rw [alLookup_alErase_ne _ hp] at h'
        obtain ⟨b', hb'⟩ := hfree pid' fr' h'
        rw [← alLookup_alErase_ne f.pid2bin hp] at hb'
        exact ⟨b', hb'⟩

theorem rebuildStep_wf {f : FSM} (hwf : wf f) {pid : Nat} (free : Nat)
    (hfresh : alLookup f.pid2bin pid = none) : wf (rebuildStep f pid free) := by
  obtain ⟨hlen, hbin, hfree⟩ := hwf
  have hnewlt : binIndex f.thresholds free < f.bins.length := by
    have := binIndex_le_length f.thresholds free
    omega
  rw [rebuildStep]
  refine ⟨by simpa using hlen, ?_, ?_⟩
  · intro pid' b' h'
    by_cases hp : pid = pid'
    · subst hp
      rw [alLookup_alSet_self] at h'
      cases h'
      refine ⟨by simpa using hnewlt, ?_, free, alLookup_alSet_self _ _ _, rfl⟩
      show pid ∈ binAt (f.bins.set _ _) _
      rw [binAt_set_self hnewlt]
      exact mem_binInsert_self _ _
    · rw [alLookup_alSet_ne _ _ hp] at h'
      obtain ⟨hb1, hb2, fr, hb3, hb4⟩ := hbin pid' b' h'
      refine ⟨by simpa using hb1, ?_, fr, ?_, hb4⟩
      · show pid' ∈ binAt (f.bins.set _ _) b'
        by_cases hbb : b' = binIndex f.thresholds free
        · subst hbb
          rw [binAt_set_self hnewlt]
          exact mem_binInsert_iff.2 (Or.inr hb2)
        · rw [binAt_set_ne hbb]
          exact hb2
      · rw [alLookup_alSet_ne _ _ hp]
        exact hb3
  · intro pid' fr' h'
    by_cases hp : pid = pid'
    · subst hp
      exact ⟨_, alLookup_alSet_self _ _ _⟩
    · rw [alLookup_alSet_ne _ _ hp] at h'
      obtain ⟨b, hb⟩ := hfree pid' fr' h'
      rw [← alLookup_alSet_ne f.pid2bin (binIndex f.thresholds free) hp] at hb
      exact ⟨b, hb⟩

theorem rebuild_fold_wf (probeFree : Nat → Nat) (g0 : FSM) (h0 : wf g0)
    (hdom0 : ∀ pid b, alLookup g0.pid2bin pid = some b → False) (n : Nat) :
    wf ((List.range n).foldl
        (fun acc pid => rebuildStep acc pid (probeFree pid)) g0) ∧
    (∀ pid b, alLookup ((List.range n).foldl
        (fun acc pid => rebuildStep acc pid (probeFree pid)) g0).pid2bin pid =
      some b → pid < n) := by
  induction n with
  | zero =>
    refine ⟨by simpa using h0, ?_⟩
    intro pid b h
    simp only [List.range_zero, List.foldl_nil] at h
    exact absurd h (fun hc => hdom0 pid b hc)
  | succ n ih =>
    obtain ⟨ihwf, ihdom⟩ := ih
    rw [List.range_succ, List.foldl_append, List.foldl_cons, List.foldl_nil]
    set gn := (List.range n).foldl
      (fun acc pid => rebuildStep acc pid (probeFree pid)) g0 with hgn
    have hfresh : alLookup gn.pid2bin n = none := by
      rcases hl : alLookup gn.pid2bin n with _ | b
      · rfl
      · exact absurd (ihdom n b hl) (by omega)
    refine ⟨rebuildStep_wf ihwf (probeFree n) hfresh, ?_⟩
    intro pid b h
    by_cases hp : n = pid
    · omega
    · rw [rebuildStep] at h
      simp only at h
      rw [alLookup_alSet_ne _ _ hp] at h
      have := ihdom pid b h
      omega

theorem RebuildFromSegment_wf {f : FSM} (hwf : wf f) (probeFree : Nat → Nat)
    (pages : Nat) : wf (RebuildFromSegment f probeFree pages) := by
  obtain ⟨hlen, _, _⟩ := hwf
  rw [RebuildFromSegment]
  have hcl : wf { f with
      bins := f.bins.map (fun _ => ([] : List Nat))
      pid2bin := ([] : List (Nat × Nat))
      pid2free := ([] : List (Nat × Nat)) } := by
    refine ⟨by simpa using hlen, ?_, ?_⟩
    · intro pid b h
      simp [alLookup] at h
    · intro pid fr h
      simp [alLookup] at h
  exact (rebuild_fold_wf probeFree _ hcl (fun pid b h => by simp [alLookup] at h)
    pages).1

theorem binAt_eq_getElem {bins : List (List Nat)} {b : Nat} (h : b < bins.length) :
    binAt bins b = bins[b] := by
  simp [binAt, List.getD_eq_getElem?_getD, List.getElem?_eq_getElem h]

theorem findInBin_sound {p2f : List (Nat × Nat)} {need : Nat} {b : List Nat}
    {pid : Nat} (h : findInBin p2f need b = some pid) :
    ∃ fr, alLookup p2f pid = some fr ∧ need ≤ fr := by
  induction b with
  | nil => simp [findInBin] at h
  | cons x rest ih =>
    rw [findInBin] at h
    rcases hl : alLookup p2f x with _ | fr
    · rw [hl] at h
      dsimp only at h
      exact ih h
    · rw [hl] at h
      dsimp only at h
      by_cases hge : need ≤ fr
      · rw [if_pos hge] at h
        cases h
        exact ⟨fr, hl, hge⟩
      · rw [if_neg hge] at h
        exact ih h

theorem findInBin_none {p2f : List (Nat × Nat)} {need : Nat} {b : List Nat}
    (h : findInBin p2f need b = none) :
    ∀ pid ∈ b, ∀ fr, alLookup p2f pid = some fr → fr < need := by
  induction b with
  | nil => simp
  | cons x rest ih =>
    rw [findInBin] at h
    intro pid hmem fr hl
    rcases List.mem_cons.1 hmem with rfl | hmem'
    · rw [hl] at h
      dsimp only at h
      by_cases hge : need ≤ fr
      · rw [if_pos hge] at h
        cases h
      · omega
    · rcases hlx : alLookup p2f x with _ | frx
      · rw [hlx] at h
        dsimp only at h
        exact ih h pid hmem' fr hl
      · rw [hlx] at h
        dsimp only at h
        by_cases hge : need ≤ frx
        · rw [if_pos hge] at h
          cases h
        · rw [if_neg hge] at h
          exact ih h pid hmem' fr hl

theorem findLoop_sound {p2f : List (Nat × Nat)} {need : Nat}
    {bl : List (List Nat)} {pid : Nat} (h : findLoop p2f need bl = some pid) :
    ∃ fr, alLookup p2f pid = some fr ∧ need ≤ fr := by
  induction bl with
  | nil => simp [findLoop] at h
  | cons b rest ih =>
    rw [findLoop] at h
    rcases hb : findInBin p2f need b with _ | pid'
    · rw [hb] at h
      dsimp only at h
      exact ih h
    · rw [hb] at h
      dsimp only at h
      cases h
      exact findInBin_sound hb

theorem findLoop_none {p2f : List (Nat × Nat)} {need : Nat}
    {bl : List (List Nat)} (h : findLoop p2f need bl = none) :
    ∀ b ∈ bl, ∀ pid ∈ b, ∀ fr, alLookup p2f pid = some fr → fr < need := by
  induction bl with
  | nil => simp
  | cons b rest ih =>
    rw [findLoop] at h
    rcases hb : findInBin p2f need b with _ | pid'
    · rw [hb] at h
      dsimp only at h
      intro b' hb' pid hpid fr hl
      rcases List.mem_cons.1 hb' with rfl | hb''
      · exact findInBin_none hb pid hpid fr hl
      · exact ih h b' hb'' pid hpid fr hl
    · rw [hb] at h
      dsimp only at h
      cases h

/-- FSM states reachable through the constructor, `Update`, `Remove` and
`RebuildFromSegment`. -/
inductive FSMReach : FSM → Prop
  | mk (ps : Nat) (ts : List Nat) : FSMReach (mkFSM ps ts)
  | upd {f : FSM} (pid free : Nat) : FSMReach f → FSMReach (Update f pid free)
  | rem {f : FSM} (pid : Nat) : FSMReach f → FSMReach (Remove f pid)
  | reb {f : FSM} (probe : Nat → Nat) (pages : Nat) : FSMReach f →
      FSMReach (RebuildFromSegment f probe pages)

theorem fsm_reach_wf {f : FSM} (h : FSMReach f) : wf f := by
  induction h with
  | mk ps ts => exact mkFSM_wf ps ts
  | upd pid free _ ih => exact Update_wf ih pid free
  | rem pid _ ih => exact Remove_wf ih pid
  | reb probe pages _ ih => exact RebuildFromSegment_wf ih probe pages

end FreeSpaceManager

open FreeSpaceManager in
/-- C5: on every FSM state reachable through `Update`, `Remove` and
`RebuildFromSegment`, `Find(n)` either returns `kInvalidPageId` or a page
whose recorded free bytes are at least `n` (it never returns a page with
recorded free below `n`), and whenever some tracked page has recorded free
bytes at least `n`, `Find(n)` returns such a page. -/
theorem C5_find_contract {f : FSM} (h : FSMReach f) (need : Nat) :
    (Find f need = kInvalidPageId ∨
      ∃ fr, alLookup f.pid2free (Find f need) = some fr ∧ need ≤ fr) ∧
    ((∃ pid fr, alLookup f.pid2free pid = some fr ∧ need ≤ fr) →
      ∃ fr, alLookup f.pid2free (Find f need) = some fr ∧ need ≤ fr) := by
  have hwf := fsm_reach_wf h
  obtain ⟨hlen, hbin, hfree⟩ := hwf
  constructor
  · rcases hl : findLoop f.pid2free need
        (f.bins.drop (binIndex f.thresholds need)) with _ | pid
    · left
      rw [Find, hl]
    · right
      rw [Find, hl]
      exact findLoop_sound hl
  · rintro ⟨pid, fr, hfr, hge⟩
    rcases hl : findLoop f.pid2free need
        (f.bins.drop (binIndex f.thresholds need)) with _ | pid'
    · exfalso
      obtain ⟨b, hb⟩ := hfree pid fr hfr
      obtain ⟨hblt, hmem, fr', hfr', hbidx⟩ := hbin pid b hb
      have hfr'' : fr' = fr := by
        rw [hfr] at hfr'
        cases hfr'
        rfl
      rw [hfr''] at hbidx
      have hstart : binIndex f.thresholds need ≤ b := by
        rw [hbidx]
        exact binIndex_mono f.thresholds hge
      have hdlt : b - binIndex f.thresholds need <
          (f.bins.drop (binIndex f.thresholds need)).length := by
        rw [List.length_drop]
        omega
      have hdel : (f.bins.drop (binIndex f.thresholds need))[b -
          binIndex f.thresholds need] = f.bins[b] := by
        rw [List.getElem_drop]
        congr 1
        omega
      have hmem2 : f.bins[b] ∈ f.bins.drop (binIndex f.thresholds need) := by
        rw [← hdel]
        exact List.getElem_mem hdlt
      rw [binAt_eq_getElem hblt] at hmem
      have := findLoop_none hl _ hmem2 pid hmem fr hfr
      omega
    · rw [Find, hl]
      exact findLoop_sound hl

open FreeSpaceManager in
/-- Witness for C5 on a concrete reachable FSM holding pages 3 (600 free
bytes) and 7 (4000 free bytes), queried with `need = 601`. -/
theorem C5_find_contract_witness :
    (let f := Update (Update (mkFSM 8192 [128, 512, 1024, 2048, 4096, 8192])
      3 600) 7 4000
     (Find f 601 = kInvalidPageId ∨
       ∃ fr, alLookup f.pid2free (Find f 601) = some fr ∧ 601 ≤ fr) ∧
     ((∃ pid fr, alLookup f.pid2free pid = some fr ∧ 601 ≤ fr) →
       ∃ fr, alLookup f.pid2free (Find f 601) = some fr ∧ 601 ≤ fr)) :=
  C5_find_contract
    (FSMReach.upd 7 4000 (FSMReach.upd 3 600
      (FSMReach.mk 8192 [128, 512, 1024, 2048, 4096, 8192]))) 601

open FreeSpaceManager in
/-- C4, behaviour of the code at the boundary input: with the default
thresholds, `BinIndex` (an `std::lower_bound`) maps a free size exactly
equal to the smallest threshold 128 to bin 0, and `Update(7, 128)` records
page 7 in bin 0 — not bin 1 as the spec and the header documentation
(`Bin1: [t0, t1)`) state. -/
theorem C4_bin_boundary_code_behavior :
    binIndex (mkFSM 8192 [128, 512, 1024, 2048, 4096, 8192]).thresholds 128 = 0 ∧
    alLookup (Update (mkFSM 8192 [128, 512, 1024, 2048, 4096, 8192]) 7
      128).pid2bin 7 = some 0 ∧ (0 : Nat) ≠ 1 := by
  refine ⟨by decide, by decide, by decide⟩

/-! ## Clock replacer (`src/Storage/src/buffer/clock_replacer.cc`) -/

namespace ClockReplacer

/-- The clock replacer state: presence and reference bitmaps, hand, capacity. -/
structure Clock where
  present : List Bool
  ref : List Bool
  hand : Nat
  cap : Nat
deriving Repr, DecidableEq

/-- The constructor: both bitmaps cleared, hand at 0. -/
def mkClock (capacity : Nat) : Clock :=
  { present := List.replicate capacity false
    ref := List.replicate capacity false
    hand := 0
    cap := capacity }

/-- `ClockReplacer::Pin`: remove from the candidate set, clear both bits. -/
def Pin (c : Clock) (fid : Nat) : Clock :=
  if fid < c.cap then
    { c with present := c.present.set fid false, ref := c.ref.set fid false }
  else c

/-- `ClockReplacer::Unpin`: add to the candidate set with the reference bit
set (one grace pass). -/
def Unpin (c : Clock) (fid : Nat) : Clock :=
  if fid < c.cap then
    { c with present := c.present.set fid true, ref := c.ref.set fid true }
  else c

/-- The sweep of `ClockReplacer::Victim`, fuelled by the remaining scan
budget (`2 * cap - scanned`). -/
def victimLoop (c : Clock) : Nat → Option Nat × Clock
  | 0 => (none, c)
  | fuel + 1 =>
    if c.present.getD c.hand false then
      if c.ref.getD c.hand false then
        victimLoop
          { c with ref := c.ref.set c.hand false, hand := (c.hand + 1) % c.cap }
          fuel
      else
        (some c.hand,
          { c with
            present := c.present.set c.hand false
            ref := c.ref.set c.hand false
            hand := (c.hand + 1) % c.cap })
    else victimLoop { c with hand := (c.hand + 1) % c.cap } fuel

/-- `ClockReplacer::Victim`: sweep with a hard cap of `2 * capacity` steps. -/
def Victim (c : Clock) : Option Nat × Clock :=
  if c.cap = 0 then (none, c) else victimLoop c (c.cap * 2)

/-- `ClockReplacer::Size`: number of present frames. -/
def Size (c : Clock) : Nat := c.present.countP (fun b => b)

end ClockReplacer

open ClockReplacer in
/-- Counterexample to C8: with 3 frames all present and all reference bits
set, the first `Victim` call does not return empty-handed: after clearing
the three reference bits, its `2 * capacity` scan budget lets it continue
sweeping and it selects frame 0 (the frame at the hand) in the same call. -/
theorem C8_counterexample_first_call_selects :
    (let c := Unpin (Unpin (Unpin (mkClock 3) 0) 1) 2
     (Victim c).1 = some 0 ∧ (Victim c).1 ≠ none) := by
  refine ⟨by decide, by decide⟩

open ClockReplacer in
/-- C8 (amended): with 3 frames all present and all reference bits set and
the hand at `h`, the first `Victim` call clears the three reference bits
and already returns the frame at the hand (the least recently unpinned
frame in hand order); the second call returns the next frame in hand
order. -/
theorem C8_clock_two_pass {h : Nat} (hh : h < 3) :
    (Victim ⟨[true, true, true], [true, true, true], h, 3⟩).1 = some h ∧
    (Victim ⟨[true, true, true], [true, true, true], h, 3⟩).2.ref =
      [false, false, false] ∧
    (Victim (Victim ⟨[true, true, true], [true, true, true], h, 3⟩).2).1 =
      some ((h + 1) % 3) := by
  interval_cases h
  · exact ⟨by decide, by decide, by decide⟩
  · exact ⟨by decide, by decide, by decide⟩
  · exact ⟨by decide, by decide, by decide⟩

open ClockReplacer in
/-- Witness for the amended C8 at hand position 0. -/
theorem C8_clock_two_pass_witness :
    (Victim ⟨[true, true, true], [true, true, true], 0, 3⟩).1 = some 0 ∧
    (Victim ⟨[true, true, true], [true, true, true], 0, 3⟩).2.ref =
      [false, false, false] ∧
    (Victim (Victim ⟨[true, true, true], [true, true, true], 0, 3⟩).2).1 =
      some ((0 + 1) % 3) :=
  C8_clock_two_pass (by decide)

set_option maxHeartbeats 1000000 in
/-- Witness for C10: tombstoning slot 0 of a two-record page through a
zero-length update. -/
theorem C10_update_zero_length_tombstones_witness :
    (let p := (SlottedPage.insert (SlottedPage.insert (initNew 0 64)
      [1, 2, 3]).2.1 [4, 5]).2.1
     (SlottedPage.update p 0 []).1 = Status.ok ∧
     (SlottedPage.get (SlottedPage.update p 0 []).2 0).1 = Status.notFound ∧
     (∃ j, j ≤ 0 ∧ findTombstone (SlottedPage.update p 0 []).2.slots = some j) ∧
     (SlottedPage.insert p []).1 = Status.invalidArgument) :=
  C10_update_zero_length_tombstones (by decide) (by decide)

/-! ## Disk manager and buffer pool manager

`DiskManager` (disk_manager_posix.cc) is modelled at page granularity: the
file is the list of page images currently on disk, and write failures are
modelled by a predicate saying which page writes fail at the `pwrite`
level (after `EnsureCapacityFor` has already grown the file). -/

/-- A page image whose bytes are all zero, as produced by growing the file
with `ftruncate` or by `memset` in `NewPage`. -/
def zeroPage (ps : Nat) : SPage :=
  { pageId := 0
    pageLsn := 0
    formatVersion := 0
    pageSize := ps
    freeOff := 0
    freeSize := 0
    slots := []
    bytes := fun _ => 0 }

/-- The disk state: page size, the on-file page images, and which page
writes fail. -/
structure Disk where
  page_size : Nat
  pages : List SPage
  writeFails : Nat → Bool

namespace DiskManager

/-- `DiskManager::PageCount`: file size divided by the page size. -/
def PageCount (d : Disk) : Nat := d.pages.length

/-- `DiskManager::ReadPage`: `ReadAt` returns `NotFound` when the request
goes past EOF, otherwise the stored image. -/
def ReadPage (d : Disk) (pid : Nat) : Status × SPage :=
  if h : pid < d.pages.length then (Status.ok, d.pages[pid])
  else (Status.notFound, zeroPage d.page_size)

/-- The file after `EnsureCapacityFor(pid)`: grown with zero pages up to
`pid + 1` pages if shorter. -/
def ensureCapacity (d : Disk) (pid : Nat) : List SPage :=
  d.pages ++ List.replicate (pid + 1 - d.pages.length) (zeroPage d.page_size)

/-- `DiskManager::WritePage`: grow the file if needed, then write the page;
a failing `pwrite` surfaces as `IOError` with the (already grown) file
contents unchanged. -/
def WritePage (d : Disk) (pid : Nat) (img : SPage) : Status × Disk :=
  if d.writeFails pid then (Status.ioError, { d with pages := ensureCapacity d pid })
  else (Status.ok, { d with pages := (ensureCapacity d pid).set pid img })

end DiskManager

/-- Frame metadata together with its page-sized arena slice (`Frame` in
internal/buffer/frame.h; `page_id == kInvalidPageId` is `none`). -/
structure Frame where
  page_id : Option Nat
  pin_count : Nat
  dirty : Bool
  data : SPage

/-- The buffer pool state (`BufferPoolManager::Impl`): frames, the page
table, the free list, the clock replacer and the statistics counters. -/
structure BPM where
  frames : List Frame
  table : List (Nat × Nat)
  free_list : List Nat
  replacer : ClockReplacer.Clock
  num_frames : Nat
  page_size : Nat
  hits : Nat
  misses : Nat
  evictions : Nat
  flushes : Nat

namespace BufferPoolManager

/-- Total access to a frame (all uses are bounds-checked in the proofs). -/
def frameAt (frames : List Frame) (fid : Nat) : Frame :=
  frames.getD fid ⟨none, 0, false, zeroPage 0⟩

/-- The `BufferPoolManager` constructor: every frame reset over its zeroed
arena slice, all frames on the free list. -/
def mkBPM (num_frames page_size : Nat) : BPM :=
  { frames := List.replicate num_frames ⟨none, 0, false, zeroPage page_size⟩
    table := []
    free_list := List.range num_frames
    replacer := ClockReplacer.mkClock num_frames
    num_frames := num_frames
    page_size := page_size
    hits := 0
    misses := 0
    evictions := 0
    flushes := 0 }

/-- `BufferPoolManager::LookupFrame`: the page table probe. -/
def LookupFrame (b : BPM) (pid : Nat) : Option Nat :=
  alLookup b.table pid

/-- `BufferPoolManager::FlushFrame`: no-op on clean or unbound frames;
otherwise write the frame image to disk, clearing the dirty bit only when
the write succeeds.  Returns whether a flush happened, as in the C++. -/
def FlushFrame (b : BPM) (d : Disk) (fid : Nat) : Bool × BPM × Disk :=
  let f := frameAt b.frames fid
  match f.dirty, f.page_id with
  | false, _ => (false, b, d)
  | true, none => (false, b, d)
  | true, some pid =>
    match DiskManager.WritePage d pid f.data with
    | (Status.ok, d1) =>
      (true, { b with frames := b.frames.set fid { f with dirty := false } }, d1)
    | (_, d1) => (false, b, d1)

/-- `BufferPoolManager::AcquireFrameFor`: take a free frame if any, else
ask the replacer for a victim; if the victim holds a page, flush it (count
the flush only on success), then erase its mapping and count the eviction
regardless of the flush outcome.  Returns `(frame, evicted page)`. -/
def AcquireFrameFor (b : BPM) (d : Disk) : Option Nat × Option Nat × BPM × Disk :=
  match b.free_list with
  | fid :: rest => (some fid, none, { b with free_list := rest }, d)
  | [] =>
    match ClockReplacer.Victim b.replacer with
    | (none, r1) => (none, none, { b with replacer := r1 }, d)
    | (some victim, r1) =>
      let b1 := { b with replacer := r1 }
      let f := frameAt b1.frames victim
      match f.page_id with
      | none => (some victim, none, b1, d)
      | some opid =>
        let fr := FlushFrame b1 d victim
        let b2 := if fr.1 then { fr.2.1 with flushes := fr.2.1.flushes + 1 } else fr.2.1
        (some victim, some opid,
          { b2 with table := alErase b2.table opid, evictions := b2.evictions + 1 },
          fr.2.2)

/-- `BufferPoolManager::FetchPage`.  The fourth component is the frame
whose arena slice is handed out through `out_data` (meaningful on `ok`). -/
def FetchPage (b : BPM) (d : Disk) (pid : Nat) : Status × BPM × Disk × Option Nat :=
  match LookupFrame b pid with
  | some fid =>
    let f := frameAt b.frames fid
    (Status.ok,
      { b with
        frames := b.frames.set fid { f with pin_count := f.pin_count + 1 }
        replacer := ClockReplacer.Pin b.replacer fid
        hits := b.hits + 1 }, d, some fid)
  | none =>
    match AcquireFrameFor b d with
    | (none, _, b1, d1) => (Status.unavailable, b1, d1, none)
    | (some fid, _, b1, d1) =>
      match DiskManager.ReadPage d1 pid with
      | (Status.ok, img) =>
        (Status.ok,
          { b1 with
            frames := b1.frames.set fid ⟨some pid, 1, false, img⟩
            table := alSet b1.table pid fid
            replacer := ClockReplacer.Pin b1.replacer fid
            misses := b1.misses + 1 }, d1, some fid)
      | (s, _) =>
        let f := frameAt b1.frames fid
        (s,
          { b1 with
            frames := b1.frames.set fid
              { f with page_id := none, pin_count := 0, dirty := false }
            free_list := fid :: b1.free_list }, d1, none)

/-- `BufferPoolManager::NewPage`: acquire a frame, allocate the page id at
the end of the file, zero the frame, bind it, and append a zero page to
disk (the write status is discarded by the C++).  The fourth component is
`(new page id, frame)` on success. -/
def NewPage (b : BPM) (d : Disk) : Status × BPM × Disk × Option (Nat × Nat) :=
  match AcquireFrameFor b d with
  | (none, _, b1, d1) => (Status.unavailable, b1, d1, none)
  | (some fid, _, b1, d1) =>
    let pid := DiskManager.PageCount d1
    let img := zeroPage b1.page_size
    let b2 := { b1 with
      frames := b1.frames.set fid ⟨some pid, 1, false, img⟩
      table := alSet b1.table pid fid
      replacer := ClockReplacer.Pin b1.replacer fid }
    (Status.ok, b2, (DiskManager.WritePage d1 pid img).2, some (pid, fid))

/-- `BufferPoolManager::UnpinFrame`. -/
def UnpinFrame (b : BPM) (fid : Nat) (is_dirty : Bool) : Status × BPM :=
  let f := frameAt b.frames fid
  if f.pin_count = 0 then (Status.invalidArgument, b)
  else
    let f1 : Frame :=
      { f with pin_count := f.pin_count - 1, dirty := f.dirty || is_dirty }
    let b1 := { b with frames := b.frames.set fid f1 }
    if f1.pin_count = 0 then
      (Status.ok, { b1 with replacer := ClockReplacer.Unpin b1.replacer fid })
    else (Status.ok, b1)

/-- `BufferPoolManager::UnpinPage`. -/
def UnpinPage (b : BPM) (pid : Nat) (is_dirty : Bool) : Status × BPM :=
  match LookupFrame b pid with
  | none => (Status.notFound, b)
  | some fid => UnpinFrame b fid is_dirty

/-- `BufferPoolManager::FlushPage`. -/
def FlushPage (b : BPM) (d : Disk) (pid : Nat) : Status × BPM × Disk :=
  match LookupFrame b pid with
  | none => (Status.notFound, b, d)
  | some fid =>
    let r := FlushFrame b d fid
    if r.1 then (Status.ok, { r.2.1 with flushes := r.2.1.flushes + 1 }, r.2.2)
    else (Status.ok, r.2.1, r.2.2)

end BufferPoolManager

namespace BufferPoolManager

theorem frameAt_eq_getElem {frames : List Frame} {fid : Nat}
    (h : fid < frames.length) : frameAt frames fid = frames[fid] := by
  simp [frameAt, List.getD_eq_getElem?_getD, List.getElem?_eq_getElem h]

theorem frameAt_set_self {frames : List Frame} {fid : Nat} {f : Frame}
    (h : fid < frames.length) : frameAt (frames.set fid f) fid = f := by
  rw [frameAt_eq_getElem (by simpa using h)]
  simp

/-- `FlushFrame` on a dirty, bound frame whose page write fails: reports
`false`, leaves the buffer pool untouched (the dirty bit stays set), and
leaves the file contents unchanged apart from the capacity growth. -/
theorem FlushFrame_eq_fail {b : BPM} {d : Disk} {fid opid : Nat}
    (hpid : (frameAt b.frames fid).page_id = some opid)
    (hdirty : (frameAt b.frames fid).dirty = true)
    (hfail : d.writeFails opid = true) :
    FlushFrame b d fid =
      (false, b, { d with pages := DiskManager.ensureCapacity d opid }) := by
  simp only [FlushFrame]
  rw [hdirty, hpid]
  simp only [DiskManager.WritePage]
  rw [if_pos hfail]

/-- `AcquireFrameFor` with an empty free list, a victim holding a dirty
page, and a failing disk write: the eviction still proceeds — the victim's
page-table mapping is erased, the eviction counter is bumped, the flush
counter is not, and the frame is handed out. -/
theorem AcquireFrameFor_eq_failflush {b : BPM} {d : Disk} {fid opid : Nat}
    {r1 : ClockReplacer.Clock}
    (hfree : b.free_list = [])
    (hvic : ClockReplacer.Victim b.replacer = (some fid, r1))
    (hpid : (frameAt b.frames fid).page_id = some opid)
    (hdirty : (frameAt b.frames fid).dirty = true)
    (hfail : d.writeFails opid = true) :
    AcquireFrameFor b d =
      (some fid, some opid,
        { b with
          replacer := r1
          table := alErase b.table opid
          evictions := b.evictions + 1 },
        { d with pages := DiskManager.ensureCapacity d opid }) := by
  obtain ⟨frames, table, free_list, rep, nf, ps, hi, mi, ev, fl⟩ := b
  dsimp only at hfree hvic hpid hdirty ⊢
  subst hfree
  simp only [AcquireFrameFor]
  rw [hvic]
  dsimp only
  rw [hpid]
  dsimp only
  rw [FlushFrame_eq_fail hpid hdirty hfail]
  rfl

end BufferPoolManager

open BufferPoolManager in
/-- C3: with an empty free list, a chosen victim frame holding a dirty
page, and the disk write of that page failing, `FetchPage` on a missing
page still completes the eviction: it returns `ok`, the victim page's
page-table mapping is erased (not left intact), the frame is rebound to
the requested page, the flush counter is unchanged and the eviction
counter is incremented. -/
theorem C3_eviction_proceeds_on_failed_flush
    (b : BPM) (d : Disk) (pid fid opid : Nat) (r1 : ClockReplacer.Clock)
    (hfree : b.free_list = [])
    (hvic : ClockReplacer.Victim b.replacer = (some fid, r1))
    (hpid : (frameAt b.frames fid).page_id = some opid)
    (hdirty : (frameAt b.frames fid).dirty = true)
    (hfail : d.writeFails opid = true)
    (hlook : LookupFrame b pid = none)
    (hfid : fid < b.frames.length)
    (hlt : pid < d.pages.length)
    (hne : opid ≠ pid) :
    (FetchPage b d pid).1 = Status.ok ∧
    alLookup (FetchPage b d pid).2.1.table opid = none ∧
    (frameAt (FetchPage b d pid).2.1.frames fid).page_id = some pid ∧
    (FetchPage b d pid).2.1.flushes = b.flushes ∧
    (FetchPage b d pid).2.1.evictions = b.evictions + 1 := by
  have hacq := AcquireFrameFor_eq_failflush hfree hvic hpid hdirty hfail
  have hlen : pid < (DiskManager.ensureCapacity d opid).length := by
    simp only [DiskManager.ensureCapacity, List.length_append,
      List.length_replicate]
    omega
  simp only [FetchPage]
  rw [hlook]
  dsimp only
  rw [hacq]
  dsimp only
  simp only [DiskManager.ReadPage]
  dsimp only
  rw [dif_pos hlen]
  dsimp only
  refine ⟨rfl, ?_, ?_, rfl, rfl⟩
  · rw [alLookup_alSet_ne _ _ (Ne.symm hne), alLookup_alErase_self]
  · rw [frameAt_set_self hfid]

/-- A one-frame buffer pool holding page 0 dirty and unpinned (frame 0 is
the replacer's only candidate), with an empty free list. -/
def c3bpm : BPM :=
  { frames := [⟨some 0, 0, true, initNew 0 64⟩]
    table := [(0, 0)]
    free_list := []
    replacer := ⟨[true], [false], 0, 1⟩
    num_frames := 1
    page_size := 64
    hits := 0
    misses := 0
    evictions := 0
    flushes := 0 }

/-- A two-page disk on which every write to page 0 fails at the `pwrite`
level. -/
def c3disk : Disk :=
  ⟨64, [initNew 0 64, initNew 1 64], fun pid => pid == 0⟩

open BufferPoolManager in
/-- Counterexample to C3 as claimed: fetching page 1 evicts the dirty
page 0 whose disk write fails, yet the eviction is not aborted — the call
returns `ok`, page 0's page-table mapping is gone, frame 0 is rebound to
page 1, and the failed flush is simply not counted. -/
theorem C3_counterexample_failed_flush_still_evicts :
    (FetchPage c3bpm c3disk 1).1 = Status.ok ∧
    alLookup (FetchPage c3bpm c3disk 1).2.1.table 0 = none ∧
    (frameAt (FetchPage c3bpm c3disk 1).2.1.frames 0).page_id = some 1 ∧
    (FetchPage c3bpm c3disk 1).2.1.flushes = 0 ∧
    (FetchPage c3bpm c3disk 1).2.1.evictions = 1 :=
  ⟨by decide, by decide, by decide, by decide, by decide⟩

open BufferPoolManager in
/-- Witness for the amended C3 on the concrete one-frame pool. -/
theorem C3_eviction_proceeds_on_failed_flush_witness :
    (FetchPage c3bpm c3disk 1).1 = Status.ok ∧
    alLookup (FetchPage c3bpm c3disk 1).2.1.table 0 = none ∧
    (frameAt (FetchPage c3bpm c3disk 1).2.1.frames 0).page_id = some 1 ∧
    (FetchPage c3bpm c3disk 1).2.1.flushes = c3bpm.flushes ∧
    (FetchPage c3bpm c3disk 1).2.1.evictions = c3bpm.evictions + 1 :=
  C3_eviction_proceeds_on_failed_flush c3bpm c3disk 1 0 0 ⟨[false], [false], 0, 1⟩
    (by decide) (by decide) (by decide) (by decide) (by decide) (by decide)
    (by decide) (by decide) (by decide)

/-! ## Records: schema, tuple and tuple builder
(`src/Storage/src/record/schema.cc`, `src/Storage/src/record/tuple.cc`)

Row layout: `[ NullBitmap? ][ Fixed Area ][ Var Area ]`.  A tuple is its
byte vector (`data_`).  Scalar values (`int32_t`, `int64_t`, `float`,
`double`, date) are handled by `memcpy` of their in-memory representation,
so they are modelled as their byte lists (4 or 8 bytes); the `uint16_t`
varchar metadata is stored little-endian, matching the `memcpy` on the
target. -/

/-- `enum class Type`. -/
inductive Ty where
  | int32
  | int64
  | float
  | double
  | char
  | varchar
  | date
deriving Repr, DecidableEq

/-- `struct Column` (the name plays no role in the layout). -/
structure Column where
  type : Ty
  len : Nat
  nullable : Bool
deriving Repr, DecidableEq

/-- `Schema::FixedSizeOf(Type, len)`. -/
def fixedSizeOfTy (t : Ty) (len : Nat) : Nat :=
  match t with
  | Ty.int32 => 4
  | Ty.int64 => 8
  | Ty.float => 4
  | Ty.double => 8
  | Ty.date => 4
  | Ty.char => len
  | Ty.varchar => 4

/-- `class Schema`: the layout quantities are recomputed from the columns
(`BuildLayout` computes exactly these prefix sums). -/
structure Schema where
  columns : List Column
  use_null_bitmap : Bool

namespace Schema

def ColumnCount (s : Schema) : Nat := s.columns.length

/-- Total access to a column (all uses are bounds-checked). -/
def colAt (s : Schema) (i : Nat) : Column := s.columns.getD i ⟨Ty.int32, 0, false⟩

/-- `null_bytes_`: `(n + 7) / 8` when the bitmap is enabled. -/
def NullBitmapSize (s : Schema) : Nat :=
  if s.use_null_bitmap then (s.ColumnCount + 7) / 8 else 0

/-- The per-column fixed sizes, in declaration order. -/
def sizes (s : Schema) : List Nat :=
  s.columns.map (fun c => fixedSizeOfTy c.type c.len)

/-- `fixed_offsets_[i]`: bitmap bytes plus the sizes of the earlier
columns. -/
def FixedOffsetOf (s : Schema) (i : Nat) : Nat :=
  s.NullBitmapSize + (s.sizes.take i).sum

def FixedSizeOf (s : Schema) (i : Nat) : Nat :=
  fixedSizeOfTy (s.colAt i).type (s.colAt i).len

/-- `fixed_area_size_`. -/
def FixedAreaSize (s : Schema) : Nat := s.NullBitmapSize + s.sizes.sum

end Schema

/-- The two bytes of a `uint16_t`, little-endian (the layout produced by
`memcpy` on the target). -/
def leU16 (n : Nat) : List Nat := [n % 256, n / 256 % 256]

/-- Reassemble a `uint16_t` from its two bytes. -/
def deU16 (b0 b1 : Nat) : Nat := b0 % 256 + 256 * (b1 % 256)

/-- The trailing-zero-byte trim of `GetChar`. -/
def trimZeros (l : List Nat) : List Nat :=
  (l.reverse.dropWhile (fun b => b == 0)).reverse

namespace Tuple

/-- `Tuple::IsNull`. -/
def IsNull (s : Schema) (t : List Nat) (i : Nat) : Bool :=
  if s.use_null_bitmap = false then false
  else if s.NullBitmapSize = 0 || decide (t.length < s.NullBitmapSize) then false
  else Nat.testBit (t.getD (i / 8) 0) (i % 8)

/-- Reading `len` bytes of a tuple starting at `off` (in-bounds in every
use below). -/
def readBytesL (t : List Nat) (off len : Nat) : List Nat :=
  readBytes (fun j => t.getD j 0) off len

/-- `Tuple::GetInt32` (the out-value as its 4-byte representation). -/
def GetInt32 (s : Schema) (t : List Nat) (i : Nat) : Status × List Nat :=
  if IsNull s t i then (Status.notFound, [])
  else if (s.colAt i).type ≠ Ty.int32 then (Status.invalidArgument, [])
  else (Status.ok, readBytesL t (s.FixedOffsetOf i) 4)

/-- `Tuple::GetInt64`. -/
def GetInt64 (s : Schema) (t : List Nat) (i : Nat) : Status × List Nat :=
  if IsNull s t i then (Status.notFound, [])
  else if (s.colAt i).type ≠ Ty.int64 then (Status.invalidArgument, [])
  else (Status.ok, readBytesL t (s.FixedOffsetOf i) 8)

/-- `Tuple::GetFloat`. -/
def GetFloat (s : Schema) (t : List Nat) (i : Nat) : Status × List Nat :=
  if IsNull s t i then (Status.notFound, [])
  else if (s.colAt i).type ≠ Ty.float then (Status.invalidArgument, [])
  else (Status.ok, readBytesL t (s.FixedOffsetOf i) 4)

/-- `Tuple::GetDouble`. -/
def GetDouble (s : Schema) (t : List Nat) (i : Nat) : Status × List Nat :=
  if IsNull s t i then (Status.notFound, [])
  else if (s.colAt i).type ≠ Ty.double then (Status.invalidArgument, [])
  else (Status.ok, readBytesL t (s.FixedOffsetOf i) 8)

/-- `Tuple::GetDate`. -/
def GetDate (s : Schema) (t : List Nat) (i : Nat) : Status × List Nat :=
  if IsNull s t i then (Status.notFound, [])
  else if (s.colAt i).type ≠ Ty.date then (Status.invalidArgument, [])
  else (Status.ok, readBytesL t (s.FixedOffsetOf i) 4)

/-- `Tuple::GetChar`: read the `N` fixed bytes and trim trailing zeros. -/
def GetChar (s : Schema) (t : List Nat) (i : Nat) : Status × List Nat :=
  if IsNull s t i then (Status.notFound, [])
  else if (s.colAt i).type ≠ Ty.char then (Status.invalidArgument, [])
  else (Status.ok, trimZeros (readBytesL t (s.FixedOffsetOf i) (s.FixedSizeOf i)))

/-- `Tuple::GetVarChar`: decode the `(offset, len)` metadata, bounds-check
it against the tuple size, and return the payload. -/
def GetVarChar (s : Schema) (t : List Nat) (i : Nat) : Status × List Nat :=
  if IsNull s t i then (Status.notFound, [])
  else if (s.colAt i).type ≠ Ty.varchar then (Status.invalidArgument, [])
  else
    let p := s.FixedOffsetOf i
    let off := deU16 (t.getD p 0) (t.getD (p + 1) 0)
    let len := deU16 (t.getD (p + 2) 0) (t.getD (p + 3) 0)
    if t.length < off + len then (Status.corruption, [])
    else (Status.ok, (t.drop off).take len)

end Tuple

/-- `class TupleBuilder`: the fixed-area buffer `row_` (a byte store; only
`[0, FixedAreaSize)` is ever read), the variable area `var_`, and the
per-column set flags `set_`. -/
structure TupleBuilder where
  s : Schema
  row : Nat → Nat
  var_ : List Nat
  set_ : List Bool

namespace TupleBuilder

/-- The constructor: zeroed fixed area, no var bytes, no column set. -/
def init (s : Schema) : TupleBuilder :=
  ⟨s, fun _ => 0, [], List.replicate s.ColumnCount false⟩

/-- `TupleBuilder::SetNull`. -/
def SetNull (b : TupleBuilder) (i : Nat) : Status × TupleBuilder :=
  if b.s.ColumnCount ≤ i then (Status.outOfRange, b)
  else if (b.s.colAt i).nullable = false ∧ b.s.use_null_bitmap = true then
    (Status.invalidArgument, b)
  else if b.s.use_null_bitmap then
    (Status.ok,
      { b with
        row := fun j => if j = i / 8 then (b.row (i / 8)) ||| 2 ^ (i % 8) else b.row j
        set_ := b.set_.set i true })
  else (Status.invalidArgument, b)

/-- `TupleBuilder::SetInt32` (`v` is the 4-byte representation of the
value; `memcpy(row + off, &v, 4)`). -/
def SetInt32 (b : TupleBuilder) (i : Nat) (v : List Nat) : Status × TupleBuilder :=
  if b.s.ColumnCount ≤ i then (Status.outOfRange, b)
  else if (b.s.colAt i).type ≠ Ty.int32 then (Status.invalidArgument, b)
  else
    (Status.ok,
      { b with
        row := writeList b.row (b.s.FixedOffsetOf i) v
        set_ := b.set_.set i true })

/-- `TupleBuilder::SetInt64` (`v` is the 8-byte representation). -/
def SetInt64 (b : TupleBuilder) (i : Nat) (v : List Nat) : Status × TupleBuilder :=
  if b.s.ColumnCount ≤ i then (Status.outOfRange, b)
  else if (b.s.colAt i).type ≠ Ty.int64 then (Status.invalidArgument, b)
  else
    (Status.ok,
      { b with
        row := writeList b.row (b.s.FixedOffsetOf i) v
        set_ := b.set_.set i true })

/-- `TupleBuilder::SetFloat` (`v` is the 4-byte representation). -/
def SetFloat (b : TupleBuilder) (i : Nat) (v : List Nat) : Status × TupleBuilder :=
  if b.s.ColumnCount ≤ i then (Status.outOfRange, b)
  else if (b.s.colAt i).type ≠ Ty.float then (Status.invalidArgument, b)
  else
    (Status.ok,
      { b with
        row := writeList b.row (b.s.FixedOffsetOf i) v
        set_ := b.set_.set i true })

/-- `TupleBuilder::SetDouble` (`v` is the 8-byte representation). -/
def SetDouble (b : TupleBuilder) (i : Nat) (v : List Nat) : Status × TupleBuilder :=
  if b.s.ColumnCount ≤ i then (Status.outOfRange, b)
  else if (b.s.colAt i).type ≠ Ty.double then (Status.invalidArgument, b)
  else
    (Status.ok,
      { b with
        row := writeList b.row (b.s.FixedOffsetOf i) v
        set_ := b.set_.set i true })

/-- `TupleBuilder::SetDate` (`v` is the 4-byte representation of the day
count). -/
def SetDate (b : TupleBuilder) (i : Nat) (v : List Nat) : Status × TupleBuilder :=
  if b.s.ColumnCount ≤ i then (Status.outOfRange, b)
  else if (b.s.colAt i).type ≠ Ty.date then (Status.invalidArgument, b)
  else
    (Status.ok,
      { b with
        row := writeList b.row (b.s.FixedOffsetOf i) v
        set_ := b.set_.set i true })

/-- `TupleBuilder::SetChar`: copy into an `N`-byte zero buffer (truncating
to `N`), then write the buffer. -/
def SetChar (b : TupleBuilder) (i : Nat) (v : List Nat) : Status × TupleBuilder :=
  if b.s.ColumnCount ≤ i then (Status.outOfRange, b)
  else if (b.s.colAt i).type ≠ Ty.char then (Status.invalidArgument, b)
  else
    let N := b.s.FixedSizeOf i
    (Status.ok,
      { b with
        row := writeList b.row (b.s.FixedOffsetOf i)
          (v.take N ++ List.replicate (N - v.length) 0)
        set_ := b.set_.set i true })

/-- `TupleBuilder::SetVarChar`: reject payloads over the declared maximum,
write the `uint16_t` `(offset, len)` metadata (narrowing casts are
`% 65536`) and append the payload to the var area. -/
def SetVarChar (b : TupleBuilder) (i : Nat) (v : List Nat) : Status × TupleBuilder :=
  if b.s.ColumnCount ≤ i then (Status.outOfRange, b)
  else if (b.s.colAt i).type ≠ Ty.varchar then (Status.invalidArgument, b)
  else if (b.s.colAt i).len < v.length then (Status.outOfRange, b)
  else
    let off := (b.s.FixedAreaSize + b.var_.length) % 65536
    let len := v.length % 65536
    (Status.ok,
      { b with
        row := writeList b.row (b.s.FixedOffsetOf i) (leU16 off ++ leU16 len)
        var_ := b.var_ ++ v
        set_ := b.set_.set i true })

/-- `TupleBuilder::Build`: fail unless every column was set; otherwise the
tuple bytes are the fixed area followed by the var area. -/
def Build (b : TupleBuilder) : Status × List Nat :=
  if (List.range b.s.ColumnCount).all (fun i => b.set_.getD i false) then
    (Status.ok, readBytes b.row 0 b.s.FixedAreaSize ++ b.var_)
  else (Status.invalidArgument, [])

/-- Dispatch the setter matching the column's declared type (the usage
pattern of the round-trip property: each column is set with its own
setter). -/
def setCol (b : TupleBuilder) (i : Nat) (v : List Nat) : Status × TupleBuilder :=
  match (b.s.colAt i).type with
  | Ty.int32 => SetInt32 b i v
  | Ty.int64 => SetInt64 b i v
  | Ty.float => SetFloat b i v
  | Ty.double => SetDouble b i v
  | Ty.date => SetDate b i v
  | Ty.char => SetChar b i v
  | Ty.varchar => SetVarChar b i v

/-- Set columns `i, i+1, …` to the given values in declaration order,
stopping at the first error. -/
def setCols (b : TupleBuilder) (i : Nat) : List (List Nat) → Status × TupleBuilder
  | [] => (Status.ok, b)
  | v :: rest =>
    match setCol b i v with
    | (Status.ok, b1) => setCols b1 (i + 1) rest
    | (e, b1) => (e, b1)

end TupleBuilder

/-- Dispatch the getter matching the column's declared type. -/
def getCol (s : Schema) (t : List Nat) (i : Nat) : Status × List Nat :=
  match (s.colAt i).type with
  | Ty.int32 => Tuple.GetInt32 s t i
  | Ty.int64 => Tuple.GetInt64 s t i
  | Ty.float => Tuple.GetFloat s t i
  | Ty.double => Tuple.GetDouble s t i
  | Ty.date => Tuple.GetDate s t i
  | Ty.char => Tuple.GetChar s t i
  | Ty.varchar => Tuple.GetVarChar s t i

/-- The var-area contribution of one column value. -/
def varPart (c : Column) (v : List Nat) : List Nat :=
  match c.type with
  | Ty.varchar => v
  | _ => []

/-- The var-area bytes produced by setting columns `k, k+1, …` to the
given values in order. -/
def varBytes (s : Schema) : Nat → List (List Nat) → List Nat
  | _, [] => []
  | k, v :: rest => varPart (s.colAt k) v ++ varBytes s (k + 1) rest

/-- The bytes a setter writes into the column's fixed-area region, given
the var-area write position for a varchar. -/
def encFixed (c : Column) (v : List Nat) (voff : Nat) : List Nat :=
  match c.type with
  | Ty.varchar => leU16 (voff % 65536) ++ leU16 (v.length % 65536)
  | Ty.char => v.take c.len ++ List.replicate (c.len - v.length) 0
  | _ => v

/-- A value matches its column: scalars carry exactly their
representation width, varchar payloads respect the declared maximum
(char payloads are truncated by the setter, so any list is valid). -/
def validVal (c : Column) (v : List Nat) : Prop :=
  (c.type = Ty.int32 → v.length = 4) ∧
  (c.type = Ty.int64 → v.length = 8) ∧
  (c.type = Ty.float → v.length = 4) ∧
  (c.type = Ty.double → v.length = 8) ∧
  (c.type = Ty.date → v.length = 4) ∧
  (c.type = Ty.varchar → v.length ≤ c.len)

instance (c : Column) (v : List Nat) : Decidable (validVal c v) := by
  unfold validVal
  infer_instance

/-- What the per-column getter is expected to return: char values are
padded/truncated to `N` with trailing zeros trimmed on read; everything
else comes back exactly. -/
def expectedVal (c : Column) (v : List Nat) : List Nat :=
  match c.type with
  | Ty.char => trimZeros (v.take c.len)
  | _ => v

theorem getD_set_self {α : Type} (l : List α) (k : Nat) (v d : α)
    (h : k < l.length) : (l.set k v).getD k d = v := by
  rw [List.getD_eq_getElem _ _ (by simpa using h)]
  simp

theorem getD_set_ne {α : Type} (l : List α) (k j : Nat) (v d : α)
    (h : j ≠ k) : (l.set k v).getD j d = l.getD j d := by
  simp [List.getD_eq_getElem?_getD, List.getElem?_set_ne (Ne.symm h)]

theorem readBytes_getD (f : Nat → Nat) (off len q : Nat) (h : q < len) :
    (readBytes f off len).getD q 0 = f (off + q) := by
  rw [List.getD_eq_getElem _ _ (by simpa [readBytes_length] using h)]
  simp [readBytes]

theorem getD_readBytes_append (f : Nat → Nat) (len : Nat) (rest : List Nat)
    (p : Nat) (hp : p < len) :
    (readBytes f 0 len ++ rest).getD p 0 = f p := by
  have hp' : p < (readBytes f 0 len).length := by simpa [readBytes_length] using hp
  rw [List.getD_eq_getElem _ _ (by simp [List.length_append, readBytes_length]; omega)]
  rw [List.getElem_append_left hp']
  simp [readBytes]

theorem trimZeros_append_replicate (l : List Nat) (m : Nat) :
    trimZeros (l ++ List.replicate m 0) = trimZeros l := by
  simp only [trimZeros, List.reverse_append, List.reverse_replicate]
  congr 1
  induction m with
  | zero => simp
  | succ m ih =>
    rw [List.replicate_succ, List.cons_append, List.dropWhile_cons_of_pos (by simp)]
    exact ih

namespace Schema

theorem colAt_eq_getElem (s : Schema) {i : Nat} (h : i < s.ColumnCount) :
    s.colAt i = s.columns[i] := by
  simp [Schema.colAt, List.getD_eq_getElem?_getD, List.getElem?_eq_getElem h]

theorem FixedOffsetOf_succ (s : Schema) {k : Nat} (h : k < s.ColumnCount) :
    s.FixedOffsetOf (k + 1) = s.FixedOffsetOf k + s.FixedSizeOf k := by
  have hk : k < s.sizes.length := by simpa [Schema.sizes] using h
  have hsz : s.sizes[k] = s.FixedSizeOf k := by
    simp only [Schema.sizes, List.getElem_map, Schema.FixedSizeOf,
      colAt_eq_getElem s h]
  simp only [Schema.FixedOffsetOf]
  rw [sum_take_succ _ k hk, hsz]
  omega

theorem FixedOffsetOf_mono (s : Schema) {k k' : Nat} (h : k ≤ k') :
    s.FixedOffsetOf k ≤ s.FixedOffsetOf k' := by
  simp only [Schema.FixedOffsetOf]
  have := sum_take_mono s.sizes h
  omega

theorem FixedOffsetOf_add_size_le (s : Schema) {k : Nat} (h : k < s.ColumnCount) :
    s.FixedOffsetOf k + s.FixedSizeOf k ≤ s.FixedAreaSize := by
  rw [← FixedOffsetOf_succ s h]
  simp only [Schema.FixedOffsetOf, Schema.FixedAreaSize]
  have := sum_take_le s.sizes (k + 1)
  omega

theorem NullBitmapSize_le_FixedOffsetOf (s : Schema) (k : Nat) :
    s.NullBitmapSize ≤ s.FixedOffsetOf k := by
  simp only [Schema.FixedOffsetOf]
  omega

theorem FixedOffsetOf_zero (s : Schema) : s.FixedOffsetOf 0 = s.NullBitmapSize := by
  simp [Schema.FixedOffsetOf]

end Schema

theorem encFixed_length {c : Column} {v : List Nat} (voff : Nat)
    (hv : validVal c v) :
    (encFixed c v voff).length = fixedSizeOfTy c.type c.len := by
  obtain ⟨h1, h2, h3, h4, h5, h6⟩ := hv
  cases hc : c.type <;>
    simp_all [encFixed, fixedSizeOfTy, leU16] <;> omega

theorem varBytes_decomp (s : Schema) (vs : List (List Nat)) :
    ∀ (k j : Nat), j < vs.length →
    varBytes s k vs =
      varBytes s k (vs.take j) ++ varPart (s.colAt (k + j)) (vs.getD j []) ++
        varBytes s (k + j + 1) (vs.drop (j + 1)) := by
  induction vs with
  | nil => intro k j hj; simp at hj
  | cons v rest ih =>
    intro k j hj
    by_cases hj0 : j = 0
    · subst hj0
      simp [varBytes]
    · obtain ⟨j', rfl⟩ : ∃ t, j = t + 1 := ⟨j - 1, by omega⟩
      have hj' : j' < rest.length := by simpa using hj
      have e1 : k + (j' + 1) = k + 1 + j' := by omega
      rw [e1]
      simp only [List.take_succ_cons, List.drop_succ_cons, List.getD_cons_succ,
        varBytes]
      rw [ih (k + 1) j' hj']
      simp [List.append_assoc]

/-- A setter applied to the matching column type with a valid value
succeeds and performs exactly one fixed-area write (plus, for varchar, the
var-area append). -/
theorem setCol_ok (b : TupleBuilder) (k : Nat) (v : List Nat)
    (hk : k < b.s.ColumnCount) (hv : validVal (b.s.colAt k) v) :
    TupleBuilder.setCol b k v =
      (Status.ok,
        { b with
          row := writeList b.row (b.s.FixedOffsetOf k)
            (encFixed (b.s.colAt k) v (b.s.FixedAreaSize + b.var_.length))
          var_ := b.var_ ++ varPart (b.s.colAt k) v
          set_ := b.set_.set k true }) := by
  have hnk : ¬ b.s.ColumnCount ≤ k := Nat.not_le.mpr hk
  obtain ⟨h1, h2, h3, h4, h5, h6⟩ := hv
  cases hc : (b.s.colAt k).type
  · simp [TupleBuilder.setCol, TupleBuilder.SetInt32, encFixed, varPart, hc, hnk]
  · simp [TupleBuilder.setCol, TupleBuilder.SetInt64, encFixed, varPart, hc, hnk]
  · simp [TupleBuilder.setCol, TupleBuilder.SetFloat, encFixed, varPart, hc, hnk]
  · simp [TupleBuilder.setCol, TupleBuilder.SetDouble, encFixed, varPart, hc, hnk]
  · simp [TupleBuilder.setCol, TupleBuilder.SetChar, encFixed, varPart, hc, hnk,
      Schema.FixedSizeOf, fixedSizeOfTy]
  · simp [TupleBuilder.setCol, TupleBuilder.SetVarChar, encFixed, varPart, hc, hnk,
      Nat.not_lt.mpr (h6 hc)]
  · simp [TupleBuilder.setCol, TupleBuilder.SetDate, encFixed, varPart, hc, hnk]

/-- Master specification of the sequential build: setting columns
`k, …, k + vs.length - 1` with valid values succeeds, appends exactly the
var-area bytes of the varchar payloads, marks exactly those columns set,
writes nothing below `FixedOffsetOf k`, and leaves each processed column's
fixed-area region holding its encoded bytes. -/
theorem setCols_spec (s : Schema) (vs : List (List Nat)) :
    ∀ (k : Nat) (b : TupleBuilder),
    b.s = s →
    b.set_.length = s.ColumnCount →
    k + vs.length ≤ s.ColumnCount →
    (∀ j, j < vs.length → validVal (s.colAt (k + j)) (vs.getD j [])) →
    (TupleBuilder.setCols b k vs).1 = Status.ok ∧
    (TupleBuilder.setCols b k vs).2.s = s ∧
    (TupleBuilder.setCols b k vs).2.var_ = b.var_ ++ varBytes s k vs ∧
    (TupleBuilder.setCols b k vs).2.set_.length = s.ColumnCount ∧
    (∀ j, (TupleBuilder.setCols b k vs).2.set_.getD j false =
       (if k ≤ j ∧ j < k + vs.length then true else b.set_.getD j false)) ∧
    (∀ p, p < s.FixedOffsetOf k → (TupleBuilder.setCols b k vs).2.row p = b.row p) ∧
    (∀ j, j < vs.length →
      readBytes (TupleBuilder.setCols b k vs).2.row (s.FixedOffsetOf (k + j))
          (s.FixedSizeOf (k + j)) =
        encFixed (s.colAt (k + j)) (vs.getD j [])
          (s.FixedAreaSize + b.var_.length + (varBytes s k (vs.take j)).length)) := by
  induction vs with
  | nil =>
    intro k b hbs hlen hcount hvalid
    refine ⟨rfl, hbs, by simp [TupleBuilder.setCols, varBytes], by
      simpa [TupleBuilder.setCols] using hlen, ?_, fun p _ => rfl, fun j hj => by
        simp at hj⟩
    intro j
    simp only [TupleBuilder.setCols, List.length_nil]
    rw [if_neg (by omega)]
  | cons v rest ih =>
    intro k b hbs hlen hcount hvalid
    have hk : k < s.ColumnCount := by
      simp only [List.length_cons] at hcount
      omega
    have hk' : k < b.s.ColumnCount := by rw [hbs]; exact hk
    have hv0 : validVal (b.s.colAt k) v := by
      rw [hbs]
      simpa using hvalid 0 (by simp)
    have hco := setCol_ok b k v hk' hv0
    rw [hbs] at hco
    have hstep : TupleBuilder.setCols b k (v :: rest) =
        TupleBuilder.setCols
          (⟨s, writeList b.row (s.FixedOffsetOf k)
              (encFixed (s.colAt k) v (s.FixedAreaSize + b.var_.length)),
            b.var_ ++ varPart (s.colAt k) v,
            b.set_.set k true⟩ : TupleBuilder) (k + 1) rest := by
      simp only [TupleBuilder.setCols]
      rw [hco]
    have ihr := ih (k + 1)
      (⟨s, writeList b.row (s.FixedOffsetOf k)
          (encFixed (s.colAt k) v (s.FixedAreaSize + b.var_.length)),
        b.var_ ++ varPart (s.colAt k) v,
        b.set_.set k true⟩ : TupleBuilder)
      rfl (by simpa using hlen)
      (by simp only [List.length_cons] at hcount; omega)
      (by
        intro j hj
        have e1 : k + 1 + j = k + (j + 1) := by omega
        rw [e1]
        simpa using hvalid (j + 1) (by simp; omega))
    obtain ⟨ih1, ih2, ih3, ih4, ih5, ih6, ih7⟩ := ihr
    refine ⟨?_, ?_, ?_, ?_, ?_, ?_, ?_⟩
    · rw [hstep]; exact ih1
    · rw [hstep]; exact ih2
    · rw [hstep, ih3]
      simp [varBytes, List.append_assoc]
    · rw [hstep]; exact ih4
    · intro j
      rw [hstep, ih5 j]
      dsimp only
      by_cases hj1 : k + 1 ≤ j ∧ j < k + 1 + rest.length
      · rw [if_pos hj1, if_pos (by simp only [List.length_cons]; omega)]
      · rw [if_neg hj1]
        by_cases hjk : j = k
        · subst hjk
          rw [getD_set_self _ _ _ _ (by omega)]
          rw [if_pos (by simp only [List.length_cons]; omega)]
        · rw [getD_set_ne _ _ _ _ _ hjk]
          by_cases hj2 : k ≤ j ∧ j < k + (v :: rest).length
          · exfalso
            simp only [List.length_cons] at hj2
            exact hj1 ⟨by omega, by omega⟩
          · rw [if_neg hj2]
    · intro p hp
      rw [hstep, ih6 p (lt_of_lt_of_le hp (Schema.FixedOffsetOf_mono s (by omega)))]
      exact writeList_outside _ _ _ _ (Or.inl hp)
    · intro j hj
      by_cases hj0 : j = 0
      · subst hj0
        have hel : (encFixed (s.colAt k) v
            (s.FixedAreaSize + b.var_.length)).length = s.FixedSizeOf k := by
          have := encFixed_length (c := s.colAt k) (v := v)
            (s.FixedAreaSize + b.var_.length) (by rw [← hbs]; exact hv0)
          simpa [Schema.FixedSizeOf] using this
        have hsucc := Schema.FixedOffsetOf_succ s hk
        have hag : readBytes (TupleBuilder.setCols
            (⟨s, writeList b.row (s.FixedOffsetOf k)
                (encFixed (s.colAt k) v (s.FixedAreaSize + b.var_.length)),
              b.var_ ++ varPart (s.colAt k) v,
              b.set_.set k true⟩ : TupleBuilder) (k + 1) rest).2.row
              (s.FixedOffsetOf k) (s.FixedSizeOf k) =
            readBytes (writeList b.row (s.FixedOffsetOf k)
              (encFixed (s.colAt k) v (s.FixedAreaSize + b.var_.length)))
              (s.FixedOffsetOf k) (s.FixedSizeOf k) := by
          apply readBytes_congr
          intro i h1 h2
          exact ih6 i (by omega)
        rw [hstep]
        simp only [Nat.add_zero]
        rw [hag, ← hel, readBytes_writeList]
        simp [varBytes]
      · obtain ⟨j', rfl⟩ : ∃ t, j = t + 1 := ⟨j - 1, by omega⟩
        have hj' : j' < rest.length := by simpa using hj
        have e1 : k + (j' + 1) = k + 1 + j' := by omega
        rw [hstep, e1]
        rw [ih7 j' hj']
        have hvoff : s.FixedAreaSize + (b.var_ ++ varPart (s.colAt k) v).length +
            (varBytes s (k + 1) (rest.take j')).length =
            s.FixedAreaSize + b.var_.length +
              (varBytes s k ((v :: rest).take (j' + 1))).length := by
          simp only [List.take_succ_cons, varBytes, List.length_append]
          omega
        rw [hvoff]
        simp only [List.getD_cons_succ]

theorem drop_append_add {α : Type} (l1 l2 : List α) (a : Nat) :
    (l1 ++ l2).drop (l1.length + a) = l2.drop a := by
  induction l1 with
  | nil => simp
  | cons x xs ih =>
    rw [List.cons_append, List.length_cons,
      show xs.length + 1 + a = (xs.length + a) + 1 from by omega,
      List.drop_succ_cons]
    exact ih

open TupleBuilder in
/-- C9: for every schema and every schema-valid value assignment (scalar
values carry their exact representation width, varchar payloads respect
the declared maximum, and the row fits the `uint16_t` varchar offsets),
setting every column in declaration order succeeds, `Build` succeeds, and
each per-column getter returns the assigned value — char values
padded/truncated to `N` bytes with trailing zero bytes trimmed on read,
varchar values exactly. -/
theorem C9_tuplebuilder_roundtrip (s : Schema) (vals : List (List Nat))
    (hlen : vals.length = s.ColumnCount)
    (hvalid : ∀ j, j < vals.length → validVal (s.colAt j) (vals.getD j []))
    (hsize : s.FixedAreaSize + (varBytes s 0 vals).length ≤ 65535) :
    (setCols (init s) 0 vals).1 = Status.ok ∧
    (Build (setCols (init s) 0 vals).2).1 = Status.ok ∧
    (∀ i, i < vals.length →
      getCol s (Build (setCols (init s) 0 vals).2).2 i =
        (Status.ok, expectedVal (s.colAt i) (vals.getD i []))) := by
  obtain ⟨h1, h2, h3, h4, h5, h6, h7⟩ :=
    setCols_spec s vals 0 (init s) rfl (by simp [TupleBuilder.init])
      (by omega) (by intro j hj; simpa using hvalid j hj)
  have hall : (List.range s.ColumnCount).all
      (fun i => (setCols (init s) 0 vals).2.set_.getD i false) = true := by
    rw [List.all_eq_true]
    intro x hx
    rw [List.mem_range] at hx
    rw [h5 x, if_pos ⟨Nat.zero_le x, by omega⟩]
  have hbuild : Build (setCols (init s) 0 vals).2 =
      (Status.ok, readBytes (setCols (init s) 0 vals).2.row 0 s.FixedAreaSize ++
        varBytes s 0 vals) := by
    simp only [TupleBuilder.Build, h2]
    rw [if_pos hall, h3]
    simp [TupleBuilder.init]
  have hrow0 : ∀ p, p < s.NullBitmapSize → (setCols (init s) 0 vals).2.row p = 0 := by
    intro p hp
    have := h6 p (by rw [Schema.FixedOffsetOf_zero]; exact hp)
    simpa [TupleBuilder.init] using this
  refine ⟨h1, by rw [hbuild], ?_⟩
  intro i hi
  rw [hbuild]
  set t : List Nat := readBytes (setCols (init s) 0 vals).2.row 0 s.FixedAreaSize ++
    varBytes s 0 vals with ht
  have hi' : i < s.ColumnCount := by omega
  have hbound := Schema.FixedOffsetOf_add_size_le s hi'
  have hlenT : t.length = s.FixedAreaSize + (varBytes s 0 vals).length := by
    rw [ht]
    simp [List.length_append, readBytes_length]
  have hfix : Tuple.readBytesL t (s.FixedOffsetOf i) (s.FixedSizeOf i) =
      encFixed (s.colAt i) (vals.getD i [])
        (s.FixedAreaSize + (varBytes s 0 (vals.take i)).length) := by
    have hagree : Tuple.readBytesL t (s.FixedOffsetOf i) (s.FixedSizeOf i) =
        readBytes (setCols (init s) 0 vals).2.row (s.FixedOffsetOf i)
          (s.FixedSizeOf i) := by
      apply readBytes_congr
      intro q hq1 hq2
      rw [ht]
      exact getD_readBytes_append _ _ _ _ (by omega)
    rw [hagree]
    simpa [TupleBuilder.init] using h7 i hi
  have hnull : Tuple.IsNull s t i = false := by
    simp only [Tuple.IsNull]
    by_cases hug : s.use_null_bitmap = true
    · rw [if_neg (by simp [hug])]
      by_cases hz : (decide (s.NullBitmapSize = 0) ||
          decide (t.length < s.NullBitmapSize)) = true
      · rw [if_pos hz]
      · rw [if_neg hz]
        have hib : i / 8 < s.NullBitmapSize := by
          simp only [Schema.NullBitmapSize, if_pos hug]
          omega
        have hfas : s.NullBitmapSize ≤ s.FixedAreaSize := by
          simp only [Schema.FixedAreaSize]
          omega
        rw [ht, getD_readBytes_append _ _ _ _ (by omega),
          hrow0 (i / 8) hib]
        simp
    · rw [if_pos (by simpa using hug)]
  cases hc : (s.colAt i).type
  · -- int32
    simp only [getCol, hc, Tuple.GetInt32]
    rw [if_neg (by simp [hnull]), if_neg (by simp [hc])]
    have hfx := hfix
    rw [show s.FixedSizeOf i = 4 from by
      simp [Schema.FixedSizeOf, hc, fixedSizeOfTy]] at hfx
    rw [hfx]
    simp [encFixed, expectedVal, hc]
  · -- int64
    simp only [getCol, hc, Tuple.GetInt64]
    rw [if_neg (by simp [hnull]), if_neg (by simp [hc])]
    have hfx := hfix
    rw [show s.FixedSizeOf i = 8 from by
      simp [Schema.FixedSizeOf, hc, fixedSizeOfTy]] at hfx
    rw [hfx]
    simp [encFixed, expectedVal, hc]
  · -- float
    simp only [getCol, hc, Tuple.GetFloat]
    rw [if_neg (by simp [hnull]), if_neg (by simp [hc])]
    have hfx := hfix
    rw [show s.FixedSizeOf i = 4 from by
      simp [Schema.FixedSizeOf, hc, fixedSizeOfTy]] at hfx
    rw [hfx]
    simp [encFixed, expectedVal, hc]
  · -- double
    simp only [getCol, hc, Tuple.GetDouble]
    rw [if_neg (by simp [hnull]), if_neg (by simp [hc])]
    have hfx := hfix
    rw [show s.FixedSizeOf i = 8 from by
      simp [Schema.FixedSizeOf, hc, fixedSizeOfTy]] at hfx
    rw [hfx]
    simp [encFixed, expectedVal, hc]
  · -- char
    simp only [getCol, hc, Tuple.GetChar]
    rw [if_neg (by simp [hnull]), if_neg (by simp [hc])]
    rw [hfix]
    simp only [encFixed, expectedVal, hc]
    rw [trimZeros_append_replicate]
  · -- varchar
    have hdec : varBytes s 0 vals = varBytes s 0 (vals.take i) ++
        ((vals.getD i []) ++ varBytes s (0 + i + 1) (vals.drop (i + 1))) := by
      have := varBytes_decomp s vals 0 i hi
      rw [List.append_assoc] at this
      simpa [varPart, hc] using this
    have hpre : (varBytes s 0 (vals.take i)).length + (vals.getD i []).length ≤
        (varBytes s 0 vals).length := by
      rw [hdec]
      simp [List.length_append]
    have hvoff65 : s.FixedAreaSize + (varBytes s 0 (vals.take i)).length +
        (vals.getD i []).length ≤ 65535 := by omega
    have hfx := hfix
    rw [show s.FixedSizeOf i = 4 from by
      simp [Schema.FixedSizeOf, hc, fixedSizeOfTy]] at hfx
    simp only [encFixed, hc] at hfx
    have hm : ∀ q, q < 4 → t.getD (s.FixedOffsetOf i + q) 0 =
        (leU16 ((s.FixedAreaSize + (varBytes s 0 (vals.take i)).length) % 65536) ++
          leU16 ((vals.getD i []).length % 65536)).getD q 0 := by
      intro q hq
      have := congrArg (fun l => l.getD q 0) hfx
      simp only [Tuple.readBytesL] at this
      rw [readBytes_getD _ _ _ _ hq] at this
      exact this
    simp only [getCol, hc, Tuple.GetVarChar]
    rw [if_neg (by simp [hnull]), if_neg (by simp [hc])]
    have hm0 := hm 0 (by omega)
    have hm1 := hm 1 (by omega)
    have hm2 := hm 2 (by omega)
    have hm3 := hm 3 (by omega)
    simp only [leU16, List.cons_append, List.nil_append, List.getD_cons_zero,
      List.getD_cons_succ, Nat.add_zero] at hm0 hm1 hm2 hm3
    have hoff : deU16 (t.getD (s.FixedOffsetOf i) 0)
        (t.getD (s.FixedOffsetOf i + 1) 0) =
        s.FixedAreaSize + (varBytes s 0 (vals.take i)).length := by
      rw [hm0, hm1]
      unfold deU16
      omega
    have hlen16 : deU16 (t.getD (s.FixedOffsetOf i + 2) 0)
        (t.getD (s.FixedOffsetOf i + 3) 0) = (vals.getD i []).length := by
      rw [hm2, hm3]
      unfold deU16
      omega
    rw [hoff, hlen16]
    rw [if_neg (by omega)]
    have hdrop := drop_append_add
      (readBytes (setCols (init s) 0 vals).2.row 0 s.FixedAreaSize)
      (varBytes s 0 vals) ((varBytes s 0 (vals.take i)).length)
    rw [readBytes_length] at hdrop
    rw [← ht] at hdrop
    rw [hdrop, hdec]
    have hdrop2 := drop_append_add (varBytes s 0 (vals.take i))
      ((vals.getD i []) ++ varBytes s (0 + i + 1) (vals.drop (i + 1))) 0
    rw [Nat.add_zero, List.drop_zero] at hdrop2
    rw [hdrop2, List.take_left]
    simp [expectedVal, hc]
  · -- date
    simp only [getCol, hc, Tuple.GetDate]
    rw [if_neg (by simp [hnull]), if_neg (by simp [hc])]
    have hfx := hfix
    rw [show s.FixedSizeOf i = 4 from by
      simp [Schema.FixedSizeOf, hc, fixedSizeOfTy]] at hfx
    rw [hfx]
    simp [encFixed, expectedVal, hc]

/-- A three-column schema (INT32, CHAR(3), VARCHAR(5)) with a null
bitmap. -/
def c9schema : Schema :=
  ⟨[⟨Ty.int32, 0, false⟩, ⟨Ty.char, 3, false⟩, ⟨Ty.varchar, 5, false⟩], true⟩

/-- A value assignment for `c9schema`: an int32 pattern, a 2-byte char
payload (padded to 3), a 3-byte varchar payload. -/
def c9vals : List (List Nat) := [[1, 2, 3, 4], [7, 8], [9, 10, 11]]

open TupleBuilder in
/-- Witness for C9 on the concrete three-column schema. -/
theorem C9_tuplebuilder_roundtrip_witness :
    (setCols (init c9schema) 0 c9vals).1 = Status.ok ∧
    (Build (setCols (init c9schema) 0 c9vals).2).1 = Status.ok ∧
    (∀ i, i < c9vals.length →
      getCol c9schema (Build (setCols (init c9schema) 0 c9vals).2).2 i =
        (Status.ok, expectedVal (c9schema.colAt i) (c9vals.getD i []))) :=
  C9_tuplebuilder_roundtrip c9schema c9vals (by decide) (by decide) (by decide)

/-! ## Further slotted-page lemmas (for the table-heap composition) -/

namespace SlottedPage

theorem get_oor {p : SPage} {i : Nat} (h : ¬ i < p.slots.length) :
    get p i = (Status.notFound, []) := by
  rw [get, dif_neg h]

/-- `get` depends only on the page size, the addressed directory entry, the
directory length and the bytes. -/
theorem get_ext {p q : SPage} {j : Nat} (hps : q.pageSize = p.pageSize)
    (hlen : q.slots.length = p.slots.length)
    (hsl : slotAt q.slots j = slotAt p.slots j)
    (hby : ∀ i, q.bytes i = p.bytes i) :
    get q j = get p j := by
  by_cases hj : j < p.slots.length
  · have hj' : j < q.slots.length := by omega
    rw [get, dif_pos hj', get, dif_pos hj]
    simp only [List.get_eq_getElem]
    rw [show q.slots[j] = p.slots[j] from by
      rw [← slotAt_eq_getElem hj', ← slotAt_eq_getElem hj, hsl]]
    rw [hps]
    by_cases h0 : p.slots[j].len = 0
    · rw [if_pos h0, if_pos h0]
    · rw [if_neg h0, if_neg h0]
      by_cases hr : p.slots[j].off < headerSize ∨
          p.slots[j].off + p.slots[j].len > p.pageSize
      · rw [if_pos hr, if_pos hr]
      · rw [if_neg hr, if_neg hr]
        rw [readBytes_congr (fun i _ _ => hby i)]
  · rw [get_oor (by omega), get_oor hj]

/-- On a well-formed page, `Compact` preserves every `get` result. -/
theorem compact_get_all {p : SPage} (hwf : PageWF p) (i : Nat) :
    get (compact p) i = get p i := by
  have hlen := (compact_master hwf).2.1
  by_cases h1 : i < p.slots.length
  · by_cases h0 : p.slots[i].len = 0
    · have htomb := (compact_master hwf).2.2.2.2.2.1 i h1 h0
      have h1' : i < (compact p).slots.length := by omega
      have : (compact p).slots[i] = p.slots[i] := by
        rw [← slotAt_eq_getElem h1', htomb]
      rw [get_tomb h1' (by rw [this]; exact h0), get_tomb h1 h0]
    · exact compact_get hwf (by rw [get_live hwf h1 h0])
  · rw [get_oor (by omega), get_oor h1]

/-- `get` of any slot other than `j0` is unchanged by a page transformation
that only writes bytes at or above `freeOff` and only touches directory
entry `j0`. -/
theorem get_other_after_write {p1 q : SPage} (hwf1 : PageWF p1) {j : Nat}
    (hps : q.pageSize = p1.pageSize)
    (hb : ∀ i, i < p1.freeOff → q.bytes i = p1.bytes i)
    (hiff : j < q.slots.length ↔ j < p1.slots.length)
    (hsl : j < p1.slots.length → slotAt q.slots j = slotAt p1.slots j) :
    get q j = get p1 j := by
  by_cases hj : j < p1.slots.length
  · have hj' : j < q.slots.length := hiff.mpr hj
    have hss : q.slots[j] = p1.slots[j] := by
      rw [← slotAt_eq_getElem hj', ← slotAt_eq_getElem hj, hsl hj]
    rw [get, dif_pos hj', get, dif_pos hj]
    simp only [List.get_eq_getElem]
    rw [hss, hps]
    by_cases h0 : p1.slots[j].len = 0
    · rw [if_pos h0, if_pos h0]
    · rw [if_neg h0, if_neg h0]
      by_cases hr : p1.slots[j].off < headerSize ∨
          p1.slots[j].off + p1.slots[j].len > p1.pageSize
      · rw [if_pos hr, if_pos hr]
      · rw [if_neg hr, if_neg hr]
        have hbound := hwf1.slotsOk j hj h0
        rw [readBytes_congr (fun i h1 h2 => hb i (by omega))]
  · rw [get_oor (fun hc => hj (hiff.mp hc)), get_oor hj]

theorem slotAt_append_left {slots : List Slot} {j : Nat} (v : Slot)
    (h : j < slots.length) : slotAt (slots ++ [v]) j = slotAt slots j := by
  rw [slotAt_eq_getElem (by simp; omega), slotAt_eq_getElem h]
  exact List.getElem_append_left h

/-- Full description of a successful `Insert` on a well-formed page (the
pieces the heap-level accounting needs). -/
theorem insert_ok_spec {p : SPage} {rec : List Nat} (hwf : PageWF p)
    (h0 : ¬ rec.length = 0) (hok : (insert p rec).1 = Status.ok) :
    PageWF (insert p rec).2.1 ∧
    (insert p rec).2.1.pageSize = p.pageSize ∧
    get (insert p rec).2.1 (insert p rec).2.2 = (Status.ok, rec) ∧
    get p (insert p rec).2.2 = (Status.notFound, []) ∧
    (∀ j, j ≠ (insert p rec).2.2 → get (insert p rec).2.1 j = get p j) ∧
    (((insert p rec).2.2 < p.slots.length ∧
        (insert p rec).2.1.slots.length = p.slots.length) ∨
      ((insert p rec).2.2 = p.slots.length ∧
        (insert p rec).2.1.slots.length = p.slots.length + 1)) := by
  have hwfq : PageWF (insert p rec).2.1 := insert_wf hwf rec
  rcases hreuse : findTombstone p.slots with _ | i
  · -- fresh slot appended
    set p1 := if p.freeSize < rec.length + slotSize then compact p else p with hp1
    have hwf1 : PageWF p1 := by
      rw [hp1]; split
      · exact compact_wf hwf
      · exact hwf
    have hget1 : ∀ j, get p1 j = get p j := by
      intro j
      rw [hp1]; split
      · exact compact_get_all hwf j
      · rfl
    have hlen1 : p1.slots.length = p.slots.length := by
      rw [hp1]; split
      · exact (compact_master hwf).2.1
      · rfl
    have hps1 : p1.pageSize = p.pageSize := by
      rw [hp1]; split
      · exact (compact_master hwf).1
      · rfl
    by_cases hinsuf : p1.freeSize < rec.length + slotSize
    · exfalso
      rw [insert_eq_of_none h0 hreuse, ← hp1] at hok
      dsimp only at hok
      rw [if_pos hinsuf] at hok
      exact absurd hok (by simp)
    · have heq : insert p rec = (Status.ok,
          { p1 with
            bytes := writeList p1.bytes p1.freeOff rec
            freeOff := p1.freeOff + rec.length
            freeSize := p1.freeSize - rec.length - slotSize
            slots := p1.slots ++ [⟨p1.freeOff, rec.length⟩] },
          p1.slots.length) := by
        rw [insert_eq_of_none h0 hreuse, ← hp1]
        dsimp only
        rw [if_neg hinsuf]
      rw [heq] at hwfq ⊢
      dsimp only at hwfq ⊢
      have hofs : p1.freeOff + rec.length ≤ p1.pageSize := by
        have := hwf1.acct
        simp only [slotSize] at hinsuf this
        omega
      refine ⟨hwfq, hps1, ?_, ?_, ?_, Or.inr ⟨hlen1, by simp [hlen1]⟩⟩
      · rw [get_eq_ok (p := { p1 with
            bytes := writeList p1.bytes p1.freeOff rec
            freeOff := p1.freeOff + rec.length
            freeSize := p1.freeSize - rec.length - slotSize
            slots := p1.slots ++ [⟨p1.freeOff, rec.length⟩] })
          (i := p1.slots.length) (by simp) ?l1 ?l2 ?l3]
        case l1 =>
          simp only [List.getElem_concat_length]
          exact h0
        case l2 =>
          simp only [List.getElem_concat_length]
          exact hwf1.hdrLe
        case l3 =>
          simp only [List.getElem_concat_length]
          exact hofs
        simp only [List.getElem_concat_length]
        rw [readBytes_writeList]
      · rw [hlen1, get_oor (by omega)]
      · intro j hj
        rw [← hget1 j]
        apply get_other_after_write hwf1
        · rfl
        · intro i hi
          exact writeList_outside _ _ _ _ (Or.inl hi)
        · simp
          omega
        · intro hjlt
          exact slotAt_append_left _ hjlt
  · -- tombstone slot `i` reused
    obtain ⟨hilt, hi0, _⟩ := findTombstone_some hreuse
    set p1 := if p.freeSize < rec.length then compact p else p with hp1
    have hwf1 : PageWF p1 := by
      rw [hp1]; split
      · exact compact_wf hwf
      · exact hwf
    have hget1 : ∀ j, get p1 j = get p j := by
      intro j
      rw [hp1]; split
      · exact compact_get_all hwf j
      · rfl
    have hlen1 : p1.slots.length = p.slots.length := by
      rw [hp1]; split
      · exact (compact_master hwf).2.1
      · rfl
    have hps1 : p1.pageSize = p.pageSize := by
      rw [hp1]; split
      · exact (compact_master hwf).1
      · rfl
    by_cases hinsuf : p1.freeSize < rec.length
    · exfalso
      rw [insert_eq_of_some h0 hreuse, ← hp1] at hok
      dsimp only at hok
      rw [if_pos hinsuf] at hok
      exact absurd hok (by simp)
    · have heq : insert p rec = (Status.ok,
          { p1 with
            bytes := writeList p1.bytes p1.freeOff rec
            freeOff := p1.freeOff + rec.length
            freeSize := p1.freeSize - rec.length
            slots := p1.slots.set i ⟨p1.freeOff, rec.length⟩ }, i) := by
        rw [insert_eq_of_some h0 hreuse, ← hp1]
        dsimp only
        rw [if_neg hinsuf]
      rw [heq] at hwfq ⊢
      dsimp only at hwfq ⊢
      have hofs : p1.freeOff + rec.length ≤ p1.pageSize := by
        have := hwf1.acct
        omega
      have hilt1 : i < p1.slots.length := by omega
      have hilt2 : i < (p1.slots.set i ⟨p1.freeOff, rec.length⟩).length := by
        simp
        omega
      have hqi : (p1.slots.set i ⟨p1.freeOff, rec.length⟩)[i] =
          ⟨p1.freeOff, rec.length⟩ := by
        rw [← slotAt_eq_getElem hilt2, slotAt_set_self hilt1]
      refine ⟨hwfq, hps1, ?_, ?_, ?_, Or.inl ⟨hilt, by simp [hlen1]⟩⟩
      · rw [get_eq_ok (i := i) hilt2 (by rw [hqi]; exact h0)
          (by rw [hqi]; exact hwf1.hdrLe) (by rw [hqi]; exact hofs)]
        rw [hqi]
        rw [readBytes_writeList]
      · exact get_tomb hilt hi0
      · intro j hj
        rw [← hget1 j]
        apply get_other_after_write hwf1
        · rfl
        · intro q hq
          exact writeList_outside _ _ _ _ (Or.inl hq)
        · simp
        · intro hjlt
          exact slotAt_set_ne hj

/-- Full description of an `OutOfRange` `Update` on a well-formed page: the
slot is live and too small, the page after the call is the once-compacted
page (compacted exactly when the pre-call free size was insufficient),
whose free size is still below the record, and every `get` result is
unchanged. -/
theorem update_oor_spec {p : SPage} {slot : Nat} {rec : List Nat}
    (hwf : PageWF p) (h : (update p slot rec).1 = Status.outOfRange) :
    ∃ hh : slot < p.slots.length, p.slots[slot].len ≠ 0 ∧
      p.slots[slot].len < rec.length ∧
      PageWF (update p slot rec).2 ∧
      (update p slot rec).2.pageSize = p.pageSize ∧
      (update p slot rec).2.slots.length = p.slots.length ∧
      (update p slot rec).2.freeSize < rec.length ∧
      (∀ j, get (update p slot rec).2 j = get p j) := by
  by_cases h1 : slot < p.slots.length
  · by_cases h0 : p.slots[slot].len = 0
    · rw [update_eq_tomb h1 h0] at h
      exact absurd h (by simp)
    · by_cases hle : rec.length ≤ p.slots[slot].len
      · rw [update_eq_inplace h1 h0 hle] at h
        exact absurd h (by simp)
      · set p1 := if p.freeSize < rec.length then compact p else p with hp1
        have hwf1 : PageWF p1 := by
          rw [hp1]; split
          · exact compact_wf hwf
          · exact hwf
        have hget1 : ∀ j, get p1 j = get p j := by
          intro j
          rw [hp1]; split
          · exact compact_get_all hwf j
          · rfl
        have hlen1 : p1.slots.length = p.slots.length := by
          rw [hp1]; split
          · exact (compact_master hwf).2.1
          · rfl
        have hps1 : p1.pageSize = p.pageSize := by
          rw [hp1]; split
          · exact (compact_master hwf).1
          · rfl
        by_cases hfs : p1.freeSize < rec.length
        · have heq : update p slot rec = (Status.outOfRange, p1) := by
            rw [update_eq_grow h1 h0 hle, ← hp1]
            dsimp only
            rw [if_pos hfs]
          rw [heq]
          exact ⟨h1, h0, by omega, hwf1, hps1, hlen1, hfs, hget1⟩
        · exfalso
          rw [update_eq_grow h1 h0 hle, ← hp1] at h
          dsimp only at h
          rw [if_neg hfs] at h
          exact absurd h (by simp)
  · rw [update_eq_oor h1] at h
    exact absurd h (by simp)

/-- Full description of `Erase` of a live slot. -/
theorem erase_spec {p : SPage} {i : Nat} (h : i < p.slots.length)
    (h0 : p.slots[i].len ≠ 0) :
    (erase p i).1 = Status.ok ∧
    (erase p i).2.pageSize = p.pageSize ∧
    (erase p i).2.slots.length = p.slots.length ∧
    get (erase p i).2 i = (Status.notFound, []) ∧
    (∀ j, j ≠ i → get (erase p i).2 j = get p j) := by
  rw [erase_eq_live h h0]
  dsimp only
  have hi2 : i < (p.slots.set i ⟨p.slots[i].off, 0⟩).length := by
    simp
    omega
  refine ⟨rfl, rfl, by simp, ?_, ?_⟩
  · apply get_tomb hi2
    rw [← slotAt_eq_getElem hi2, slotAt_set_self h]
  · intro j hj
    exact get_ext rfl (by simp) (slotAt_set_ne hj) (fun q => rfl)

end SlottedPage

/-! ## Record counting over scans -/

/-- Number of occurrences of `x` in a list of records. -/
def countRec (x : List Nat) (l : List (List Nat)) : Nat :=
  l.countP (fun b => b = x)

theorem countRec_nil (x : List Nat) : countRec x [] = 0 := rfl

theorem countRec_append (x : List Nat) (l1 l2 : List (List Nat)) :
    countRec x (l1 ++ l2) = countRec x l1 + countRec x l2 :=
  List.countP_append _ _ _

theorem countRec_flatten (x : List Nat) (L : List (List (List Nat))) :
    countRec x L.flatten = (L.map (countRec x)).sum := by
  induction L with
  | nil => rfl
  | cons l rest ih =>
    rw [List.flatten_cons, countRec_append, List.map_cons, List.sum_cons, ih]

theorem countRec_filterMap (x : List Nat) (f : Nat → Option (List Nat))
    (l : List Nat) :
    countRec x (l.filterMap f) = l.countP (fun s => f s = some x) := by
  induction l with
  | nil => rfl
  | cons a rest ih =>
    rw [List.filterMap_cons]
    cases hf : f a
    · rw [List.countP_cons, ih]
      simp [hf]
    · rw [countRec, List.countP_cons, List.countP_cons, ← countRec, ih]
      simp [hf]

theorem countP_range_congr {n : Nat} {f g : Nat → Bool}
    (h : ∀ s, s < n → f s = g s) :
    (List.range n).countP f = (List.range n).countP g := by
  induction n with
  | zero => rfl
  | succ n ih =>
    rw [List.range_succ, List.countP_append, List.countP_append,
      ih (fun s hs => h s (by omega))]
    simp only [List.countP_cons, List.countP_nil, Nat.zero_add, h n (by omega)]

theorem countP_range_except {n i : Nat} {f g : Nat → Bool} (hi : i < n)
    (h : ∀ s, s < n → s ≠ i → f s = g s) :
    (List.range n).countP f + (if g i then 1 else 0) =
      (List.range n).countP g + (if f i then 1 else 0) := by
  induction n with
  | zero => omega
  | succ n ih =>
    rw [List.range_succ, List.countP_append, List.countP_append]
    simp only [List.countP_cons, List.countP_nil, Nat.zero_add]
    by_cases hin : i = n
    · subst hin
      rw [countP_range_congr (fun s hs => h s (by omega) (by omega))]
      cases hfi : f i <;> cases hgi : g i <;> simp [hfi, hgi] <;> omega
    · rw [h n (by omega) (fun hc => hin hc.symm)]
      have := ih (by omega) (fun s hs hne => h s (by omega) hne)
      omega

theorem sum_map_range_congr {n : Nat} {F G : Nat → Nat}
    (h : ∀ p, p < n → F p = G p) :
    ((List.range n).map F).sum = ((List.range n).map G).sum := by
  induction n with
  | zero => rfl
  | succ n ih =>
    rw [List.range_succ, List.map_append, List.map_append, List.sum_append,
      List.sum_append, ih (fun p hp => h p (by omega))]
    simp [h n (by omega)]

theorem sum_map_range_except {n i : Nat} {F G : Nat → Nat} (hi : i < n)
    (h : ∀ p, p < n → p ≠ i → F p = G p) :
    ((List.range n).map F).sum + G i = ((List.range n).map G).sum + F i := by
  induction n with
  | zero => omega
  | succ n ih =>
    rw [List.range_succ, List.map_append, List.map_append, List.sum_append,
      List.sum_append]
    simp only [List.map_cons, List.map_nil, List.sum_cons, List.sum_nil,
      Nat.add_zero]
    by_cases hin : i = n
    · subst hin
      rw [sum_map_range_congr (fun p hp => h p (by omega) (by omega))]
      omega
    · rw [h n (by omega) (fun hc => hin hc.symm)]
      have := ih (by omega) (fun p hp hne => h p (by omega) hne)
      omega

theorem getD_append_lt {α : Type} (l1 l2 : List α) (p : Nat) (d : α)
    (h : p < l1.length) : (l1 ++ l2).getD p d = l1.getD p d := by
  rw [List.getD_eq_getElem _ _ (by simp [List.length_append]; omega),
    List.getD_eq_getElem _ _ h]
  exact List.getElem_append_left h

theorem getD_append_len {α : Type} (l1 : List α) (a d : α) :
    (l1 ++ [a]).getD l1.length d = a := by
  rw [List.getD_eq_getElem _ _ (by simp)]
  simp

theorem mem_alSet {l : List (Nat × Nat)} {k v : Nat} {kv : Nat × Nat}
    (h : kv ∈ alSet l k v) : kv ∈ l ∨ kv.1 = k := by
  induction l with
  | nil =>
    simp [alSet] at h
    right
    rw [h]
  | cons kv1 rest ih =>
    obtain ⟨k1, v1⟩ := kv1
    simp only [alSet] at h
    by_cases hk : k1 = k
    · rw [if_pos hk] at h
      rcases List.mem_cons.mp h with h1 | h1
      · right; rw [h1]
      · left; exact List.mem_cons_of_mem _ h1
    · rw [if_neg hk] at h
      rcases List.mem_cons.mp h with h1 | h1
      · left; rw [h1]; exact List.mem_cons_self _ _
      · rcases ih h1 with h2 | h2
        · left; exact List.mem_cons_of_mem _ h2
        · right; exact h2

theorem alLookup_mem {l : List (Nat × Nat)} {k v : Nat}
    (h : alLookup l k = some v) : (k, v) ∈ l := by
  induction l with
  | nil => simp [alLookup] at h
  | cons kv1 rest ih =>
    obtain ⟨k1, v1⟩ := kv1
    simp only [alLookup] at h
    by_cases hk : k1 = k
    · rw [if_pos hk] at h
      have hv := Option.some.inj h
      rw [← hk, ← hv]
      exact List.mem_cons_self _ _
    · rw [if_neg hk] at h
      exact List.mem_cons_of_mem _ (ih h)

/-- In every branch, `FreeSpaceManager::Update` upserts `pid2free`. -/
theorem fsm_Update_pid2free (f : FreeSpaceManager.FSM) (pid fr : Nat) :
    (FreeSpaceManager.Update f pid fr).pid2free = alSet f.pid2free pid fr := by
  rw [FreeSpaceManager.Update]
  cases alLookup f.pid2bin pid
  · rfl
  · dsimp only
    split
    · rfl
    · rfl

/-! ## Table heap (`src/Storage/src/table/table_heap.cc`)

The composition is modelled in the configuration where the buffer pool
holds every page of the segment (enough frames, no I/O failures): in it
`FetchPage` succeeds exactly when the page id is within the file
(`ReadPage` fails `NotFound` past EOF), the handed-out frame content is
the page itself, and `UnpinPage` affects no content.  The buffer layer
itself is verified separately above.  The `uint16_t` narrowing of
`t.Size()` is written as a truncation of the record (`trunc16`). -/

namespace TableHeap

/-- The state a `TableHeap` operates on: the segment's pages, the
segment's free-page list (`SegmentManager::Segment::free_list`), and the
free-space manager. -/
structure Heap where
  pages : List SPage
  free_pages : List Nat
  fsm : FreeSpaceManager.FSM
  page_size : Nat

/-- The content of page `pid` (in-bounds in every theorem). -/
def pageAt (h : Heap) (pid : Nat) : SPage := h.pages.getD pid (zeroPage h.page_size)

/-- Write page `pid`. -/
def setPage (h : Heap) (pid : Nat) (p : SPage) : Heap :=
  { h with pages := h.pages.set pid p }

/-- `SegmentManager::AllocatePage`: reuse a freed page if any, else grow
the file by one (zero) page. -/
def AllocatePage (h : Heap) : Nat × Heap :=
  match h.free_pages with
  | pid :: rest => (pid, { h with free_pages := rest })
  | [] => (h.pages.length, { h with pages := h.pages ++ [zeroPage h.page_size] })

/-- `TableHeap::UpdateFsmForPage`: report the page's `free_size` header
field to the FSM. -/
def UpdateFsmForPage (h : Heap) (pid : Nat) : Heap :=
  { h with fsm := FreeSpaceManager.Update h.fsm pid (pageAt h pid).freeSize }

/-- The `uint16_t` narrowing of `t.Size()` as it reaches the page layer
(the identity whenever the tuple fits a page). -/
def trunc16 (t : List Nat) : List Nat := t.take (t.length % 65536)

/-- `TableHeap::Insert`.  Returns `(status, state after, rid)`; the rid is
meaningful on `ok`. -/
def Insert (h : Heap) (t : List Nat) : Status × Heap × (Nat × Nat) :=
  if t.length = 0 then (Status.invalidArgument, h, (0, 0))
  else
    let r1 : Status × Nat × Heap :=
      if FreeSpaceManager.Find h.fsm (t.length % 65536) = kInvalidPageId then
        let a := AllocatePage h
        if a.1 < a.2.pages.length then
          let h2 := setPage a.2 a.1 (SlottedPage.initNew a.1 a.2.page_size)
          (Status.ok, a.1,
            if a.1 < h2.pages.length then UpdateFsmForPage h2 a.1 else h2)
        else (Status.notFound, a.1, a.2)
      else (Status.ok, FreeSpaceManager.Find h.fsm (t.length % 65536), h)
    match r1 with
    | (Status.ok, pid, h1) =>
      if pid < h1.pages.length then
        let ins := SlottedPage.insert (pageAt h1 pid) (trunc16 t)
        match ins.1 with
        | Status.ok =>
          let h2 := setPage h1 pid ins.2.1
          (Status.ok, UpdateFsmForPage h2 pid, (pid, ins.2.2))
        | _ =>
          let h1b := setPage h1 pid ins.2.1
          let a := AllocatePage h1b
          if a.1 < a.2.pages.length then
            let p0 := SlottedPage.initNew a.1 a.2.page_size
            let ins2 := SlottedPage.insert p0 (trunc16 t)
            match ins2.1 with
            | Status.ok =>
              let h2 := setPage a.2 a.1 ins2.2.1
              (Status.ok, UpdateFsmForPage h2 a.1, (a.1, ins2.2.2))
            | e => (e, setPage a.2 a.1 ins2.2.1, (0, 0))
          else (Status.unavailable, a.2, (0, 0))
      else (Status.notFound, h1, (0, 0))
    | (e, _, h1) => (e, h1, (0, 0))

/-- `TableHeap::Update`. -/
def Update (h : Heap) (rid : Nat × Nat) (t : List Nat) : Status × Heap :=
  if rid.1 < h.pages.length then
    let up := SlottedPage.update (pageAt h rid.1) rid.2 (trunc16 t)
    match up.1 with
    | Status.ok =>
      (Status.ok, UpdateFsmForPage (setPage h rid.1 up.2) rid.1)
    | Status.outOfRange =>
      let h1 := setPage h rid.1 up.2
      let ins := Insert h1 t
      match ins.1 with
      | Status.ok =>
        if rid.1 < ins.2.1.pages.length then
          let er := SlottedPage.erase (pageAt ins.2.1 rid.1) rid.2
          (Status.ok, UpdateFsmForPage (setPage ins.2.1 rid.1 er.2) rid.1)
        else (Status.unavailable, ins.2.1)
      | e => (e, ins.2.1)
    | e => (e, h)
  else (Status.notFound, h)

/-- `TableHeap::Erase`. -/
def Erase (h : Heap) (rid : Nat × Nat) : Status × Heap :=
  if rid.1 < h.pages.length then
    let er := SlottedPage.erase (pageAt h rid.1) rid.2
    match er.1 with
    | Status.ok => (Status.ok, UpdateFsmForPage (setPage h rid.1 er.2) rid.1)
    | e => (e, h)
  else (Status.notFound, h)

/-- `TableHeap::Get`: fetch the page, read the slot. -/
def Get (h : Heap) (rid : Nat × Nat) : Status × List Nat :=
  if rid.1 < h.pages.length then SlottedPage.get (pageAt h rid.1) rid.2
  else (Status.notFound, [])

/-- The record the iterator yields from slot `s`, if `Get` succeeds. -/
def recProbe (p : SPage) (s : Nat) : Option (List Nat) :=
  match SlottedPage.get p s with
  | (Status.ok, b) => some b
  | _ => none

/-- The records a `TableIterator` yields from one page: slots
`0 … slot_count - 1` whose `Get` succeeds, in order. -/
def recsOf (p : SPage) : List (List Nat) :=
  (List.range p.slots.length).filterMap (recProbe p)

/-- A full scan: all pages in order, all readable slots in order. -/
def scanAll (h : Heap) : List (List Nat) :=
  ((List.range h.pages.length).map (fun pid => recsOf (pageAt h pid))).flatten

/-- Heap well-formedness: every page is well-formed with the configured
page size, the page size is representable and can hold at least one slot,
the FSM tracks only existing pages, and page ids stay below the
`kInvalidPageId` sentinel. -/
def HeapWF (h : Heap) : Prop :=
  (∀ pid, pid < h.pages.length →
    PageWF (pageAt h pid) ∧ (pageAt h pid).pageSize = h.page_size) ∧
  headerSize + slotSize ≤ h.page_size ∧
  h.page_size ≤ 65535 ∧
  (∀ kv ∈ h.fsm.pid2free, kv.1 < h.pages.length) ∧
  h.pages.length < kInvalidPageId

end TableHeap

namespace SlottedPage

/-- With a nonempty record, `Insert` returns `Ok` or `OutOfRange`. -/
theorem insert_status {p : SPage} {rec : List Nat} (h0 : ¬ rec.length = 0) :
    (insert p rec).1 = Status.ok ∨ (insert p rec).1 = Status.outOfRange := by
  rcases hf : findTombstone p.slots with _ | i
  · rw [insert_eq_of_none h0 hf]
    dsimp only
    split <;> first
      | (split <;> first
          | (right; rfl)
          | (left; rfl))
      | (right; rfl)
      | (left; rfl)
  · rw [insert_eq_of_some h0 hf]
    dsimp only
    split <;> first
      | (split <;> first
          | (right; rfl)
          | (left; rfl))
      | (right; rfl)
      | (left; rfl)

/-- A failed `Insert` leaves the page once-compacted at most: every `get`
result (and the directory length and page size) is unchanged. -/
theorem insert_oor_spec {p : SPage} {rec : List Nat} (hwf : PageWF p)
    (h0 : ¬ rec.length = 0) (hoor : (insert p rec).1 = Status.outOfRange) :
    PageWF (insert p rec).2.1 ∧
    (insert p rec).2.1.pageSize = p.pageSize ∧
    (insert p rec).2.1.slots.length = p.slots.length ∧
    (∀ j, get (insert p rec).2.1 j = get p j) := by
  rcases hf : findTombstone p.slots with _ | i
  · set p1 := if p.freeSize < rec.length + slotSize then compact p else p with hp1
    by_cases hins : p1.freeSize < rec.length + slotSize
    · have heq : insert p rec = (Status.outOfRange, p1, 0) := by
        rw [insert_eq_of_none h0 hf, ← hp1]
        dsimp only
        rw [if_pos hins]
      rw [heq]
      refine ⟨?_, ?_, ?_, ?_⟩ <;> rw [hp1] <;>
        first
        | (split
           · exact compact_wf hwf
           · exact hwf)
        | (split
           · exact (compact_master hwf).1
           · rfl)
        | (split
           · exact (compact_master hwf).2.1
           · rfl)
        | (intro j
           split
           · exact compact_get_all hwf j
           · rfl)
    · exfalso
      rw [insert_eq_of_none h0 hf, ← hp1] at hoor
      dsimp only at hoor
      rw [if_neg hins] at hoor
      exact absurd hoor (by simp)
  · set p1 := if p.freeSize < rec.length then compact p else p with hp1
    by_cases hins : p1.freeSize < rec.length
    · have heq : insert p rec = (Status.outOfRange, p1, 0) := by
        rw [insert_eq_of_some h0 hf, ← hp1]
        dsimp only
        rw [if_pos hins]
      rw [heq]
      refine ⟨?_, ?_, ?_, ?_⟩ <;> rw [hp1] <;>
        first
        | (split
           · exact compact_wf hwf
           · exact hwf)
        | (split
           · exact (compact_master hwf).1
           · rfl)
        | (split
           · exact (compact_master hwf).2.1
           · rfl)
        | (intro j
           split
           · exact compact_get_all hwf j
           · rfl)
    · exfalso
      rw [insert_eq_of_some h0 hf, ← hp1] at hoor
      dsimp only at hoor
      rw [if_neg hins] at hoor
      exact absurd hoor (by simp)

/-- Inserting a record that fits an empty page into a fresh page
succeeds. -/
theorem insert_into_fresh {pid ps : Nat} {t : List Nat}
    (ht0 : ¬ t.length = 0) (hfit : t.length + slotSize ≤ ps - headerSize) :
    (insert (initNew pid ps) t).1 = Status.ok := by
  have hnf : findTombstone (initNew pid ps).slots = none := rfl
  have hfs : ¬ (initNew pid ps).freeSize < t.length + slotSize := by
    simp only [initNew]
    omega
  rw [insert_eq_of_none ht0 hnf]
  dsimp only
  rw [if_neg hfs, if_neg hfs]

end SlottedPage

namespace TableHeap

theorem recsOf_congr {p q : SPage} (hlen : q.slots.length = p.slots.length)
    (hget : ∀ s, SlottedPage.get q s = SlottedPage.get p s) :
    recsOf q = recsOf p := by
  have hpr : recProbe q = recProbe p := funext fun s => by
    unfold recProbe
    rw [hget s]
  unfold recsOf
  rw [hlen, hpr]

/-- A successful `Insert` adds exactly one scanned copy of the record to
the page. -/
theorem insert_countRec {p : SPage} {rec : List Nat} (hwf : PageWF p)
    (h0 : ¬ rec.length = 0) (hok : (SlottedPage.insert p rec).1 = Status.ok) :
    countRec rec (recsOf (SlottedPage.insert p rec).2.1) =
      countRec rec (recsOf p) + 1 := by
  obtain ⟨_, _, hnew, hold, hoth, hcase⟩ := SlottedPage.insert_ok_spec hwf h0 hok
  have hprq : recProbe (SlottedPage.insert p rec).2.1
      (SlottedPage.insert p rec).2.2 = some rec := by
    unfold recProbe
    rw [hnew]
  have hprp : recProbe p (SlottedPage.insert p rec).2.2 = none := by
    unfold recProbe
    rw [hold]
  have hproth : ∀ s, s ≠ (SlottedPage.insert p rec).2.2 →
      recProbe (SlottedPage.insert p rec).2.1 s = recProbe p s := by
    intro s hs
    unfold recProbe
    rw [hoth s hs]
  unfold recsOf
  rw [countRec_filterMap, countRec_filterMap]
  rcases hcase with ⟨hlt, hlen⟩ | ⟨hout, hlen⟩
  · rw [hlen]
    have hex := countP_range_except (n := p.slots.length)
      (i := (SlottedPage.insert p rec).2.2)
      (f := fun s => decide (recProbe (SlottedPage.insert p rec).2.1 s = some rec))
      (g := fun s => decide (recProbe p s = some rec)) hlt
      (fun s _ hs => by dsimp only; rw [hproth s hs])
    dsimp only at hex
    rw [hprp, hprq] at hex
    simp at hex
    omega
  · rw [hlen, List.range_succ, List.countP_append,
      countP_range_congr (f := fun s =>
        decide (recProbe (SlottedPage.insert p rec).2.1 s = some rec))
        (g := fun s => decide (recProbe p s = some rec))
        (fun s hs => by dsimp only; rw [hproth s (by omega)])]
    rw [← hout]
    simp [hprq]

/-- `Erase` of a live slot whose record differs from `x` does not change
the scanned count of `x`. -/
theorem erase_countRec {p : SPage} {i : Nat} {x : List Nat}
    (h : i < p.slots.length) (h0 : p.slots[i].len ≠ 0)
    (hx : recProbe p i ≠ some x) :
    countRec x (recsOf (SlottedPage.erase p i).2) = countRec x (recsOf p) := by
  obtain ⟨_, _, hlen, hself, hoth⟩ := SlottedPage.erase_spec h h0
  unfold recsOf
  rw [countRec_filterMap, countRec_filterMap, hlen]
  apply countP_range_congr
  intro s hs
  by_cases hsi : s = i
  · subst hsi
    have hq : recProbe (SlottedPage.erase p s).2 s = none := by
      unfold recProbe
      rw [hself]
    rw [hq]
    exact decide_eq_decide.mpr (iff_of_false (by simp) hx)
  · have hq : recProbe (SlottedPage.erase p i).2 s = recProbe p s := by
      unfold recProbe
      rw [hoth s hsi]
    rw [hq]

theorem pageAt_setPage_self {h : Heap} {pid : Nat} (hlt : pid < h.pages.length)
    (p : SPage) : pageAt (setPage h pid p) pid = p := by
  unfold pageAt setPage
  dsimp only
  rw [List.getD_eq_getElem _ _ (by simpa using hlt)]
  simp

theorem pageAt_setPage_ne {h : Heap} {pid pid' : Nat} (hne : pid' ≠ pid)
    (p : SPage) : pageAt (setPage h pid p) pid' = pageAt h pid' := by
  unfold pageAt setPage
  dsimp only
  exact getD_set_ne _ _ _ _ _ hne

theorem pageAt_updateFsm (h : Heap) (pid pid' : Nat) :
    pageAt (UpdateFsmForPage h pid) pid' = pageAt h pid' := rfl

theorem setPage_pages (h : Heap) (pid : Nat) (p : SPage) :
    (setPage h pid p).pages = h.pages.set pid p := rfl

theorem setPage_freep (h : Heap) (pid : Nat) (p : SPage) :
    (setPage h pid p).free_pages = h.free_pages := rfl

theorem setPage_fsm (h : Heap) (pid : Nat) (p : SPage) :
    (setPage h pid p).fsm = h.fsm := rfl

theorem setPage_psize (h : Heap) (pid : Nat) (p : SPage) :
    (setPage h pid p).page_size = h.page_size := rfl

theorem setPage_length (h : Heap) (pid : Nat) (p : SPage) :
    (setPage h pid p).pages.length = h.pages.length := by
  simp [setPage]

/-- The scanned count of `x` is the sum of the per-page counts. -/
theorem scan_count (h : Heap) (x : List Nat) :
    countRec x (scanAll h) =
      ((List.range h.pages.length).map
        (fun pid => countRec x (recsOf (pageAt h pid)))).sum := by
  unfold scanAll
  rw [countRec_flatten, List.map_map]
  rfl

/-- Master specification of `TableHeap::Insert` in a well-formed heap with
an empty segment free list, for a nonempty tuple that fits an empty page:
the call succeeds, may append at most one page, the new rid reads back the
tuple (and was unreadable before), every other rid is unchanged, and the
scan count of the tuple grows by exactly one. -/
theorem Insert_spec (h1 : Heap) (t : List Nat)
    (hwf : HeapWF h1)
    (hfree : h1.free_pages = [])
    (ht0 : ¬ t.length = 0)
    (hfit : t.length + slotSize ≤ h1.page_size - headerSize) :
    (Insert h1 t).1 = Status.ok ∧
    (Insert h1 t).2.1.page_size = h1.page_size ∧
    h1.pages.length ≤ (Insert h1 t).2.1.pages.length ∧
    (Insert h1 t).2.2.1 < (Insert h1 t).2.1.pages.length ∧
    (∀ pid, pid < (Insert h1 t).2.1.pages.length →
      PageWF (pageAt (Insert h1 t).2.1 pid) ∧
      (pageAt (Insert h1 t).2.1 pid).pageSize = h1.page_size) ∧
    SlottedPage.get (pageAt (Insert h1 t).2.1 (Insert h1 t).2.2.1)
      (Insert h1 t).2.2.2 = (Status.ok, t) ∧
    Get h1 (Insert h1 t).2.2 = (Status.notFound, []) ∧
    (∀ pid s, pid < h1.pages.length →
      ¬ (pid = (Insert h1 t).2.2.1 ∧ s = (Insert h1 t).2.2.2) →
      SlottedPage.get (pageAt (Insert h1 t).2.1 pid) s =
        SlottedPage.get (pageAt h1 pid) s) ∧
    countRec t (scanAll (Insert h1 t).2.1) = countRec t (scanAll h1) + 1 := by
  have h32 : headerSize ≤ h1.page_size := by
    have := hwf.2.1
    simp only [headerSize, slotSize] at this ⊢
    omega
  have h16 : h1.page_size ≤ 65535 := hwf.2.2.1
  have ht16 : t.length < 65536 := by
    have := hwf.2.1
    simp only [headerSize, slotSize] at this hfit
    omega
  have htr : trunc16 t = t := by
    unfold trunc16
    rw [Nat.mod_eq_of_lt ht16, List.take_length]
  have hinitwf : PageWF (SlottedPage.initNew h1.pages.length h1.page_size) :=
    SlottedPage.initNew_wf h32 h16
  by_cases hfind : FreeSpaceManager.Find h1.fsm (t.length % 65536) = kInvalidPageId
  · -- no candidate page: allocate a fresh page at the end of the file
    have hfok : (SlottedPage.insert
        (SlottedPage.initNew h1.pages.length h1.page_size) t).1 = Status.ok :=
      SlottedPage.insert_into_fresh ht0 hfit
    have ispec := SlottedPage.insert_ok_spec hinitwf ht0 hfok
    have hget3 : pageAt (UpdateFsmForPage (setPage
        (⟨h1.pages ++ [zeroPage h1.page_size], [], h1.fsm, h1.page_size⟩ : Heap)
        h1.pages.length (SlottedPage.initNew h1.pages.length h1.page_size))
        h1.pages.length) h1.pages.length =
        SlottedPage.initNew h1.pages.length h1.page_size := by
      rw [pageAt_updateFsm]
      exact pageAt_setPage_self (by simp) _
    have hIeq : Insert h1 t = (Status.ok,
        UpdateFsmForPage (setPage
          (UpdateFsmForPage (setPage
            (⟨h1.pages ++ [zeroPage h1.page_size], [], h1.fsm, h1.page_size⟩ : Heap)
            h1.pages.length (SlottedPage.initNew h1.pages.length h1.page_size))
            h1.pages.length)
          h1.pages.length
          (SlottedPage.insert
            (SlottedPage.initNew h1.pages.length h1.page_size) t).2.1)
          h1.pages.length,
        (h1.pages.length,
          (SlottedPage.insert
            (SlottedPage.initNew h1.pages.length h1.page_size) t).2.2)) := by
      simp only [Insert]
      rw [if_neg ht0, if_pos hfind]
      simp only [AllocatePage]
      rw [hfree]
      dsimp only
      rw [if_pos (by simp)]
      rw [if_pos (by simp [setPage])]
      dsimp only
      rw [if_pos (by simp [UpdateFsmForPage, setPage])]
      rw [htr, hget3, hfok]
    rw [hIeq]
    dsimp only
    have hlenF : (UpdateFsmForPage (setPage
        (UpdateFsmForPage (setPage
          (⟨h1.pages ++ [zeroPage h1.page_size], [], h1.fsm, h1.page_size⟩ : Heap)
          h1.pages.length (SlottedPage.initNew h1.pages.length h1.page_size))
          h1.pages.length)
        h1.pages.length
        (SlottedPage.insert
          (SlottedPage.initNew h1.pages.length h1.page_size) t).2.1)
        h1.pages.length).pages.length = h1.pages.length + 1 := by
      simp [UpdateFsmForPage, setPage]
    have hpageF : ∀ pid, pid < h1.pages.length →
        pageAt (UpdateFsmForPage (setPage
          (UpdateFsmForPage (setPage
            (⟨h1.pages ++ [zeroPage h1.page_size], [], h1.fsm, h1.page_size⟩ : Heap)
            h1.pages.length (SlottedPage.initNew h1.pages.length h1.page_size))
            h1.pages.length)
          h1.pages.length
          (SlottedPage.insert
            (SlottedPage.initNew h1.pages.length h1.page_size) t).2.1)
          h1.pages.length) pid = pageAt h1 pid := by
      intro pid hpid
      rw [pageAt_updateFsm, pageAt_setPage_ne (by omega), pageAt_updateFsm,
        pageAt_setPage_ne (by omega)]
      unfold pageAt
      dsimp only
      exact getD_append_lt _ _ _ _ hpid
    have hpageN : pageAt (UpdateFsmForPage (setPage
        (UpdateFsmForPage (setPage
          (⟨h1.pages ++ [zeroPage h1.page_size], [], h1.fsm, h1.page_size⟩ : Heap)
          h1.pages.length (SlottedPage.initNew h1.pages.length h1.page_size))
          h1.pages.length)
        h1.pages.length
        (SlottedPage.insert
          (SlottedPage.initNew h1.pages.length h1.page_size) t).2.1)
        h1.pages.length) h1.pages.length =
        (SlottedPage.insert
          (SlottedPage.initNew h1.pages.length h1.page_size) t).2.1 := by
      rw [pageAt_updateFsm]
      exact pageAt_setPage_self (by simp [UpdateFsmForPage, setPage]) _
    refine ⟨rfl, rfl, by rw [hlenF]; omega, by rw [hlenF]; omega, ?_, ?_, ?_, ?_, ?_⟩
    · intro pid hpid
      rw [hlenF] at hpid
      by_cases hpn : pid = h1.pages.length
      · subst hpn
        rw [hpageN]
        exact ⟨ispec.1, ispec.2.1⟩
      · rw [hpageF pid (by omega)]
        exact hwf.1 pid (by omega)
    · rw [hpageN]
      exact ispec.2.2.1
    · rw [Get, if_neg (by omega)]
    · intro pid s hpid _
      rw [hpageF pid hpid]
    · rw [scan_count, scan_count, hlenF, List.range_succ, List.map_append,
        List.sum_append]
      rw [sum_map_range_congr (fun pid hpid => by rw [hpageF pid hpid])]
      simp only [List.map_cons, List.map_nil, List.sum_cons, List.sum_nil]
      rw [hpageN, insert_countRec hinitwf ht0 hfok]
      have : countRec t (recsOf
          (SlottedPage.initNew h1.pages.length h1.page_size)) = 0 := rfl
      rw [this]
      omega
  · -- the FSM proposed a candidate page
    have hpid0lt : FreeSpaceManager.Find h1.fsm (t.length % 65536) <
        h1.pages.length := by
      rcases hfl : FreeSpaceManager.findLoop h1.fsm.pid2free (t.length % 65536)
          (h1.fsm.bins.drop (FreeSpaceManager.binIndex h1.fsm.thresholds
            (t.length % 65536))) with _ | pid
      · exfalso
        apply hfind
        simp only [FreeSpaceManager.Find]
        rw [hfl]
      · have heq : FreeSpaceManager.Find h1.fsm (t.length % 65536) = pid := by
          simp only [FreeSpaceManager.Find]
          rw [hfl]
        obtain ⟨fr, hlk, _⟩ := FreeSpaceManager.findLoop_sound hfl
        have := hwf.2.2.2.1 (pid, fr) (alLookup_mem hlk)
        rw [heq]
        exact this
    have hP0 := hwf.1 _ hpid0lt
    rcases @SlottedPage.insert_status (pageAt h1
        (FreeSpaceManager.Find h1.fsm (t.length % 65536))) t ht0 with
      hsok | hsoor
    · -- the candidate page takes the tuple
      have ispec := SlottedPage.insert_ok_spec hP0.1 ht0 hsok
      have hIeq : Insert h1 t = (Status.ok,
          UpdateFsmForPage (setPage h1
            (FreeSpaceManager.Find h1.fsm (t.length % 65536))
            (SlottedPage.insert (pageAt h1
              (FreeSpaceManager.Find h1.fsm (t.length % 65536))) t).2.1)
            (FreeSpaceManager.Find h1.fsm (t.length % 65536)),
          (FreeSpaceManager.Find h1.fsm (t.length % 65536),
            (SlottedPage.insert (pageAt h1
              (FreeSpaceManager.Find h1.fsm (t.length % 65536))) t).2.2)) := by
        simp only [Insert]
        rw [if_neg ht0, if_neg hfind]
        dsimp only
        rw [if_pos hpid0lt, htr, hsok]
      rw [hIeq]
      dsimp only
      have hlenF : (UpdateFsmForPage (setPage h1
          (FreeSpaceManager.Find h1.fsm (t.length % 65536))
          (SlottedPage.insert (pageAt h1
            (FreeSpaceManager.Find h1.fsm (t.length % 65536))) t).2.1)
          (FreeSpaceManager.Find h1.fsm (t.length % 65536))).pages.length =
          h1.pages.length := by
        simp [UpdateFsmForPage, setPage]
      have hpageP : pageAt (UpdateFsmForPage (setPage h1
          (FreeSpaceManager.Find h1.fsm (t.length % 65536))
          (SlottedPage.insert (pageAt h1
            (FreeSpaceManager.Find h1.fsm (t.length % 65536))) t).2.1)
          (FreeSpaceManager.Find h1.fsm (t.length % 65536)))
          (FreeSpaceManager.Find h1.fsm (t.length % 65536)) =
          (SlottedPage.insert (pageAt h1
            (FreeSpaceManager.Find h1.fsm (t.length % 65536))) t).2.1 := by
        rw [pageAt_updateFsm]
        exact pageAt_setPage_self hpid0lt _
      have hpageO : ∀ pid, pid ≠ FreeSpaceManager.Find h1.fsm (t.length % 65536) →
          pageAt (UpdateFsmForPage (setPage h1
            (FreeSpaceManager.Find h1.fsm (t.length % 65536))
            (SlottedPage.insert (pageAt h1
              (FreeSpaceManager.Find h1.fsm (t.length % 65536))) t).2.1)
            (FreeSpaceManager.Find h1.fsm (t.length % 65536))) pid =
            pageAt h1 pid := by
        intro pid hne
        rw [pageAt_updateFsm]
        exact pageAt_setPage_ne hne _
      refine ⟨rfl, rfl, by rw [hlenF], by rw [hlenF]; exact hpid0lt,
        ?_, ?_, ?_, ?_, ?_⟩
      · intro pid hpid
        rw [hlenF] at hpid
        by_cases hpn : pid = FreeSpaceManager.Find h1.fsm (t.length % 65536)
        · subst hpn
          rw [hpageP]
          refine ⟨ispec.1, ?_⟩
          rw [ispec.2.1]
          exact hP0.2
        · rw [hpageO pid hpn]
          exact hwf.1 pid hpid
      · rw [hpageP]
        exact ispec.2.2.1
      · rw [Get, if_pos hpid0lt]
        exact ispec.2.2.2.1
      · intro pid s hpid hns
        by_cases hpn : pid = FreeSpaceManager.Find h1.fsm (t.length % 65536)
        · subst hpn
          rw [hpageP]
          exact ispec.2.2.2.2.1 s (fun hc => hns ⟨rfl, hc⟩)
        · rw [hpageO pid hpn]
      · rw [scan_count, scan_count, hlenF]
        have hex := sum_map_range_except (n := h1.pages.length)
          (i := FreeSpaceManager.Find h1.fsm (t.length % 65536))
          (F := fun pid => countRec t (recsOf (pageAt (UpdateFsmForPage
            (setPage h1 (FreeSpaceManager.Find h1.fsm (t.length % 65536))
              (SlottedPage.insert (pageAt h1
                (FreeSpaceManager.Find h1.fsm (t.length % 65536))) t).2.1)
            (FreeSpaceManager.Find h1.fsm (t.length % 65536))) pid)))
          (G := fun pid => countRec t (recsOf (pageAt h1 pid)))
          hpid0lt
          (fun pid _ hne => by dsimp only; rw [hpageO pid hne])
        dsimp only at hex
        rw [hpageP, insert_countRec hP0.1 ht0 hsok] at hex
        omega
    · -- the candidate page is full: allocate a fresh page
      have ospec := SlottedPage.insert_oor_spec hP0.1 ht0 hsoor
      have hfok : (SlottedPage.insert
          (SlottedPage.initNew h1.pages.length h1.page_size) t).1 = Status.ok :=
        SlottedPage.insert_into_fresh ht0 hfit
      have ispec := SlottedPage.insert_ok_spec hinitwf ht0 hfok
      simp only [Insert]
      rw [if_neg ht0, if_neg hfind]
      dsimp only
      rw [if_pos hpid0lt, htr, hsoor]
      dsimp only
      simp only [AllocatePage, setPage_freep]
      rw [hfree]
      dsimp only
      simp only [setPage_pages, setPage_fsm, setPage_psize, List.length_append,
        List.length_cons, List.length_nil, List.length_set, Nat.add_zero]
      rw [if_pos (by omega)]
      rw [hfok]
      try dsimp only
      have hlenA : ((h1.pages.set
          (FreeSpaceManager.Find h1.fsm (t.length % 65536))
          (SlottedPage.insert (pageAt h1
            (FreeSpaceManager.Find h1.fsm (t.length % 65536))) t).2.1) ++
          [zeroPage h1.page_size]).length = h1.pages.length + 1 := by
        simp
      have hlenF : (UpdateFsmForPage (setPage
          (⟨(h1.pages.set (FreeSpaceManager.Find h1.fsm (t.length % 65536))
              (SlottedPage.insert (pageAt h1
                (FreeSpaceManager.Find h1.fsm (t.length % 65536))) t).2.1) ++
              [zeroPage h1.page_size], [], h1.fsm,
              h1.page_size⟩ : Heap)
          h1.pages.length
          (SlottedPage.insert
            (SlottedPage.initNew h1.pages.length h1.page_size) t).2.1)
          h1.pages.length).pages.length = h1.pages.length + 1 := by
        simp [UpdateFsmForPage, setPage]
      have hpageN : pageAt (UpdateFsmForPage (setPage
          (⟨(h1.pages.set (FreeSpaceManager.Find h1.fsm (t.length % 65536))
              (SlottedPage.insert (pageAt h1
                (FreeSpaceManager.Find h1.fsm (t.length % 65536))) t).2.1) ++
              [zeroPage h1.page_size], [], h1.fsm,
              h1.page_size⟩ : Heap)
          h1.pages.length
          (SlottedPage.insert
            (SlottedPage.initNew h1.pages.length h1.page_size) t).2.1)
          h1.pages.length) h1.pages.length =
          (SlottedPage.insert
            (SlottedPage.initNew h1.pages.length h1.page_size) t).2.1 := by
        rw [pageAt_updateFsm]
        exact pageAt_setPage_self (by simp) _
      have hpageP0 : pageAt (UpdateFsmForPage (setPage
          (⟨(h1.pages.set (FreeSpaceManager.Find h1.fsm (t.length % 65536))
              (SlottedPage.insert (pageAt h1
                (FreeSpaceManager.Find h1.fsm (t.length % 65536))) t).2.1) ++
              [zeroPage h1.page_size], [], h1.fsm,
              h1.page_size⟩ : Heap)
          h1.pages.length
          (SlottedPage.insert
            (SlottedPage.initNew h1.pages.length h1.page_size) t).2.1)
          h1.pages.length) (FreeSpaceManager.Find h1.fsm (t.length % 65536)) =
          (SlottedPage.insert (pageAt h1
            (FreeSpaceManager.Find h1.fsm (t.length % 65536))) t).2.1 := by
        rw [pageAt_updateFsm, pageAt_setPage_ne (by omega)]
        unfold pageAt
        dsimp only
        rw [getD_append_lt _ _ _ _ (by simp; omega)]
        exact getD_set_self _ _ _ _ hpid0lt
      have hpageO : ∀ pid, pid < h1.pages.length →
          pid ≠ FreeSpaceManager.Find h1.fsm (t.length % 65536) →
          pageAt (UpdateFsmForPage (setPage
            (⟨(h1.pages.set (FreeSpaceManager.Find h1.fsm (t.length % 65536))
                (SlottedPage.insert (pageAt h1
                  (FreeSpaceManager.Find h1.fsm (t.length % 65536))) t).2.1) ++
                [zeroPage h1.page_size], [], h1.fsm,
                h1.page_size⟩ : Heap)
            h1.pages.length
            (SlottedPage.insert
              (SlottedPage.initNew h1.pages.length h1.page_size) t).2.1)
            h1.pages.length) pid = pageAt h1 pid := by
        intro pid hpid hne
        rw [pageAt_updateFsm, pageAt_setPage_ne (by omega)]
        unfold pageAt
        dsimp only
        rw [getD_append_lt _ _ _ _ (by simp; omega)]
        exact getD_set_ne _ _ _ _ _ hne
      refine ⟨rfl, rfl, by rw [hlenF]; omega, by rw [hlenF]; omega,
        ?_, ?_, ?_, ?_, ?_⟩
      · intro pid hpid
        rw [hlenF] at hpid
        by_cases hpn : pid = h1.pages.length
        · subst hpn
          rw [hpageN]
          exact ⟨ispec.1, ispec.2.1⟩
        · by_cases hp0 : pid = FreeSpaceManager.Find h1.fsm (t.length % 65536)
          · subst hp0
            rw [hpageP0]
            refine ⟨ospec.1, ?_⟩
            rw [ospec.2.1]
            exact hP0.2
          · rw [hpageO pid (by omega) hp0]
            exact hwf.1 pid (by omega)
      · rw [hpageN]
        exact ispec.2.2.1
      · rw [Get, if_neg (by omega)]
      · intro pid s hpid _
        by_cases hp0 : pid = FreeSpaceManager.Find h1.fsm (t.length % 65536)
        · subst hp0
          rw [hpageP0]
          exact ospec.2.2.2 s
        · rw [hpageO pid hpid hp0]
      · rw [scan_count, scan_count, hlenF, List.range_succ, List.map_append,
          List.sum_append]
        rw [sum_map_range_congr (G := fun pid =>
            countRec t (recsOf (pageAt h1 pid))) ?hcg]
        case hcg =>
          intro pid hpid
          by_cases hp0 : pid = FreeSpaceManager.Find h1.fsm (t.length % 65536)
          · subst hp0
            rw [hpageP0, recsOf_congr ospec.2.2.1 ospec.2.2.2]
          · rw [hpageO pid hpid hp0]
        simp only [List.map_cons, List.map_nil, List.sum_cons, List.sum_nil]
        rw [hpageN, insert_countRec hinitwf ht0 hfok]
        have : countRec t (recsOf
            (SlottedPage.initNew h1.pages.length h1.page_size)) = 0 := rfl
        rw [this]
        omega

end TableHeap

open TableHeap in
/-- C6 (amended): in a well-formed heap with an empty segment free list,
if the in-page update of the slot named by `rid` fails `OutOfRange`, the
new tuple fits an empty page, and the new tuple does not already occur in
a full scan, then `TableHeap::Update` returns `Ok`, the original rid
subsequently reads `NotFound`, the new tuple is readable at some other
rid, and a full scan yields exactly one copy of it. -/
theorem C6_update_relocates_tuple (h : TableHeap.Heap) (rid : Nat × Nat)
    (t : List Nat)
    (hwf : HeapWF h)
    (hfree : h.free_pages = [])
    (hpid : rid.1 < h.pages.length)
    (hoor : (SlottedPage.update (pageAt h rid.1) rid.2 t).1 = Status.outOfRange)
    (hfit : t.length + slotSize ≤ h.page_size - headerSize)
    (hcount : countRec t (scanAll h) = 0) :
    (TableHeap.Update h rid t).1 = Status.ok ∧
    TableHeap.Get (TableHeap.Update h rid t).2 rid = (Status.notFound, []) ∧
    (∃ rid2, rid2 ≠ rid ∧
      TableHeap.Get (TableHeap.Update h rid t).2 rid2 = (Status.ok, t)) ∧
    countRec t (scanAll (TableHeap.Update h rid t).2) = 1 := by
  have hP := hwf.1 rid.1 hpid
  have ht16 : t.length < 65536 := by
    have := hwf.2.1
    have := hwf.2.2.1
    simp only [headerSize, slotSize] at *
    omega
  have htr : trunc16 t = t := by
    unfold trunc16
    rw [Nat.mod_eq_of_lt ht16, List.take_length]
  obtain ⟨hslt, hlive, hlen_lt, hwfU, hpsU, hlenU, hfsU, hgetU⟩ :=
    SlottedPage.update_oor_spec hP.1 hoor
  have ht0 : ¬ t.length = 0 := by omega
  set h1 := setPage h rid.1 (SlottedPage.update (pageAt h rid.1) rid.2 t).2
    with hh1
  have hlen1 : h1.pages.length = h.pages.length := setPage_length _ _ _
  have hwf1 : HeapWF h1 := by
    refine ⟨?_, hwf.2.1, hwf.2.2.1, ?_, ?_⟩
    · intro pid hlt'
      rw [hlen1] at hlt'
      by_cases hpn : pid = rid.1
      · subst hpn
        rw [hh1, pageAt_setPage_self hpid]
        exact ⟨hwfU, by rw [hpsU]; exact hP.2⟩
      · rw [hh1, pageAt_setPage_ne hpn]
        exact hwf.1 pid hlt'
    · intro kv hkv
      rw [hlen1]
      exact hwf.2.2.2.1 kv hkv
    · rw [hlen1]
      exact hwf.2.2.2.2
  obtain ⟨hins_ok, hins_ps, hins_lenle, hins_nlt, hins_wf, hins_get,
    hins_get0, hins_oth, hins_cnt⟩ := Insert_spec h1 t hwf1 hfree ht0 hfit
  have hgetb : SlottedPage.get (pageAt h1 rid.1) rid.2 =
      (Status.ok, readBytes (pageAt h rid.1).bytes
        (pageAt h rid.1).slots[rid.2].off (pageAt h rid.1).slots[rid.2].len) := by
    rw [hh1, pageAt_setPage_self hpid, hgetU rid.2]
    exact SlottedPage.get_live hP.1 hslt hlive
  have hbOld_ne : readBytes (pageAt h rid.1).bytes
      (pageAt h rid.1).slots[rid.2].off (pageAt h rid.1).slots[rid.2].len ≠ t := by
    intro hc
    have := readBytes_length (pageAt h rid.1).bytes
      (pageAt h rid.1).slots[rid.2].off (pageAt h rid.1).slots[rid.2].len
    rw [hc] at this
    omega
  have hrne : ¬ (rid.1 = (Insert h1 t).2.2.1 ∧ rid.2 = (Insert h1 t).2.2.2) := by
    rintro ⟨e1, e2⟩
    unfold TableHeap.Get at hins_get0
    rw [← e1, ← e2, if_pos (by omega), hgetb] at hins_get0
    exact absurd (congrArg Prod.fst hins_get0) (by simp)
  have hgetr : SlottedPage.get (pageAt (Insert h1 t).2.1 rid.1) rid.2 =
      (Status.ok, readBytes (pageAt h rid.1).bytes
        (pageAt h rid.1).slots[rid.2].off (pageAt h rid.1).slots[rid.2].len) := by
    rw [hins_oth rid.1 rid.2 (by omega) hrne, hgetb]
  obtain ⟨hrlt, hrlive⟩ := SlottedPage.get_ok_elim (by rw [hgetr])
  have espec := SlottedPage.erase_spec hrlt hrlive
  have hprb : recProbe (pageAt (Insert h1 t).2.1 rid.1) rid.2 ≠ some t := by
    unfold recProbe
    rw [hgetr]
    intro hc
    exact hbOld_ne (Option.some.inj hc)
  -- reduce the goal to the erase result
  simp only [TableHeap.Update]
  rw [if_pos hpid, htr, hoor]
  dsimp only
  rw [← hh1, hins_ok]
  dsimp only
  rw [if_pos (by omega)]
  have hlenF : (UpdateFsmForPage (setPage (Insert h1 t).2.1 rid.1
      (SlottedPage.erase (pageAt (Insert h1 t).2.1 rid.1) rid.2).2)
      rid.1).pages.length = (Insert h1 t).2.1.pages.length := by
    simp [UpdateFsmForPage, setPage]
  have hpageR : pageAt (UpdateFsmForPage (setPage (Insert h1 t).2.1 rid.1
      (SlottedPage.erase (pageAt (Insert h1 t).2.1 rid.1) rid.2).2)
      rid.1) rid.1 =
      (SlottedPage.erase (pageAt (Insert h1 t).2.1 rid.1) rid.2).2 := by
    rw [pageAt_updateFsm]
    exact pageAt_setPage_self (by omega) _
  have hpageO : ∀ pid, pid ≠ rid.1 →
      pageAt (UpdateFsmForPage (setPage (Insert h1 t).2.1 rid.1
        (SlottedPage.erase (pageAt (Insert h1 t).2.1 rid.1) rid.2).2)
        rid.1) pid = pageAt (Insert h1 t).2.1 pid := by
    intro pid hne
    rw [pageAt_updateFsm]
    exact pageAt_setPage_ne hne _
  refine ⟨rfl, ?_, ?_, ?_⟩
  · unfold TableHeap.Get
    rw [if_pos (by rw [hlenF]; omega), hpageR]
    exact espec.2.2.2.1
  · refine ⟨(Insert h1 t).2.2, fun he => hrne ⟨by rw [he], by rw [he]⟩, ?_⟩
    unfold TableHeap.Get
    rw [if_pos (by rw [hlenF]; omega)]
    by_cases hnr : (Insert h1 t).2.2.1 = rid.1
    · rw [hnr, hpageR]
      rw [espec.2.2.2.2 (Insert h1 t).2.2.2
        (fun hc => hrne ⟨hnr.symm, hc.symm⟩)]
      rw [← hnr]
      exact hins_get
    · rw [hpageO _ hnr]
      exact hins_get
  · have hscanF : countRec t (scanAll (UpdateFsmForPage
        (setPage (Insert h1 t).2.1 rid.1
          (SlottedPage.erase (pageAt (Insert h1 t).2.1 rid.1) rid.2).2)
        rid.1)) = countRec t (scanAll (Insert h1 t).2.1) := by
      rw [scan_count, scan_count, hlenF]
      apply sum_map_range_congr
      intro pid hpid'
      by_cases hpn : pid = rid.1
      · subst hpn
        rw [hpageR, erase_countRec hrlt hrlive hprb]
      · rw [hpageO pid hpn]
    have hscan1 : countRec t (scanAll h1) = countRec t (scanAll h) := by
      rw [scan_count, scan_count, hlen1]
      apply sum_map_range_congr
      intro pid hpid'
      by_cases hpn : pid = rid.1
      · subst hpn
        rw [hh1, pageAt_setPage_self hpid, recsOf_congr hlenU hgetU]
      · rw [hh1, pageAt_setPage_ne hpn]
    rw [hscanF, hins_cnt, hscan1, hcount]

instance (a b : Slot) : Decidable (slotDisj a b) := by
  unfold slotDisj
  infer_instance

instance (p : SPage) : Decidable (PageWF p) :=
  decidable_of_iff
    (p.freeOff + p.freeSize + slotSize * p.slots.length = p.pageSize ∧
      headerSize ≤ p.freeOff ∧ p.pageSize ≤ 65535 ∧
      (∀ j, ∀ h : j < p.slots.length, p.slots[j].len ≠ 0 →
        headerSize ≤ p.slots[j].off ∧
          p.slots[j].off + p.slots[j].len ≤ p.freeOff) ∧
      (∀ i, ∀ hi : i < p.slots.length, ∀ j, ∀ hj : j < p.slots.length,
        i ≠ j → p.slots[i].len ≠ 0 → p.slots[j].len ≠ 0 →
          slotDisj p.slots[i] p.slots[j]))
    ⟨fun ⟨a, b, c, d, e⟩ => ⟨a, b, c, d, fun i j hi hj => e i hi j hj⟩,
     fun ⟨a, b, c, d, e⟩ => ⟨a, b, c, d, fun i hi j hj => e i j hi hj⟩⟩

instance (h : TableHeap.Heap) : Decidable (TableHeap.HeapWF h) := by
  unfold TableHeap.HeapWF
  infer_instance

/-- The relocated tuple: 13 bytes of `7`. -/
def c6t : List Nat := List.replicate 13 7

/-- A full 64-byte page: two 12-byte records, no free space left. -/
def c6page0 : SPage :=
  (SlottedPage.insert (SlottedPage.insert (SlottedPage.initNew 0 64)
    (List.replicate 12 1)).2.1 (List.replicate 12 2)).2.1

/-- A page already holding a copy of the tuple `c6t`. -/
def c6page1 : SPage := (SlottedPage.insert (SlottedPage.initNew 1 64) c6t).2.1

/-- A heap in which `c6t` already occurs once (on page 1) while page 0 is
full. -/
def c6heap : TableHeap.Heap :=
  ⟨[c6page0, c6page1], [], FreeSpaceManager.mkFSM 64 [], 64⟩

/-- The same heap without the pre-existing copy of `c6t`. -/
def c6heapW : TableHeap.Heap :=
  ⟨[c6page0], [], FreeSpaceManager.mkFSM 64 [], 64⟩

set_option maxHeartbeats 4000000 in
/-- Counterexample to C6 as claimed: updating rid `(0, 0)` of a full page
to the 13-byte tuple `c6t` relocates it (the call returns `Ok` and the old
rid reads `NotFound`), but because an identical tuple already lives on
page 1, the full scan afterwards yields two copies of `c6t`, not exactly
one. -/
theorem C6_counterexample_duplicate_copy :
    (TableHeap.Update c6heap (0, 0) c6t).1 = Status.ok ∧
    TableHeap.Get (TableHeap.Update c6heap (0, 0) c6t).2 (0, 0) =
      (Status.notFound, []) ∧
    countRec c6t (TableHeap.scanAll (TableHeap.Update c6heap (0, 0) c6t).2) = 2 :=
  ⟨by decide, by decide, by decide⟩

set_option maxHeartbeats 4000000 in
open TableHeap in
/-- Witness for the amended C6 on the concrete one-page heap. -/
theorem C6_update_relocates_tuple_witness :
    (TableHeap.Update c6heapW (0, 0) c6t).1 = Status.ok ∧
    TableHeap.Get (TableHeap.Update c6heapW (0, 0) c6t).2 (0, 0) =
      (Status.notFound, []) ∧
    (∃ rid2, rid2 ≠ (0, 0) ∧
      TableHeap.Get (TableHeap.Update c6heapW (0, 0) c6t).2 rid2 =
        (Status.ok, c6t)) ∧
    countRec c6t (TableHeap.scanAll (TableHeap.Update c6heapW (0, 0) c6t).2) = 1 :=
  C6_update_relocates_tuple c6heapW (0, 0) c6t (by decide) (by decide)
    (by decide) (by decide) (by decide) (by decide)

end DBMS
